import Mathlib

/-!
Verification of the litedown streaming markdown renderer.

This file gives a shallow embedding of the block tokenizer
(src/lib/core/tokenizer.ts), the token renderer (src/lib/core/renderer.ts),
the inline parser (inline-parser.ts), the HTML sanitizer (utils/sanitizer.ts)
and the streaming session / full-render entry points (streamdown.ts:
`render`, `StreamdownRenderer.push/finish`), together with theorems about
the testable properties stated in the specification.

Conventions of the embedding:
* JS strings are Lean `String`s, processed as `List Char`.
* JS regular expressions are hand-compiled to deterministic character-list
  scanners with the same matching semantics (documented at each definition).
* Code that can throw a runtime exception (the tokenizer's table branch can
  dereference `undefined`) returns `Except Unit`.
* External collaborators (the LaTeX-to-MathML core conversion, the mermaid
  SVG generator, Prism syntax highlighting) are parameters bundled in a
  `Collab` structure; per the specification they are external to the core.
  Calls to them that sit inside `try/catch` in the source are modelled by
  `Except Unit String`-valued functions.
* Recursive scanners take explicit fuel (always instantiated with a
  sufficient bound) so that all definitions compute by kernel reduction.
-/

namespace Litedown

/-! ## JS string primitives -/

/-- Whitespace for the JS `\s` class / `trim` family, restricted to the code
points that can actually occur here (ASCII whitespace, NBSP, BOM). -/
def isJsWs (c : Char) : Bool :=
  c = ' ' || c = '\t' || c = '\n' || c = '\r' || c = '\x0b' || c = '\x0c' ||
  c = ' ' || c = '﻿'

/-- JS `String.prototype.trimEnd` on a character list. -/
def trimEndCs (cs : List Char) : List Char :=
  (cs.reverse.dropWhile isJsWs).reverse

/-- JS `String.prototype.trimEnd`. -/
def jsTrimEnd (s : String) : String := ⟨trimEndCs s.data⟩

/-- JS `String.prototype.trimStart`. -/
def jsTrimStart (s : String) : String := ⟨s.data.dropWhile isJsWs⟩

/-- JS `String.prototype.trim`. -/
def jsTrim (s : String) : String := ⟨trimEndCs (s.data.dropWhile isJsWs)⟩

/-- JS `String.prototype.startsWith`. -/
def strStarts (s p : String) : Bool := p.data.isPrefixOf s.data

/-- JS `String.prototype.endsWith`. -/
def strEnds (s p : String) : Bool := p.data.reverse.isPrefixOf s.data.reverse

/-- JS `String.prototype.includes` for a single character. -/
def containsChar (s : String) (c : Char) : Bool := s.data.contains c

/-- Substring test (JS `String.prototype.includes`). -/
def containsStr (hay needle : String) : Bool :=
  (List.range (hay.data.length + 1)).any
    (fun i => needle.data.isPrefixOf (hay.data.drop i))

/-- JS `string.split(sep)` for a one-character separator, on char lists. -/
def splitOnCharCs (sep : Char) : List Char → List (List Char)
  | [] => [[]]
  | c :: cs =>
    if c = sep then [] :: splitOnCharCs sep cs
    else
      match splitOnCharCs sep cs with
      | [] => [[c]]
      | l :: ls => (c :: l) :: ls

/-- JS `markdown.split('\n')`. -/
def splitLines (s : String) : List String :=
  (splitOnCharCs '\n' s.data).map List.asString

/-- JS `array.join(sep)` (structural, so it reduces in the kernel). -/
def interStr (sep : String) : List String → String
  | [] => ""
  | [a] => a
  | a :: b :: rest => a ++ sep ++ interStr sep (b :: rest)

/-- JS `array.join('\n')`. -/
def joinNl (ls : List String) : String := interStr "\n" ls

/-- ASCII lower-casing, the effect of JS `toLowerCase` on the strings
handled here. -/
def lowerStr (s : String) : String := ⟨s.data.map Char.toLower⟩

/-- Case-insensitive prefix test (JS `/^.../i`-style matching). -/
def ciIsPrefixOf (p cs : List Char) : Bool :=
  match p, cs with
  | [], _ => true
  | _ :: _, [] => false
  | p :: ps, c :: cs => (p.toLower = c.toLower) && ciIsPrefixOf ps cs

/-! ## Options and token data model (types.ts) -/

/-- Block token kinds (types.ts `TokenType`). -/
inductive TokenType where
  | paragraph | heading | code_block | blockquote | list | list_item
  | hr | table | math_block | html | newline | callout | custom
  deriving DecidableEq, Repr

/-- List items (types.ts `ListItemToken`). -/
structure ListItemToken where
  indent : Nat
  content : String
  checked : Option Bool := none
  deriving DecidableEq, Repr

/-- Block tokens (types.ts `BlockToken`); optional TS fields are `Option`s. -/
structure BlockToken where
  type : TokenType
  raw : String
  text : Option String := none
  depth : Option Nat := none
  lang : Option String := none
  items : Option (List ListItemToken) := none
  ordered : Option Bool := none
  rows : Option (List (List String)) := none
  header : Option (List String) := none
  align : Option (List String) := none
  isComplete : Option Bool := none
  endOffset : Option Nat := none
  calloutType : Option String := none
  calloutTitle : Option String := none
  body : Option String := none
  deriving DecidableEq, Repr

/-- A registered plugin (plugin-api.ts `LitedownPlugin`).  Inline rules are
arbitrary `RegExp`-plus-callback pairs and post-processors arbitrary user
functions; both are modelled extensionally, by their effect on the string
they are applied to.  The render override may return `none` (TS `null`) to
defer to the built-in renderer.  Block rules are never consulted by
tokenizer.ts and are omitted. -/
structure Plugin where
  inlineRuleApp : Option (String → String) := none
  postProcess : Option (String → String) := none
  renderTokenOv : Option (BlockToken → Option String) := none

/-- `Required<StreamdownOptions>`: the fully-merged options record.  The
`onCodeBlock`/`onUpdate` callbacks only produce side effects, never output,
and are omitted from the model. -/
structure StreamdownOptions where
  math : Bool
  highlight : Bool
  mermaid : Bool
  tables : Bool
  classPrefix : String
  streaming : Bool
  cursor : String
  gfm : Bool
  sanitize : Bool
  plugins : List Plugin

/-- User-supplied options: every field optional (types.ts
`StreamdownOptions`). -/
structure PartialOptions where
  math : Option Bool := none
  highlight : Option Bool := none
  mermaid : Option Bool := none
  tables : Option Bool := none
  classPrefix : Option String := none
  streaming : Option Bool := none
  cursor : Option String := none
  gfm : Option Bool := none
  sanitize : Option Bool := none
  plugins : Option (List Plugin) := none

/-- streamdown.ts `DEFAULT_OPTIONS`. -/
def DEFAULT_OPTIONS : StreamdownOptions where
  math := true
  highlight := true
  mermaid := true
  tables := true
  classPrefix := "sd"
  streaming := true
  cursor := "▋"
  gfm := true
  sanitize := true
  plugins := []

/-- The option merge `{ ...DEFAULT_OPTIONS, ...userOptions }`. -/
def mergeOptions (u : PartialOptions) : StreamdownOptions where
  math := u.math.getD DEFAULT_OPTIONS.math
  highlight := u.highlight.getD DEFAULT_OPTIONS.highlight
  mermaid := u.mermaid.getD DEFAULT_OPTIONS.mermaid
  tables := u.tables.getD DEFAULT_OPTIONS.tables
  classPrefix := u.classPrefix.getD DEFAULT_OPTIONS.classPrefix
  streaming := u.streaming.getD DEFAULT_OPTIONS.streaming
  cursor := u.cursor.getD DEFAULT_OPTIONS.cursor
  gfm := u.gfm.getD DEFAULT_OPTIONS.gfm
  sanitize := u.sanitize.getD DEFAULT_OPTIONS.sanitize
  plugins := u.plugins.getD DEFAULT_OPTIONS.plugins

/-! ## Block tokenizer (core/tokenizer.ts)

Each JS regular expression used by the tokenizer is compiled by hand to a
deterministic function; the compilation is commented at each definition. -/

/-- `trimmed.match(/^(#{1,6})\s+(.+)$/)`: 1–6 leading `#`, at least one
whitespace, then the rest (greedy `\s+`, with the one backtracking case in
which everything after the hashes is whitespace and `.+` takes the final
whitespace character). -/
def headingMatch (trimmed : String) : Option (Nat × String) :=
  let n := (trimmed.data.takeWhile (· = '#')).length
  if 1 ≤ n && n ≤ 6 then
    match trimmed.data.drop n with
    | [] => none
    | c :: rest =>
      if isJsWs c then
        let w := (c :: rest).takeWhile isJsWs
        let r := (c :: rest).dropWhile isJsWs
        if r ≠ [] then some (n, ⟨r⟩)
        else if 2 ≤ w.length then some (n, ⟨[w.getLast!]⟩)
        else none
      else none
  else none

/-- `/^(-{3,}|\*{3,}|_{3,})$/.test(trimmed)`. -/
def isHrLine (t : String) : Bool :=
  3 ≤ t.data.length &&
  (t.data.all (· = '-') || t.data.all (· = '*') || t.data.all (· = '_'))

/-- `ql.replace(/^>\s?/, '')`: strip one leading `>` and at most one
following whitespace character. -/
def stripQuoteMark (s : String) : String :=
  match s.data with
  | '>' :: c :: rest => if isJsWs c then ⟨rest⟩ else ⟨c :: rest⟩
  | ['>'] => ""
  | cs => ⟨cs⟩

/-- The callout keywords, in the regex's alternation order. -/
def calloutKeywords : List String := ["NOTE", "TIP", "WARNING", "CAUTION", "IMPORTANT"]

/-- `quoteLines[0].match(/^\[!(NOTE|TIP|WARNING|CAUTION|IMPORTANT)\]\s*(.*)$/i)`;
returns (keyword as matched, rest after `\]\s*`). -/
def calloutMatch (s : String) : Option (String × String) :=
  match s.data with
  | '[' :: '!' :: cs =>
    (calloutKeywords.filterMap (fun kw =>
      if ciIsPrefixOf kw.data cs then
        match cs.drop kw.data.length with
        | ']' :: rest => some (⟨cs.take kw.data.length⟩, (⟨rest.dropWhile isJsWs⟩ : String))
        | _ => none
      else none)).head?
  | _ => none

/-- One cell of a table alignment row: `\s*:?-+:?\s*` (anchored). -/
def isAlignCell (s : String) : Bool :=
  let cs := s.data.dropWhile isJsWs
  let cs := match cs with | ':' :: r => r | r => r
  let ds := cs.takeWhile (· = '-')
  let cs := cs.dropWhile (· = '-')
  let cs := match cs with | ':' :: r => r | r => r
  ds ≠ [] && cs.all isJsWs

/-- `/^\|?\s*:?-+:?\s*(\|\s*:?-+:?\s*)*\|?\s*$/.test(line)`.  Splitting on
`|`, the optional leading pipe corresponds to an empty first segment, the
optional trailing pipe to a whitespace-only last segment, and every cell in
between must match `isAlignCell` (at least one cell). -/
def isAlignRow (line : String) : Bool :=
  match (splitOnCharCs '|' line.data).map List.asString with
  | [single] => isAlignCell single
  | segs =>
    let cand := match segs with
      | "" :: rest => rest
      | rest => rest
    let cells := match cand.getLast? with
      | some last => if last.data.all isJsWs then cand.dropLast else cand
      | none => cand
    cells ≠ [] && cells.all isAlignCell

/-- `parseRow`: strip one leading and one trailing `|`, split on `|`,
trim each cell. -/
def parseRow (line : String) : List String :=
  let cs := match line.data with | '|' :: r => r | r => r
  let cs := match cs.reverse with | '|' :: r => r.reverse | _ => cs
  (splitOnCharCs '|' cs).map (fun l => jsTrim ⟨l⟩)

/-- Alignment of one parsed alignment cell. -/
def alignOfCell (cell : String) : String :=
  if strStarts cell ":" && strEnds cell ":" then "center"
  else if strEnds cell ":" then "right"
  else "left"

/-- `/^(\s*)([-*+])\s/.test(line)` (unordered list start). -/
def unordStart (line : String) : Bool :=
  match line.data.dropWhile isJsWs with
  | b :: c :: _ => (b = '-' || b = '*' || b = '+') && isJsWs c
  | _ => false

/-- `line.match(/^(\s*)([-*+])\s(.*)$/)`: (indent, content). -/
def unordItem (line : String) : Option (Nat × String) :=
  let ws := line.data.takeWhile isJsWs
  match line.data.dropWhile isJsWs with
  | b :: c :: r =>
    if (b = '-' || b = '*' || b = '+') && isJsWs c then some (ws.length, ⟨r⟩) else none
  | _ => none

/-- `content.match(/^\[([ xX])\]\s(.*)/)`: (checked, rest). -/
def taskMatch (content : String) : Option (Bool × String) :=
  match content.data with
  | '[' :: m :: ']' :: c :: r =>
    if (m = ' ' || m = 'x' || m = 'X') && isJsWs c then some (m ≠ ' ', ⟨r⟩) else none
  | _ => none

/-- `/^(\s*)\d+\.\s/.test(line)` (ordered list start). -/
def ordStart (line : String) : Bool :=
  let rest := line.data.dropWhile isJsWs
  let ds := rest.takeWhile Char.isDigit
  match rest.drop ds.length with
  | '.' :: c :: _ => ds ≠ [] && isJsWs c
  | _ => false

/-- `line.match(/^(\s*)\d+\.\s(.*)$/)`: (indent, content). -/
def ordItem (line : String) : Option (Nat × String) :=
  let ws := line.data.takeWhile isJsWs
  let rest := line.data.dropWhile isJsWs
  let ds := rest.takeWhile Char.isDigit
  match rest.drop ds.length with
  | '.' :: c :: r => if ds ≠ [] && isJsWs c then some (ws.length, ⟨r⟩) else none
  | _ => false |> fun _ => none

/-- A line continues the current paragraph (the conjunction guarding the
paragraph consumption loop, negated conditions as in the source). -/
def paraCont (l : String) : Bool :=
  let te := jsTrimEnd l
  jsTrim l ≠ "" &&
  !strStarts te "#" &&
  !strStarts te "```" &&
  !strStarts te "$$" &&
  !strStarts te ">" &&
  !isHrLine te &&
  !unordStart l &&
  !ordStart l

/-- Build one list item from a matched line (unordered branch, with the GFM
task-checkbox re-parse). -/
def mkUnordListItem (opts : StreamdownOptions) (l : String) : ListItemToken :=
  match unordItem l with
  | some (indent, content) =>
    if opts.gfm then
      match taskMatch content with
      | some (ch, rest) => { indent := indent, content := rest, checked := some ch }
      | none => { indent := indent, content := content, checked := none }
    else { indent := indent, content := content, checked := none }
  | none => { indent := 0, content := "", checked := none }

/-- Build one list item from a matched line (ordered branch). -/
def mkOrdListItem (l : String) : ListItemToken :=
  match ordItem l with
  | some (indent, content) => { indent := indent, content := content, checked := none }
  | none => { indent := 0, content := "", checked := none }

/-- How many extra lines after the item run the list branch consumes: one if
the first non-item line exists and is blank (`lines[i].trim() === ''`). -/
def listBlankEat (after : List String) : Nat :=
  match after with
  | l :: _ => if jsTrim l = "" then 1 else 0
  | [] => 0

/-- One step of the tokenizer's main loop: given the current line and the
remaining lines, produce the token and the number of *extra* lines (beyond
the current one) consumed.  `.error ()` models the `TypeError` thrown in the
table branch when the consumed run has a single line (`tableLines[1]` is
`undefined` and `parseRow` dereferences it).  Branch order is the source
order. -/
def tokStep (opts : StreamdownOptions) (line : String) (rest : List String) :
    Except Unit (BlockToken × Nat) :=
  let trimmed := jsTrimEnd line
  -- Blank line
  if trimmed = "" then
    .ok ({ type := .newline, raw := "\n", isComplete := some true }, 0)
  -- Display math block
  else if opts.math && strStarts trimmed "$$" then
    if 2 < trimmed.length && strEnds trimmed "$$" && trimmed ≠ "$$" then
      let mathContent := jsTrim ⟨(trimmed.data.drop 2).take (trimmed.length - 4)⟩
      .ok ({ type := .math_block, raw := trimmed, text := some mathContent,
             isComplete := some true }, 0)
    else
      let mathLines := rest.takeWhile (fun l => !strStarts (jsTrimEnd l) "$$")
      let closed := mathLines.length < rest.length
      let raw := joinNl mathLines
      .ok ({ type := .math_block, raw := raw, text := some (jsTrim raw),
             isComplete := some closed },
           mathLines.length + (if closed then 1 else 0))
  -- Fenced code block
  else if strStarts trimmed "```" then
    let lang := jsTrim ⟨trimmed.data.drop 3⟩
    let codeLines := rest.takeWhile (fun l => !strStarts (jsTrimEnd l) "```")
    let closed := codeLines.length < rest.length
    let raw := joinNl codeLines
    .ok ({ type := .code_block, raw := raw, text := some raw,
           lang := if lang = "" then none else some lang,
           isComplete := some closed },
         codeLines.length + (if closed then 1 else 0))
  else
    -- Heading
    match headingMatch trimmed with
    | some (n, text) =>
      .ok ({ type := .heading, raw := trimmed, text := some text, depth := some n,
             isComplete := some true }, 0)
    | none =>
      -- Horizontal rule
      if isHrLine trimmed then
        .ok ({ type := .hr, raw := trimmed, isComplete := some true }, 0)
      -- Blockquote / callout
      else if strStarts trimmed ">" then
        let run := (line :: rest).takeWhile (fun l => strStarts (jsTrimEnd l) ">")
        let quoteLines := run.map (fun l => stripQuoteMark (jsTrimEnd l))
        let k := run.length - 1
        match quoteLines.head?.bind calloutMatch with
        | some (kw, title) =>
          .ok ({ type := .callout, raw := joinNl quoteLines,
                 calloutType := some (lowerStr kw),
                 calloutTitle := some (if title = "" then kw else title),
                 body := some (joinNl quoteLines.tail),
                 isComplete := some true }, k)
        | none =>
          .ok ({ type := .blockquote, raw := joinNl quoteLines,
                 text := some (joinNl quoteLines),
                 isComplete := some true }, k)
      -- Table (GFM)
      else if opts.tables && containsChar trimmed '|' && rest ≠ [] &&
          isAlignRow (jsTrimEnd (rest.headD "")) then
        let tableLines :=
          ((line :: rest).takeWhile (fun l => containsChar (jsTrimEnd l) '|')).map jsTrimEnd
        let k := tableLines.length - 1
        match tableLines with
        | _ :: alignLine :: _ =>
          let headerRow := parseRow (tableLines.headD "")
          let aligns := (parseRow alignLine).map alignOfCell
          let dataRows := (tableLines.drop 2).map parseRow
          .ok ({ type := .table, raw := joinNl tableLines,
                 header := some headerRow, align := some aligns,
                 rows := some dataRows, isComplete := some true }, k)
        | _ => .error ()
      -- Unordered list
      else if unordStart line then
        let run := (line :: rest).takeWhile (fun l => (unordItem l).isSome)
        let after := (line :: rest).drop run.length
        let items := run.map (mkUnordListItem opts)
        .ok ({ type := .list, raw := joinNl (items.map (·.content)),
               items := some items, ordered := some false,
               isComplete := some true },
             run.length + listBlankEat after - 1)
      -- Ordered list
      else if ordStart line then
        let run := (line :: rest).takeWhile (fun l => (ordItem l).isSome)
        let after := (line :: rest).drop run.length
        let items := run.map mkOrdListItem
        .ok ({ type := .list, raw := joinNl (items.map (·.content)),
               items := some items, ordered := some true,
               isComplete := some true },
             run.length + listBlankEat after - 1)
      -- Paragraph
      else
        let contLines := rest.takeWhile paraCont
        let raw := joinNl (trimmed :: contLines.map jsTrimEnd)
        .ok ({ type := .paragraph, raw := raw, text := some raw,
               isComplete := some true }, contLines.length)

/-- The tokenizer main loop.  `i` is the current line index; the produced
token's `endOffset` is the index of its last consumed line, matching the
source's `i - 1` / `i` bookkeeping in every branch.  `fuel` bounds the
number of iterations; it is always called with `fuel ≥ lines.length`, which
suffices because every step consumes at least one line. -/
def tokenizeGo (opts : StreamdownOptions) :
    Nat → List String → Nat → Except Unit (List BlockToken)
  | _, [], _ => .ok []
  | 0, _ :: _, _ => .error ()
  | fuel + 1, line :: rest, i =>
    match tokStep opts line rest with
    | .error () => .error ()
    | .ok (tok, k) =>
      match tokenizeGo opts fuel (rest.drop k) (i + 1 + k) with
      | .error () => .error ()
      | .ok ts => .ok ({ tok with endOffset := some (i + k) } :: ts)

/-- `tokenize(markdown, options)`; `.error ()` is the runtime `TypeError`
of the table branch. -/
def tokenizeE (markdown : String) (opts : StreamdownOptions) :
    Except Unit (List BlockToken) :=
  let lines := splitLines markdown
  tokenizeGo opts lines.length lines 0

/-! ## External collaborators

Per the specification the math conversion core, the mermaid SVG generator
and Prism are external collaborators of the renderer; they are parameters
of the model.  Functions whose call sites sit in `try/catch` blocks are
`Except Unit`-valued (`.error ()` models a thrown exception). -/

/-- The collaborator bundle. -/
structure Collab where
  latexToMathML : String → Except Unit String
  mermaidSvg : String → Except Unit String
  prismHasGrammar : String → Bool
  prismHighlight : String → String → Except Unit String

/-- Modelled from the spec: the HTML escaping helper `utils/escape.ts`
(imported as `escapeHtml` throughout the source) is not under src/; it is
the standard escaping of the five HTML metacharacters used before
interpolating raw source into markup. -/
def escapeHtml (s : String) : String :=
  ⟨s.data.foldr (fun c acc =>
    if c = '&' then "&amp;".data ++ acc
    else if c = '<' then "&lt;".data ++ acc
    else if c = '>' then "&gt;".data ++ acc
    else if c = '"' then "&quot;".data ++ acc
    else if c = '\'' then "&#39;".data ++ acc
    else c :: acc) []⟩

/-- math-renderer.ts `renderInlineMath`: wrap the converted math in an
inline `<math>` element; a thrown conversion error is caught and produces
the escaped-source fallback. -/
def renderInlineMathStr (collab : Collab) (latex : String) : String :=
  match collab.latexToMathML latex with
  | .ok inner => "<math xmlns=\"http://www.w3.org/1998/Math/MathML\">" ++ inner ++ "</math>"
  | .error () => "<code class=\"math-error\">" ++ escapeHtml latex ++ "</code>"

/-- math-renderer.ts `renderDisplayMath`: display variant of the same. -/
def renderDisplayMathStr (collab : Collab) (latex : String) : String :=
  match collab.latexToMathML latex with
  | .ok inner =>
    "<math xmlns=\"http://www.w3.org/1998/Math/MathML\" display=\"block\">" ++ inner ++ "</math>"
  | .error () => "<pre class=\"math-error\"><code>" ++ escapeHtml latex ++ "</code></pre>"

/-- highlight.ts `LANG_ALIASES`. -/
def LANG_ALIASES : List (String × String) :=
  [("js", "javascript"), ("ts", "typescript"), ("py", "python"), ("rb", "ruby"),
   ("sh", "bash"), ("shell", "bash"), ("zsh", "bash"), ("yml", "yaml"),
   ("html", "markup"), ("xml", "markup"), ("svg", "markup"), ("cs", "csharp"),
   ("c++", "cpp"), ("objective-c", "c"), ("objc", "c"), ("jsonc", "json")]

/-- Association-list lookup (JS object indexing). -/
def tblLookup (m : List (String × String)) (k : String) : Option String :=
  (m.find? (fun p => p.1 = k)).map (·.2)

/-- highlight.ts `highlightCode`. -/
def highlightCode (collab : Collab) (code : String) (lang : String) : String :=
  if lang = "" then escapeHtml code
  else
    let normalizedLang := jsTrim (lowerStr lang)
    let resolvedLang := (tblLookup LANG_ALIASES normalizedLang).getD normalizedLang
    if !collab.prismHasGrammar resolvedLang then escapeHtml code
    else
      match collab.prismHighlight code resolvedLang with
      | .ok h => h
      | .error () => escapeHtml code

/-- highlight.ts `getLanguageDisplayName`'s `displayNames` table. -/
def DISPLAY_NAMES : List (String × String) :=
  [("javascript", "JavaScript"), ("typescript", "TypeScript"), ("python", "Python"),
   ("bash", "Bash"), ("json", "JSON"), ("css", "CSS"), ("html", "HTML"),
   ("jsx", "JSX"), ("tsx", "TSX"), ("sql", "SQL"), ("yaml", "YAML"),
   ("rust", "Rust"), ("go", "Go"), ("java", "Java"), ("c", "C"), ("cpp", "C++"),
   ("csharp", "C#"), ("ruby", "Ruby"), ("php", "PHP"), ("swift", "Swift"),
   ("kotlin", "Kotlin"), ("dart", "Dart"), ("markdown", "Markdown"), ("markup", "HTML")]

/-- highlight.ts `getLanguageDisplayName`. -/
def getLanguageDisplayName (lang : String) : String :=
  let normalized := (tblLookup LANG_ALIASES (lowerStr lang)).getD (lowerStr lang)
  (tblLookup DISPLAY_NAMES normalized).getD lang

/-! ## Inline parser (core/inline-parser.ts)

Each global regex replacement is a fueled left-to-right scanner over the
character list; fuel is the list length (every scan step consumes at least
one character). -/

/-- inline-parser.ts `DANGEROUS_PROTOCOL` test `/^\s*(javascript|vbscript|data)\s*:/i`
(identical to the sanitizer's `DANGEROUS_PROTOCOLS`). -/
def dangerousProtocol (href : String) : Bool :=
  let cs := href.data.dropWhile isJsWs
  ["javascript", "vbscript", "data"].any (fun kw =>
    ciIsPrefixOf kw.data cs &&
    match (cs.drop kw.length).dropWhile isJsWs with
    | ':' :: _ => true
    | _ => false)

/-- inline-parser.ts `sanitizeHref`. -/
def sanitizeHref (href : String) : String :=
  if dangerousProtocol href then "#" else href

/-- Match for `` /`([^`]+)`/ `` at the current position: (content, rest). -/
def findCodeSpan (cs : List Char) : Option (List Char × List Char) :=
  match cs with
  | '`' :: rest =>
    let content := rest.takeWhile (· ≠ '`')
    match rest.drop content.length with
    | '`' :: tail => if content ≠ [] then some (content, tail) else none
    | _ => none
  | _ => none

/-- Step 1: inline code spans. -/
def replCode : Nat → List Char → List Char
  | _, [] => []
  | 0, cs => cs
  | fuel + 1, c :: cs =>
    match findCodeSpan (c :: cs) with
    | some (content, tail) =>
      "<code class=\"sd-inline-code\">".data ++ content ++ "</code>".data ++ replCode fuel tail
    | none => c :: replCode fuel cs

/-- Lazy search for the closing delimiter of
`(?<!d)d(?!d)(.+?)(?<!d)d(?!d)` after the opening `d`: the first position
whose character is `d`, preceded by a non-`d` content character and not
followed by `d`; `.` does not cross a newline.  Returns (content, rest). -/
def findSingleClose (d : Char) : Nat → List Char → List Char →
    Option (List Char × List Char)
  | 0, _, _ => none
  | _, _, [] => none
  | fuel + 1, acc, c :: cs =>
    if c = '\n' then none
    else
      match cs with
      | c2 :: after =>
        if c2 = d && c ≠ d && after.head? ≠ some d then some (acc ++ [c], after)
        else findSingleClose d fuel (acc ++ [c]) cs
      | [] => none

/-- Scanner for single-character lookaround-guarded delimiters
(inline `$` math, single `*` and `_` italics); `prev` is the character
preceding the scan position in the original string. -/
def replSingleDelim (d : Char) (wrap : String → String) :
    Nat → Option Char → List Char → List Char
  | _, _, [] => []
  | 0, _, cs => cs
  | fuel + 1, prev, c :: cs =>
    if c = d && prev ≠ some d && cs.head? ≠ some d then
      match findSingleClose d cs.length [] cs with
      | some (content, rest) =>
        (wrap ⟨content⟩).data ++ replSingleDelim d wrap fuel (some d) rest
      | none => c :: replSingleDelim d wrap fuel (some d) cs
    else c :: replSingleDelim d wrap fuel (some c) cs

/-- Lazy search for a multi-character closing delimiter (`(.+?)` then the
literal delimiter). -/
def findLazyClose (delim : List Char) : Nat → List Char → List Char →
    Option (List Char × List Char)
  | 0, _, _ => none
  | _, _, [] => none
  | fuel + 1, acc, c :: cs =>
    if c = '\n' then none
    else if delim.isPrefixOf cs then some (acc ++ [c], cs.drop delim.length)
    else findLazyClose delim fuel (acc ++ [c]) cs

/-- Scanner for plain multi-character delimiters (`***`, `___`, `**`, `__`,
`~~`, `==`): replace `delim (.+?) delim` with `pre ++ content ++ post`. -/
def replDelim (delim pre post : List Char) : Nat → List Char → List Char
  | _, [] => []
  | 0, cs => cs
  | fuel + 1, c :: cs =>
    if delim.isPrefixOf (c :: cs) then
      let b := (c :: cs).drop delim.length
      match findLazyClose delim b.length [] b with
      | some (content, tail) => pre ++ content ++ post ++ replDelim delim pre post fuel tail
      | none => c :: replDelim delim pre post fuel cs
    else c :: replDelim delim pre post fuel cs

/-- Match for `/!\[([^\]]*)\]\(([^)]+)\)/` at the current position. -/
def findImage (cs : List Char) : Option (List Char × List Char × List Char) :=
  match cs with
  | '!' :: '[' :: rest =>
    let alt := rest.takeWhile (· ≠ ']')
    match rest.drop alt.length with
    | ']' :: '(' :: r2 =>
      let url := r2.takeWhile (· ≠ ')')
      match r2.drop url.length with
      | ')' :: tail => if url ≠ [] then some (alt, url, tail) else none
      | _ => none
    | _ => none
  | _ => none

/-- Step 3: images. -/
def replImage : Nat → List Char → List Char
  | _, [] => []
  | 0, cs => cs
  | fuel + 1, c :: cs =>
    match findImage (c :: cs) with
    | some (alt, url, tail) =>
      "<img src=\"".data ++ url ++ "\" alt=\"".data ++ alt ++
        "\" class=\"sd-image\" loading=\"lazy\" />".data ++ replImage fuel tail
    | none => c :: replImage fuel cs

/-- Match for `/\[([^\]]+)\]\(([^)]+)\)/` at the current position. -/
def findLink (cs : List Char) : Option (List Char × List Char × List Char) :=
  match cs with
  | '[' :: rest =>
    let txt := rest.takeWhile (· ≠ ']')
    if txt = [] then none
    else
      match rest.drop txt.length with
      | ']' :: '(' :: r2 =>
        let url := r2.takeWhile (· ≠ ')')
        match r2.drop url.length with
        | ')' :: tail => if url ≠ [] then some (txt, url, tail) else none
        | _ => none
      | _ => none
  | _ => none

/-- Step 4: links, with href sanitization. -/
def replLink : Nat → List Char → List Char
  | _, [] => []
  | 0, cs => cs
  | fuel + 1, c :: cs =>
    match findLink (c :: cs) with
    | some (txt, url, tail) =>
      "<a href=\"".data ++ (sanitizeHref ⟨url⟩).data ++
        "\" class=\"sd-link\" target=\"_blank\" rel=\"noopener noreferrer\">".data ++
        txt ++ "</a>".data ++ replLink fuel tail
    | none => c :: replLink fuel cs

/-- Match for `/\^([^\s^]+)\^/` at the current position. -/
def findSup (cs : List Char) : Option (List Char × List Char) :=
  match cs with
  | '^' :: rest =>
    let content := rest.takeWhile (fun c => !isJsWs c && c ≠ '^')
    match rest.drop content.length with
    | '^' :: tail => if content ≠ [] then some (content, tail) else none
    | _ => none
  | _ => none

/-- Step 9: superscript. -/
def replSup : Nat → List Char → List Char
  | _, [] => []
  | 0, cs => cs
  | fuel + 1, c :: cs =>
    match findSup (c :: cs) with
    | some (content, tail) =>
      "<sup>".data ++ content ++ "</sup>".data ++ replSup fuel tail
    | none => c :: replSup fuel cs

/-- inline-parser.ts `processInline`: the ordered substitution chain.  The
`try/catch` around `renderInlineMath` is unreachable because
`renderInlineMath` catches internally; plugin inline rules are the
session's registered rule applications, in order. -/
def processInline (collab : Collab) (opts : StreamdownOptions)
    (extraRules : List (String → String)) (text : String) : String :=
  let r := text.data
  let r := replCode r.length r
  let r := if opts.math && !opts.streaming then
      replSingleDelim '$' (renderInlineMathStr collab) r.length none r
    else r
  let r := replImage r.length r
  let r := replLink r.length r
  let r := replDelim "***".data "<strong><em>".data "</em></strong>".data r.length r
  let r := replDelim "___".data "<strong><em>".data "</em></strong>".data r.length r
  let r := replDelim "**".data "<strong>".data "</strong>".data r.length r
  let r := replDelim "__".data "<strong>".data "</strong>".data r.length r
  let r := replSingleDelim '*' (fun s => "<em>" ++ s ++ "</em>") r.length none r
  let r := replSingleDelim '_' (fun s => "<em>" ++ s ++ "</em>") r.length none r
  let r := if opts.gfm then replDelim "~~".data "<del>".data "</del>".data r.length r else r
  let r := replSup r.length r
  let r := replDelim "==".data "<mark>".data "</mark>".data r.length r
  extraRules.foldl (fun acc f => f acc) ⟨r⟩

/-! ## Token renderer (core/renderer.ts) -/

/-- renderer.ts `CALLOUT_ICONS`. -/
def CALLOUT_ICONS : List (String × String) :=
  [("note", "📝"), ("tip", "💡"), ("warning", "⚠️"), ("caution", "🔴"), ("important", "❗")]

/-- Characters kept verbatim by the heading-id slug. -/
def isSlugChar (c : Char) : Bool := ('a' ≤ c && c ≤ 'z') || ('0' ≤ c && c ≤ '9')

/-- Collapse runs of `-` produced by `replace(/[^a-z0-9]+/g, '-')`;
`prevDash` tracks whether the previously emitted character was a dash. -/
def collapseDashesGo : Bool → List Char → List Char
  | _, [] => []
  | prevDash, c :: cs =>
    if c = '-' then
      if prevDash then collapseDashesGo true cs else '-' :: collapseDashesGo true cs
    else c :: collapseDashesGo false cs

/-- The heading-id computation
`text.toLowerCase().replace(/[^a-z0-9]+/g,'-').replace(/(^-|-$)/g,'')`:
lower-case, replace every maximal run of non-slug characters by one dash,
then drop one leading and one trailing dash. -/
def slugify (s : String) : String :=
  let mapped := s.data.map (fun c => if isSlugChar c.toLower then c.toLower else '-')
  let collapsed := collapseDashesGo false mapped
  let collapsed := match collapsed with | '-' :: r => r | r => r
  let collapsed := match collapsed.reverse with | '-' :: r => r.reverse | _ => collapsed
  ⟨collapsed⟩

/-- renderer.ts `renderHeading`. -/
def renderHeading (collab : Collab) (opts : StreamdownOptions)
    (inlineRules : List (String → String)) (token : BlockToken) : String :=
  let level := match token.depth with | some d => if d = 0 then 1 else d | none => 1
  let text := processInline collab opts inlineRules (token.text.getD "")
  let id := slugify (token.text.getD "")
  "<h" ++ toString level ++ " id=\"" ++ id ++ "\" class=\"sd-h" ++ toString level ++ "\">" ++
    text ++ "</h" ++ toString level ++ ">"

/-- renderer.ts `renderParagraph`. -/
def renderParagraph (collab : Collab) (opts : StreamdownOptions)
    (inlineRules : List (String → String)) (token : BlockToken) : String :=
  let lines := splitLines (token.text.getD "")
  let processed := interStr "<br />\n" (lines.map (processInline collab opts inlineRules))
  "<p class=\"sd-p\">" ++ processed ++ "</p>"

/-- renderer.ts `renderCodeBlock` (the `onCodeBlock` callback only has a
side effect and is omitted). -/
def renderCodeBlock (collab : Collab) (opts : StreamdownOptions) (token : BlockToken) : String :=
  let code := token.text.getD ""
  let lang := token.lang.getD ""
  if opts.mermaid && lowerStr lang = "mermaid" then
    match collab.mermaidSvg code with
    | .ok svg => "<div class=\"sd-mermaid\">" ++ svg ++ "</div>"
    | .error () => "<div class=\"sd-mermaid sd-error\">Error rendering diagram</div>"
  else
    let highlighted := if opts.highlight then highlightCode collab code lang else escapeHtml code
    let langDisplay := if lang ≠ "" then getLanguageDisplayName lang else ""
    let langLabel :=
      if langDisplay ≠ "" then "<div class=\"sd-code-lang\">" ++ escapeHtml langDisplay ++ "</div>"
      else ""
    "<div class=\"sd-code-block\">" ++ langLabel ++
      "<pre class=\"sd-pre\"><code class=\"language-" ++
      escapeHtml (if lang = "" then "text" else lang) ++ "\">" ++ highlighted ++
      "</code></pre></div>"

/-- renderer.ts `renderMathBlock`.  Its `try/catch` is unreachable:
`renderDisplayMath` catches every conversion failure internally and returns
the escaped-source fallback, so the happy path below is the whole
behavior. -/
def renderMathBlock (collab : Collab) (token : BlockToken) : String :=
  "<div class=\"sd-math-display\">" ++ renderDisplayMathStr collab (token.text.getD "") ++ "</div>"

/-- renderer.ts `renderBlockquote`. -/
def renderBlockquote (collab : Collab) (opts : StreamdownOptions)
    (inlineRules : List (String → String)) (token : BlockToken) : String :=
  let innerLines := splitLines (token.text.getD "")
  let innerHtml := interStr "<br />\n" (innerLines.map (processInline collab opts inlineRules))
  "<blockquote class=\"sd-blockquote\"><p class=\"sd-p\">" ++ innerHtml ++ "</p></blockquote>"

/-- renderer.ts `renderCallout`. -/
def renderCallout (collab : Collab) (opts : StreamdownOptions)
    (inlineRules : List (String → String)) (token : BlockToken) : String :=
  let ty := token.calloutType.getD "note"
  let title := token.calloutTitle.getD ty
  let icon := (tblLookup CALLOUT_ICONS ty).getD "📌"
  let bodyLines := (splitLines (token.body.getD "")).filter (fun l => jsTrim l ≠ "")
  let bodyHtml := interStr "<br />\n" (bodyLines.map (processInline collab opts inlineRules))
  "<div class=\"sd-callout sd-callout-" ++ ty ++ "\"><div class=\"sd-callout-title\">" ++
    icon ++ " " ++ escapeHtml title ++ "</div><div class=\"sd-callout-body\">" ++
    bodyHtml ++ "</div></div>"

/-- renderer.ts `renderTable`; `aligns[i] || 'left'` and `row[i] || ''`
default missing entries (a present empty cell behaves like the default in
both cases). -/
def renderTable (token : BlockToken) : String :=
  let header := token.header.getD []
  let aligns := token.align.getD []
  let rows := token.rows.getD []
  let alignAt := fun (i : Nat) =>
    let a := (aligns.getD i "")
    if a = "" then "left" else a
  let headCells := String.join ((List.range header.length).map (fun i =>
    "<th style=\"text-align:" ++ alignAt i ++ "\">" ++ header.getD i "" ++ "</th>"))
  let bodyRows := String.join (rows.map (fun row =>
    "<tr>" ++ String.join ((List.range header.length).map (fun i =>
      "<td style=\"text-align:" ++ alignAt i ++ "\">" ++ row.getD i "" ++ "</td>")) ++ "</tr>"))
  "<div class=\"sd-table-wrapper\"><table class=\"sd-table\"><thead><tr>" ++ headCells ++
    "</tr></thead><tbody>" ++ bodyRows ++ "</tbody></table></div>"

/-- renderer.ts `renderList`. -/
def renderList (collab : Collab) (opts : StreamdownOptions)
    (inlineRules : List (String → String)) (token : BlockToken) : String :=
  let tag := if token.ordered.getD false then "ol" else "ul"
  let items := token.items.getD []
  let renderedItems := items.map (fun item =>
    let indentStyle :=
      if 0 < item.indent then " style=\"margin-left:" ++ toString (item.indent * 10) ++ "px\""
      else ""
    let content := processInline collab opts inlineRules item.content
    match item.checked with
    | some ch =>
      let checkIcon := if ch then "☑" else "☐"
      "<li class=\"sd-li sd-task-item\"" ++ indentStyle ++ "><span class=\"sd-checkbox\">" ++
        checkIcon ++ "</span> " ++ content ++ "</li>"
    | none => "<li class=\"sd-li\"" ++ indentStyle ++ ">" ++ content ++ "</li>")
  joinNl (("<" ++ tag ++ " class=\"sd-list sd-" ++ tag ++ "\">") ::
    (renderedItems ++ ["</" ++ tag ++ ">"]))

/-- renderer.ts `renderSingleToken`. -/
def renderSingleToken (collab : Collab) (opts : StreamdownOptions)
    (inlineRules : List (String → String)) (token : BlockToken) : String :=
  match token.type with
  | .heading => renderHeading collab opts inlineRules token
  | .paragraph => renderParagraph collab opts inlineRules token
  | .code_block => renderCodeBlock collab opts token
  | .math_block => renderMathBlock collab token
  | .hr => "<hr class=\"sd-hr\" />"
  | .blockquote => renderBlockquote collab opts inlineRules token
  | .callout => renderCallout collab opts inlineRules token
  | .table => renderTable token
  | .list => renderList collab opts inlineRules token
  | _ => ""

/-- plugin-api.ts `PluginManager.renderToken`: first non-null override
wins, otherwise the default fragment.  (A TS override receives the default
as a thunk; the model captures the override's produced fragment.) -/
def renderTokenOv (plugins : List Plugin) (token : BlockToken) (dflt : String) : String :=
  match plugins.filterMap (fun p => p.renderTokenOv.bind (fun f => f token)) with
  | s :: _ => s
  | [] => dflt

/-- renderer.ts `renderTokens`: newline tokens are skipped, the remaining
fragments joined with a newline. -/
def renderTokensStr (collab : Collab) (opts : StreamdownOptions) (plugins : List Plugin)
    (inlineRules : List (String → String)) (tokens : List BlockToken) : String :=
  joinNl ((tokens.filter (fun t => t.type ≠ .newline)).map (fun t =>
    renderTokenOv plugins t (renderSingleToken collab opts inlineRules t)))

/-- plugin-api.ts `PluginManager.applyPostProcessors`. -/
def applyPostProcessors (plugins : List Plugin) (html : String) : String :=
  plugins.foldl (fun acc p => match p.postProcess with | some f => f acc | none => acc) html

/-! ## HTML sanitizer (utils/sanitizer.ts) -/

/-- part of sanitizer.ts `ALLOWED_TAGS`. -/
def ALLOWED_TAGS : List String :=
  ["p", "div", "span", "br", "hr",
   "h1", "h2", "h3", "h4", "h5", "h6",
   "strong", "em", "b", "i", "u", "del", "s", "mark", "sup", "sub", "code", "kbd",
   "a", "img",
   "ul", "ol", "li",
   "table", "thead", "tbody", "tfoot", "tr", "th", "td", "caption", "colgroup", "col",
   "blockquote", "pre",
   "math", "mrow", "mi", "mn", "mo", "ms", "mtext", "mspace",
   "msup", "msub", "msubsup", "munder", "mover", "munderover",
   "mfrac", "msqrt", "mroot", "mtable", "mtr", "mtd",
   "mfenced", "menclose", "mpadded", "mphantom", "mstyle", "merror",
   "svg", "g", "path", "rect", "circle", "ellipse", "line", "polyline", "polygon",
   "text", "tspan", "defs", "marker", "use", "clippath"]

/-- sanitizer.ts `ALLOWED_ATTRS`. -/
def ALLOWED_ATTRS : List String :=
  ["id", "class", "style", "title", "lang", "dir",
   "href", "target", "rel",
   "src", "alt", "width", "height", "loading",
   "colspan", "rowspan", "scope",
   "viewbox", "xmlns", "fill", "stroke", "stroke-width", "d", "x", "y",
   "cx", "cy", "r", "rx", "ry", "x1", "y1", "x2", "y2",
   "transform", "text-anchor", "dominant-baseline", "font-size", "font-family", "font-weight",
   "opacity", "stroke-dasharray", "marker-end", "marker-start",
   "points", "refx", "refy", "markerwidth", "markerheight", "orient",
   "preserveaspectratio", "clip-path",
   "mathvariant", "displaystyle", "display", "stretchy", "fence", "separator",
   "lspace", "rspace", "minsize", "maxsize", "movablelimits", "accent",
   "columnspacing", "rowspacing", "columnalign", "rowalign", "columnlines", "rowlines", "frame"]

/-- sanitizer.ts tag names whose elements are removed wholesale. -/
def DANGEROUS_TAGS : List String :=
  ["script", "iframe", "object", "embed", "form", "style", "link", "meta", "base"]

/-- JS `\w` (word character) for `\b` boundaries. -/
def isWordChar (c : Char) : Bool := c.isAlphanum || c = '_'

/-- Parse `(script|iframe|...)\b[^>]*>` case-insensitively at the position
just after a `<`; returns (canonical tag, rest after `>`). -/
def dangerOpen (cs : List Char) : Option (String × List Char) :=
  (DANGEROUS_TAGS.filterMap (fun tag =>
    if ciIsPrefixOf tag.data cs then
      let rest := cs.drop tag.length
      if (rest.head?.map isWordChar).getD false then none
      else
        let attrs := rest.takeWhile (· ≠ '>')
        match rest.drop attrs.length with
        | '>' :: tail => some (tag, tail)
        | _ => none
    else none)).head?

/-- Lazy search (`[\s\S]*?`) for the backreferenced closing tag
`</tag>` (case-insensitive under the `i` flag); returns the rest after
it. -/
def findCloser (tag : String) : Nat → List Char → Option (List Char)
  | 0, _ => none
  | _, [] => none
  | fuel + 1, c :: cs =>
    if c = '<' then
      match cs with
      | '/' :: r =>
        if ciIsPrefixOf tag.data r && (r.drop tag.length).head? = some '>' then
          some ((r.drop tag.length).drop 1)
        else findCloser tag fuel cs
      | _ => findCloser tag fuel cs
    else findCloser tag fuel cs

/-- sanitizeHtml pass 1: remove matched dangerous elements with their
content. -/
def sanPass1 : Nat → List Char → List Char
  | _, [] => []
  | 0, cs => cs
  | fuel + 1, c :: cs =>
    if c = '<' then
      match dangerOpen cs with
      | some (tag, afterOpen) =>
        match findCloser tag afterOpen.length afterOpen with
        | some tail => sanPass1 fuel tail
        | none => c :: sanPass1 fuel cs
      | none => c :: sanPass1 fuel cs
    else c :: sanPass1 fuel cs

/-- sanitizeHtml pass 2: remove unpaired dangerous open tags. -/
def sanPass2 : Nat → List Char → List Char
  | _, [] => []
  | 0, cs => cs
  | fuel + 1, c :: cs =>
    if c = '<' then
      match dangerOpen cs with
      | some (_, tail) => sanPass2 fuel tail
      | none => c :: sanPass2 fuel cs
    else c :: sanPass2 fuel cs

/-- Parse the tag name `([a-zA-Z][a-zA-Z0-9-]*)\b`: the greedy name run
backtracks until the `\b` boundary holds (relevant when the run ends in
`-`, which is not a word character). -/
def tagNameSplit (cs : List Char) : Option (List Char × List Char) :=
  match cs with
  | [] => none
  | c :: rest =>
    if !c.isAlpha then none
    else
      let runExtra := rest.takeWhile (fun x => x.isAlphanum || x = '-')
      let full := c :: runExtra
      match (List.range full.length).map (fun d => full.length - d) |>.find? (fun j =>
        let p := full.take j
        match p.getLast? with
        | some lastC => isWordChar lastC != ((cs.drop j).head?.map isWordChar).getD false
        | none => false) with
      | some j => some (full.take j, cs.drop j)
      | none => none

/-- sanitizer.ts `EVENT_ATTR_PATTERN` `/^on[a-z]/i` applied to the already
lower-cased attribute name. -/
def eventAttr (name : String) : Bool :=
  match name.data with
  | 'o' :: 'n' :: c :: _ => 'a' ≤ c && c ≤ 'z'
  | _ => false

/-- sanitizer.ts `escapeAttrValue`. -/
def escapeAttrValue (v : String) : String :=
  ⟨v.data.foldr (fun c acc => if c = '"' then "&quot;".data ++ acc else c :: acc) []⟩

/-- The `exec` loop over
`([a-zA-Z][a-zA-Z0-9_-]*)\s*(?:=\s*(?:"([^"]*)"|'([^']*)'|([^\s>]+)))?`:
produces the (name, value) pairs in scan order.  When no value alternative
matches, the optional group matches empty and the value is the empty
string. -/
def attrScan : Nat → List Char → List (String × String)
  | _, [] => []
  | 0, _ => []
  | fuel + 1, c :: cs =>
    if c.isAlpha then
      let nameExtra := cs.takeWhile (fun x => x.isAlphanum || x = '_' || x = '-')
      let name : String := ⟨c :: nameExtra⟩
      let rest1 := (cs.drop nameExtra.length).dropWhile isJsWs
      match rest1 with
      | '=' :: r2 =>
        let r3 := r2.dropWhile isJsWs
        match r3 with
        | '"' :: r4 =>
          let v := r4.takeWhile (· ≠ '"')
          match r4.drop v.length with
          | '"' :: tail => (name, ⟨v⟩) :: attrScan fuel tail
          | _ =>
            let v2 := r3.takeWhile (fun x => !isJsWs x && x ≠ '>')
            if v2 ≠ [] then (name, ⟨v2⟩) :: attrScan fuel (r3.drop v2.length)
            else (name, "") :: attrScan fuel rest1
        | '\'' :: r4 =>
          let v := r4.takeWhile (· ≠ '\'')
          match r4.drop v.length with
          | '\'' :: tail => (name, ⟨v⟩) :: attrScan fuel tail
          | _ =>
            let v2 := r3.takeWhile (fun x => !isJsWs x && x ≠ '>')
            if v2 ≠ [] then (name, ⟨v2⟩) :: attrScan fuel (r3.drop v2.length)
            else (name, "") :: attrScan fuel rest1
        | _ =>
          let v2 := r3.takeWhile (fun x => !isJsWs x && x ≠ '>')
          if v2 ≠ [] then (name, ⟨v2⟩) :: attrScan fuel (r3.drop v2.length)
          else (name, "") :: attrScan fuel rest1
      | _ => (name, "") :: attrScan fuel rest1
    else attrScan fuel cs

/-- sanitizer.ts `sanitizeAttributes`. -/
def sanitizeAttributes (attrString : String) : String :=
  ((attrScan (attrString.data.length + 1) attrString.data).filterMap (fun p =>
    let name := lowerStr p.1
    if eventAttr name then none
    else if !(ALLOWED_ATTRS.contains name) then none
    else if (name = "href" || name = "src") && dangerousProtocol p.2 then none
    else some (" " ++ name ++ "=\"" ++ escapeAttrValue p.2 ++ "\""))).foldl (· ++ ·) ""

/-- Parse and rebuild one generic tag
`<\/?([a-zA-Z][a-zA-Z0-9-]*)\b([^>]*)\/?\s*>` at the position after `<`;
returns (replacement, rest after the match). -/
def sanTagAt (cs : List Char) : Option (List Char × List Char) :=
  let p := match cs with
    | '/' :: r => (true, r)
    | r => (false, r)
  match tagNameSplit p.2 with
  | none => none
  | some (nameCs, afterName) =>
    let attrs := afterName.takeWhile (· ≠ '>')
    match afterName.drop attrs.length with
    | '>' :: tail =>
      let tag := lowerStr ⟨nameCs⟩
      let repl :=
        if !(ALLOWED_TAGS.contains tag) then ""
        else if p.1 then "</" ++ tag ++ ">"
        else
          let clean := sanitizeAttributes ⟨attrs⟩
          let selfClose := if attrs.getLast? = some '/' then " /" else ""
          "<" ++ tag ++ clean ++ selfClose ++ ">"
      some (repl.data, tail)
    | _ => none

/-- sanitizeHtml pass 3: rebuild or strip every remaining tag. -/
def sanPass3 : Nat → List Char → List Char
  | _, [] => []
  | 0, cs => cs
  | fuel + 1, c :: cs =>
    if c = '<' then
      match sanTagAt cs with
      | some (repl, tail) => repl ++ sanPass3 fuel tail
      | none => c :: sanPass3 fuel cs
    else c :: sanPass3 fuel cs

/-- sanitizer.ts `sanitizeHtml`: the three passes in order. -/
def sanitizeHtml (html : String) : String :=
  let r1 := sanPass1 html.data.length html.data
  let r2 := sanPass2 r1.length r1
  ⟨sanPass3 r2.length r2⟩

/-! ## Full render and the streaming session (streamdown.ts) -/

/-- The inline-rule applications registered by the session's plugins
(plugin-api.ts `getInlineRules`). -/
def pluginInlineRules (plugins : List Plugin) : List (String → String) :=
  plugins.filterMap (·.inlineRuleApp)

/-- streamdown.ts `render` on already-merged options:
tokenize → render tokens → post-process → sanitize. -/
def renderMerged (collab : Collab) (opts : StreamdownOptions) (markdown : String) :
    Except Unit String :=
  let plugins := opts.plugins
  let inlineRules := pluginInlineRules plugins
  match tokenizeE markdown opts with
  | .error () => .error ()
  | .ok tokens =>
    let html := renderTokensStr collab opts plugins inlineRules tokens
    let html := applyPostProcessors plugins html
    .ok (if opts.sanitize then sanitizeHtml html else html)

/-- streamdown.ts `render(markdown, userOptions)`. -/
def renderE (collab : Collab) (markdown : String) (userOptions : PartialOptions) :
    Except Unit String :=
  renderMerged collab (mergeOptions userOptions) markdown

/-- The mutable state of a `StreamdownRenderer`. -/
structure SessionState where
  buffer : String
  completedTokens : List BlockToken
  completedHtml : String
  deriving Repr

/-- A fresh `StreamdownRenderer`. -/
def initSession : SessionState where
  buffer := ""
  completedTokens := []
  completedHtml := ""

/-- The committed tokens of one pass: complete and not in last position. -/
def committedOf (ts : List BlockToken) : List BlockToken :=
  (ts.enum.filter (fun p => p.2.isComplete = some true && p.1 + 1 < ts.length)).map (·.2)

/-- The pending tokens of one pass (the complement, in order). -/
def pendingOf (ts : List BlockToken) : List BlockToken :=
  (ts.enum.filter (fun p => !(p.2.isComplete = some true && p.1 + 1 < ts.length))).map (·.2)

/-- streamdown.ts `renderIncremental`: returns the updated checkpoint cache
and the produced HTML.  `.error ()` is a tokenizer exception (thrown before
any cache write). -/
def renderIncrementalE (collab : Collab) (opts : StreamdownOptions) (st : SessionState) :
    Except Unit (SessionState × String) :=
  let plugins := opts.plugins
  let inlineRules := pluginInlineRules plugins
  match tokenizeE st.buffer opts with
  | .error () => .error ()
  | .ok allTokens =>
    let committed := committedOf allTokens
    let pending := pendingOf allTokens
    let committedChanged :=
      committed.length ≠ st.completedTokens.length ||
      (committed.zip st.completedTokens).any (fun p => p.1.raw ≠ p.2.raw)
    let cToks := if committedChanged then committed else st.completedTokens
    let cHtml := if committedChanged then
        renderTokensStr collab opts plugins inlineRules committed
      else st.completedHtml
    let pendingHtml := renderTokensStr collab opts plugins inlineRules pending
    let html := if pendingHtml ≠ "" then
        (if cHtml ≠ "" then cHtml ++ "\n" ++ pendingHtml else pendingHtml)
      else cHtml
    let html := applyPostProcessors plugins html
    let html := if opts.sanitize then sanitizeHtml html else html
    let html := if opts.streaming && opts.cursor ≠ "" then
        html ++ "<span class=\"sd-cursor\">" ++ opts.cursor ++ "</span>"
      else html
    .ok ({ st with completedTokens := cToks, completedHtml := cHtml }, html)

/-- streamdown.ts `push(chunk)`: append, then incremental render.  The
buffer append happens before the render, so a thrown render leaves the
buffer grown and the cache untouched. -/
def pushE (collab : Collab) (opts : StreamdownOptions) (st : SessionState) (chunk : String) :
    SessionState × Except Unit String :=
  let st1 := { st with buffer := st.buffer ++ chunk }
  match renderIncrementalE collab opts st1 with
  | .ok (st2, html) => (st2, .ok html)
  | .error () => (st1, .error ())

/-- streamdown.ts `finish()`: one full non-streaming render of the buffer,
then the checkpoint cache is cleared. -/
def finishE (collab : Collab) (opts : StreamdownOptions) (st : SessionState) :
    SessionState × Except Unit String :=
  match renderMerged collab { opts with streaming := false } st.buffer with
  | .ok html => ({ st with completedTokens := [], completedHtml := "" }, .ok html)
  | .error () => (st, .error ())

/-! ## Basic list facts used throughout -/

theorem takeWhile_len_le {α : Type} (p : α → Bool) :
    ∀ l : List α, (l.takeWhile p).length ≤ l.length
  | [] => Nat.le_refl 0
  | a :: l => by
    simp only [List.takeWhile]
    cases p a
    · exact Nat.zero_le _
    · simpa using takeWhile_len_le p l

/-! ## C3: the completeness invariant of the tokenizer -/

/-- Every `.ok` step either yields a complete token or has consumed the
whole remainder of the buffer (the `closed = false` branches of math and
code blocks run to end-of-input). -/
theorem tokStep_complete_or_all (opts : StreamdownOptions) (line : String)
    (rest : List String) (tok : BlockToken) (k : Nat)
    (h : tokStep opts line rest = .ok (tok, k)) :
    tok.isComplete = some true ∨ k = rest.length := by
  unfold tokStep at h
  dsimp only at h
  split at h
  · cases h; exact Or.inl rfl
  · split at h
    · split at h
      · cases h; exact Or.inl rfl
      · cases h
        rename_i hclosed
        by_cases hc :
            (rest.takeWhile (fun l => !strStarts (jsTrimEnd l) "$$")).length < rest.length
        · simp only [hc, if_true]
          exact Or.inl rfl
        · simp only [hc, if_false]
          right
          have hle := takeWhile_len_le (fun l => !strStarts (jsTrimEnd l) "$$") rest
          omega
    · split at h
      · cases h
        by_cases hc :
            (rest.takeWhile (fun l => !strStarts (jsTrimEnd l) "```")).length < rest.length
        · simp only [hc, if_true]
          exact Or.inl rfl
        · simp only [hc, if_false]
          right
          have hle := takeWhile_len_le (fun l => !strStarts (jsTrimEnd l) "```") rest
          omega
      · split at h
        · cases h; exact Or.inl rfl
        · split at h
          · cases h; exact Or.inl rfl
          · split at h
            · split at h
              · cases h; exact Or.inl rfl
              · cases h; exact Or.inl rfl
            · split at h
              · split at h
                · cases h; exact Or.inl rfl
                · cases h
              · split at h
                · cases h; exact Or.inl rfl
                · split at h
                  · cases h; exact Or.inl rfl
                  · cases h; exact Or.inl rfl

/-- A step never consumes more than the remaining buffer. -/
theorem tokStep_k_le (opts : StreamdownOptions) (line : String)
    (rest : List String) (tok : BlockToken) (k : Nat)
    (h : tokStep opts line rest = .ok (tok, k)) :
    k ≤ rest.length := by
  unfold tokStep at h
  dsimp only at h
  split at h
  · cases h; exact Nat.zero_le _
  · split at h
    · split at h
      · cases h; exact Nat.zero_le _
      · cases h
        have hle := takeWhile_len_le (fun l => !strStarts (jsTrimEnd l) "$$") rest
        split <;> omega
    · split at h
      · cases h
        have hle := takeWhile_len_le (fun l => !strStarts (jsTrimEnd l) "```") rest
        split <;> omega
      · split at h
        · cases h; exact Nat.zero_le _
        · split at h
          · cases h; exact Nat.zero_le _
          · split at h
            · have hle := takeWhile_len_le (fun l => strStarts (jsTrimEnd l) ">") (line :: rest)
              simp only [List.length_cons] at hle
              split at h
              · cases h; omega
              · cases h; omega
            · split at h
              · split at h
                · cases h
                  rename_i htl _
                  have hle := takeWhile_len_le (fun l => containsChar (jsTrimEnd l) '|') (line :: rest)
                  simp only [List.length_cons] at hle
                  simp only [List.length_map]
                  omega
                · cases h
              · split at h
                · cases h
                  have hle := takeWhile_len_le (fun l => (unordItem l).isSome) (line :: rest)
                  simp only [List.length_cons] at hle
                  rcases Nat.lt_or_ge ((List.takeWhile (fun l => (unordItem l).isSome) (line :: rest)).length) (rest.length + 1) with hlt | hge
                  · have : listBlankEat ((line :: rest).drop ((List.takeWhile (fun l => (unordItem l).isSome) (line :: rest)).length)) ≤ 1 := by
                      unfold listBlankEat
                      split
                      · split <;> omega
                      · omega
                    omega
                  · have hrun : (List.takeWhile (fun l => (unordItem l).isSome) (line :: rest)).length = rest.length + 1 := by omega
                    have hafter : (line :: rest).drop ((List.takeWhile (fun l => (unordItem l).isSome) (line :: rest)).length) = [] := by
                      apply List.drop_eq_nil_of_le
                      simp [hrun]
                    rw [hafter]
                    simp [listBlankEat]
                    omega
                · split at h
                  · cases h
                    have hle := takeWhile_len_le (fun l => (ordItem l).isSome) (line :: rest)
                    simp only [List.length_cons] at hle
                    rcases Nat.lt_or_ge ((List.takeWhile (fun l => (ordItem l).isSome) (line :: rest)).length) (rest.length + 1) with hlt | hge
                    · have : listBlankEat ((line :: rest).drop ((List.takeWhile (fun l => (ordItem l).isSome) (line :: rest)).length)) ≤ 1 := by
                        unfold listBlankEat
                        split
                        · split <;> omega
                        · omega
                      omega
                    · have hrun : (List.takeWhile (fun l => (ordItem l).isSome) (line :: rest)).length = rest.length + 1 := by omega
                      have hafter : (line :: rest).drop ((List.takeWhile (fun l => (ordItem l).isSome) (line :: rest)).length) = [] := by
                        apply List.drop_eq_nil_of_le
                        simp [hrun]
                      rw [hafter]
                      simp [listBlankEat]
                      omega
                  · cases h
                    exact takeWhile_len_le paraCont rest

/-- Completeness invariant for the main loop: every token other than the
last of an `.ok` result is complete. -/
theorem tokenizeGo_complete (opts : StreamdownOptions) :
    ∀ (fuel : Nat) (lines : List String) (i : Nat) (ts : List BlockToken),
      tokenizeGo opts fuel lines i = .ok ts →
      ∀ t ∈ ts.dropLast, t.isComplete = some true := by
  intro fuel
  induction fuel with
  | zero =>
    intro lines i ts h
    cases lines with
    | nil => cases h; intro t ht; simp at ht
    | cons a l => simp [tokenizeGo] at h
  | succ fuel ih =>
    intro lines i ts h
    cases lines with
    | nil => cases h; intro t ht; simp at ht
    | cons line rest =>
      simp only [tokenizeGo] at h
      cases hstep : tokStep opts line rest with
      | error e => rw [hstep] at h; cases e; cases h
      | ok p =>
        obtain ⟨tok, k⟩ := p
        rw [hstep] at h
        dsimp only at h
        cases hrec : tokenizeGo opts fuel (rest.drop k) (i + 1 + k) with
        | error e => rw [hrec] at h; cases e; cases h
        | ok ts₁ =>
          rw [hrec] at h
          dsimp only at h
          cases h
          intro t ht
          cases ts₁ with
          | nil => simp at ht
          | cons b l =>
            rw [List.dropLast_cons_of_ne_nil (by simp)] at ht
            rcases List.mem_cons.mp ht with heq | hmem
            · subst heq
              rcases tokStep_complete_or_all opts line rest tok k hstep with hc | hall
              · exact hc
              · exfalso
                have : rest.drop k = [] := List.drop_eq_nil_of_le (by omega)
                rw [this] at hrec
                cases fuel <;> simp [tokenizeGo] at hrec
            · exact ih (rest.drop k) (i + 1 + k) (b :: l) hrec t hmem

/-- C3: for every input string and options, in the token sequence returned
by `tokenize` every token except possibly the last has `isComplete = true`;
at most one token — the last — may be incomplete. -/
theorem C3_completeness_invariant (markdown : String) (opts : StreamdownOptions)
    (ts : List BlockToken) (h : tokenizeE markdown opts = .ok ts) :
    ∀ t ∈ ts.dropLast, t.isComplete = some true :=
  tokenizeGo_complete opts (splitLines markdown).length (splitLines markdown) 0 ts h

/-- Witness for C3 at a concrete two-token buffer. -/
theorem C3_completeness_invariant_witness :
    ((tokenizeE "# h\nx" DEFAULT_OPTIONS).toOption.getD []).dropLast.all
      (fun t => decide (t.isComplete = some true)) = true := by
  have h := C3_completeness_invariant "# h\nx" DEFAULT_OPTIONS
    ((tokenizeE "# h\nx" DEFAULT_OPTIONS).toOption.getD []) (by rfl)
  rw [List.all_eq_true]
  intro t ht
  exact decide_eq_true (h t ht)

/-! ## C5: raw spans versus the original buffer -/

/-- The spec's reconstruction: concatenate the `raw` fields of all tokens,
ignoring pure separator (newline) tokens. -/
def rawConcat (ts : List BlockToken) : String :=
  String.join ((ts.filter (fun t => t.type ≠ .newline)).map (·.raw))

/-- A concrete collaborator instance used by witnesses (every external
call fails; which branch the collaborators take is irrelevant to the
statements this instantiates). -/
def trivialCollab : Collab where
  latexToMathML := fun _ => .error ()
  mermaidSvg := fun _ => .error ()
  prismHasGrammar := fun _ => false
  prismHighlight := fun _ _ => .error ()

/-- C5 fails on the code: tokenizing an unterminated fenced code block
drops the fence line from `raw`, so the concatenation of raw fields is
`"x"`, not the buffer `"```\nx"`. -/
theorem C5_counterexample :
    (tokenizeE "```\nx" DEFAULT_OPTIONS).map rawConcat = .ok "x" ∧
      ("x" : String) ≠ "```\nx" :=
  ⟨rfl, by decide⟩

theorem splitOnCharCs_no_sep (sep : Char) :
    ∀ cs : List Char, cs.contains sep = false → splitOnCharCs sep cs = [cs]
  | [], _ => rfl
  | c :: cs, h => by
    simp only [List.contains_cons, Bool.or_eq_false_iff] at h
    unfold splitOnCharCs
    have hne : ¬ c = sep := by
      intro hc
      subst hc
      simp at h
    rw [if_neg hne, splitOnCharCs_no_sep sep cs h.2]

theorem asString_data_self (s : String) : s.data.asString = s := by
  cases s
  rfl

/-- A buffer without a newline splits into a single line. -/
theorem splitLines_single (s : String) (h : containsChar s '\n' = false) :
    splitLines s = [s] := by
  unfold splitLines
  rw [splitOnCharCs_no_sep '\n' s.data h]
  simp [asString_data_self]

/-- C5 amended: in general the raw fields do not reconstruct the buffer
(markers, fences, indentation and separator content are dropped), but for
a buffer that is one single line, carries no trailing whitespace and starts
none of the non-paragraph constructs, the single paragraph token's raw span
is exactly the buffer, so the concatenation reconstructs it. -/
theorem C5_amended (s : String) (opts : StreamdownOptions)
    (h1 : containsChar s '\n' = false)
    (h2 : jsTrimEnd s = s)
    (hnb : s ≠ "")
    (hmath : strStarts s "$$" = false)
    (hcode : strStarts s "```" = false)
    (hhead : headingMatch s = none)
    (hhr : isHrLine s = false)
    (hq : strStarts s ">" = false)
    (hu : unordStart s = false)
    (ho : ordStart s = false) :
    (tokenizeE s opts).map rawConcat = .ok s := by
  have hstep : tokStep opts s [] =
      .ok ({ type := .paragraph, raw := s, text := some s, isComplete := some true }, 0) := by
    unfold tokStep
    dsimp only
    rw [h2]
    rw [if_neg hnb]
    rw [if_neg (by simp [hmath])]
    rw [if_neg (by simp [hcode])]
    rw [hhead]
    dsimp only
    rw [if_neg (by simp [hhr])]
    rw [if_neg (by simp [hq])]
    rw [if_neg (by simp)]
    rw [if_neg (by simp [hu])]
    rw [if_neg (by simp [ho])]
    rfl
  unfold tokenizeE
  rw [splitLines_single s h1]
  simp only [List.length_cons, List.length_nil]
  unfold tokenizeGo
  rw [hstep]
  dsimp only
  unfold tokenizeGo
  rfl

/-- Witness for C5's amended statement at a concrete input. -/
theorem C5_amended_witness :
    (tokenizeE "hello world" DEFAULT_OPTIONS).map rawConcat = .ok "hello world" :=
  C5_amended "hello world" DEFAULT_OPTIONS rfl rfl (by decide) rfl rfl rfl rfl rfl rfl rfl

/-! ## C1: push/push/finish agrees with the one-shot non-streaming render -/

/-- `finish()` performs exactly the full non-streaming render of the
accumulated buffer (and never consults the checkpoint cache). -/
theorem finishE_snd (collab : Collab) (opts : StreamdownOptions) (st : SessionState) :
    (finishE collab opts st).2 =
      renderMerged collab { opts with streaming := false } st.buffer := by
  unfold finishE
  cases hm : renderMerged collab { opts with streaming := false } st.buffer with
  | ok h => simp [hm]
  | error e => cases e; simp [hm]

theorem renderIncrementalE_buffer (collab : Collab) (opts : StreamdownOptions)
    (st st' : SessionState) (html : String)
    (h : renderIncrementalE collab opts st = .ok (st', html)) :
    st'.buffer = st.buffer := by
  unfold renderIncrementalE at h
  dsimp only at h
  cases htok : tokenizeE st.buffer opts with
  | error e => rw [htok] at h; cases e; cases h
  | ok ts => rw [htok] at h; dsimp only at h; cases h; rfl

/-- `push` always appends the chunk to the buffer, whether or not the
render throws. -/
theorem pushE_buffer (collab : Collab) (opts : StreamdownOptions)
    (st : SessionState) (chunk : String) :
    (pushE collab opts st chunk).1.buffer = st.buffer ++ chunk := by
  unfold pushE
  dsimp only
  cases hri : renderIncrementalE collab opts { st with buffer := st.buffer ++ chunk } with
  | error e => cases e; simp [hri]
  | ok p =>
    obtain ⟨st2, html⟩ := p
    simp only [hri]
    exact renderIncrementalE_buffer collab opts _ st2 html hri

/-- C1: for every buffer `b` and split `b = c₁ ++ c₂`, pushing `c₁` then
`c₂` through a default-options session and calling `finish()` produces
exactly the result of the single non-incremental
`render(b, {streaming:false})`, for any collaborator behavior (both sides
also fail identically on the tokenizer-crashing inputs). -/
theorem C1_checkpoint_equivalence (collab : Collab) (b c₁ c₂ : String)
    (hsplit : c₁ ++ c₂ = b) :
    (finishE collab DEFAULT_OPTIONS
      (pushE collab DEFAULT_OPTIONS
        (pushE collab DEFAULT_OPTIONS initSession c₁).1 c₂).1).2 =
    renderE collab b { streaming := some false } := by
  rw [finishE_snd]
  have h1 : initSession.buffer ++ c₁ = c₁ := by
    cases c₁
    rfl
  have hb : (pushE collab DEFAULT_OPTIONS
      (pushE collab DEFAULT_OPTIONS initSession c₁).1 c₂).1.buffer = b := by
    rw [pushE_buffer, pushE_buffer, h1, hsplit]
  rw [hb]
  rfl

/-- Witness for C1 at the concrete buffer `"# t\nu"` split after one
character. -/
theorem C1_checkpoint_equivalence_witness :
    (finishE trivialCollab DEFAULT_OPTIONS
      (pushE trivialCollab DEFAULT_OPTIONS
        (pushE trivialCollab DEFAULT_OPTIONS initSession "#").1 " t\nu").1).2 =
    renderE trivialCollab "# t\nu" { streaming := some false } :=
  C1_checkpoint_equivalence trivialCollab "# t\nu" "#" " t\nu" rfl

/-! ## C4: the committed-token count is not monotone -/

/-- C4 fails on the code: pushing `"- a\n-"` commits one token (the list
`- a`, with the lone `-` a pending paragraph), but pushing `" b"` next
turns the whole buffer into one single list token `- a / - b`, which as the
last token is pending — the committed count drops from 1 to 0. -/
theorem C4_counterexample :
    (pushE trivialCollab DEFAULT_OPTIONS initSession "- a\n-").1.completedTokens.length = 1 ∧
    (pushE trivialCollab DEFAULT_OPTIONS
      (pushE trivialCollab DEFAULT_OPTIONS initSession "- a\n-").1 " b").1.completedTokens.length = 0 ∧
    ¬ (1 : Nat) ≤ 0 :=
  ⟨rfl, rfl, by decide⟩

/-! ## C6: dangerous link protocols are replaced by a placeholder href -/

set_option maxHeartbeats 8000000 in
/-- C6: a link target whose protocol is `javascript:`, `vbscript:` or
`data:` (case-insensitively, with leading whitespace allowed) is replaced
by the neutral placeholder `#`, and the default render of
`[t](javascript:alert(1))` produces the placeholder link and contains no
`javascript:` anywhere (the render of this buffer never consults any
collaborator, so the concrete instance is representative). -/
theorem C6_protocol_rejection :
    (∀ href : String, dangerousProtocol href = true → sanitizeHref href = "#") ∧
    renderE trivialCollab "[t](javascript:alert(1))" {} =
      .ok "<p class=\"sd-p\"><a href=\"#\" class=\"sd-link\" target=\"_blank\" rel=\"noopener noreferrer\">t</a>)</p>" ∧
    containsStr
      "<p class=\"sd-p\"><a href=\"#\" class=\"sd-link\" target=\"_blank\" rel=\"noopener noreferrer\">t</a>)</p>"
      "javascript:" = false := by
  refine ⟨?_, rfl, by decide⟩
  intro href h
  unfold sanitizeHref
  rw [h]
  rfl

/-- Witness for C6 at the concrete dangerous href. -/
theorem C6_protocol_rejection_witness :
    sanitizeHref "javascript:alert(1" = "#" :=
  C6_protocol_rejection.1 "javascript:alert(1" (by rfl)

/-! ## C7: the sanitizer is not idempotent -/

/-- C7 fails on the code: stripping the disallowed `<video>` tag splices
the surrounding text into a fresh `<script>` tag, which only the second
application removes. -/
theorem C7_counterexample :
    sanitizeHtml (sanitizeHtml "<<video>script>alert(1)</script>") ≠
      sanitizeHtml "<<video>script>alert(1)</script>" := by
  decide

theorem sanPass1_no_lt (fuel : Nat) (cs : List Char) (h : cs.contains '<' = false) :
    sanPass1 fuel cs = cs := by
  induction cs generalizing fuel with
  | nil => cases fuel <;> rfl
  | cons c cs ih =>
    simp only [List.contains_cons, Bool.or_eq_false_iff] at h
    have hne : ¬ c = '<' := by
      intro hc; subst hc; simp at h
    cases fuel with
    | zero => rfl
    | succ fuel =>
      show (if c = '<' then _ else c :: sanPass1 fuel cs) = c :: cs
      rw [if_neg hne, ih fuel h.2]

theorem sanPass2_no_lt (fuel : Nat) (cs : List Char) (h : cs.contains '<' = false) :
    sanPass2 fuel cs = cs := by
  induction cs generalizing fuel with
  | nil => cases fuel <;> rfl
  | cons c cs ih =>
    simp only [List.contains_cons, Bool.or_eq_false_iff] at h
    have hne : ¬ c = '<' := by
      intro hc; subst hc; simp at h
    cases fuel with
    | zero => rfl
    | succ fuel =>
      show (if c = '<' then _ else c :: sanPass2 fuel cs) = c :: cs
      rw [if_neg hne, ih fuel h.2]

theorem sanPass3_no_lt (fuel : Nat) (cs : List Char) (h : cs.contains '<' = false) :
    sanPass3 fuel cs = cs := by
  induction cs generalizing fuel with
  | nil => cases fuel <;> rfl
  | cons c cs ih =>
    simp only [List.contains_cons, Bool.or_eq_false_iff] at h
    have hne : ¬ c = '<' := by
      intro hc; subst hc; simp at h
    cases fuel with
    | zero => rfl
    | succ fuel =>
      show (if c = '<' then _ else c :: sanPass3 fuel cs) = c :: cs
      rw [if_neg hne, ih fuel h.2]

/-- On a string without `<` the sanitizer is the identity. -/
theorem sanitizeHtml_no_lt (s : String) (h : containsChar s '<' = false) :
    sanitizeHtml s = s := by
  obtain ⟨cs⟩ := s
  unfold sanitizeHtml
  dsimp only
  rw [sanPass1_no_lt _ _ h, sanPass2_no_lt _ _ h, sanPass3_no_lt _ _ h]

/-- C7 amended: `sanitizeHtml` is not idempotent in general (stripping a
disallowed tag can concatenate the surrounding text into a new dangerous
tag); it is idempotent on every string that contains no `<`, where it is
the identity. -/
theorem C7_amended (s : String) (h : containsChar s '<' = false) :
    sanitizeHtml (sanitizeHtml s) = sanitizeHtml s := by
  rw [sanitizeHtml_no_lt s h, sanitizeHtml_no_lt s h]

/-- Witness for C7's amended statement. -/
theorem C7_amended_witness :
    sanitizeHtml (sanitizeHtml "plain text, no tags") = sanitizeHtml "plain text, no tags" :=
  C7_amended "plain text, no tags" (by rfl)

/-! ## C8: inline math is suppressed while streaming, applied by finish -/

/-- The collaborator instance whose math conversion returns the MathML for
`x^2`; used to witness the math-rendering scenarios. -/
def squareCollab : Collab where
  latexToMathML := fun _ => .ok "<msup><mi>x</mi><mn>2</mn></msup>"
  mermaidSvg := fun _ => .error ()
  prismHasGrammar := fun _ => false
  prismHighlight := fun _ _ => .error ()

set_option maxHeartbeats 8000000 in
/-- C8: pushing `"$x"` then `"^2$"` through a default (streaming) session
never produces a math element — each push returns the paragraph with the
literal dollar text preserved — and `finish()` re-renders with
`streaming:false`, converting the same span into a `<math>` element.
Stated at the collaborator whose conversion yields the MathML of `x^2`;
the push outputs are collaborator-independent because the math step is
skipped while streaming. -/
theorem C8_streaming_math :
    (pushE squareCollab DEFAULT_OPTIONS initSession "$x").2 =
      .ok "<p class=\"sd-p\">$x</p><span class=\"sd-cursor\">▋</span>" ∧
    (pushE squareCollab DEFAULT_OPTIONS
      (pushE squareCollab DEFAULT_OPTIONS initSession "$x").1 "^2$").2 =
      .ok "<p class=\"sd-p\">$x^2$</p><span class=\"sd-cursor\">▋</span>" ∧
    containsStr "<p class=\"sd-p\">$x^2$</p><span class=\"sd-cursor\">▋</span>" "<math" = false ∧
    containsStr "<p class=\"sd-p\">$x^2$</p><span class=\"sd-cursor\">▋</span>" "$x^2$" = true ∧
    (finishE squareCollab DEFAULT_OPTIONS
      (pushE squareCollab DEFAULT_OPTIONS
        (pushE squareCollab DEFAULT_OPTIONS initSession "$x").1 "^2$").1).2 =
      .ok "<p class=\"sd-p\"><math xmlns=\"http://www.w3.org/1998/Math/MathML\"><msup><mi>x</mi><mn>2</mn></msup></math></p>" ∧
    containsStr
      "<p class=\"sd-p\"><math xmlns=\"http://www.w3.org/1998/Math/MathML\"><msup><mi>x</mi><mn>2</mn></msup></math></p>"
      "<math" = true :=
  ⟨rfl, rfl, rfl, rfl, rfl, rfl⟩

/-! ## C10: the default options stream, so bare render leaves `$...$` alone -/

set_option maxHeartbeats 8000000 in
/-- C10: `DEFAULT_OPTIONS.streaming` is `true`, so `render(markdown)` with
no options leaves a single-dollar math span as literal unconverted text and
produces no `<math>` element (this render never consults a collaborator);
a math element appears once `streaming:false` is passed explicitly (stated
at the collaborator converting `x^2` to its MathML). -/
theorem C10_default_streaming :
    DEFAULT_OPTIONS.streaming = true ∧
    renderE squareCollab "$x^2$" {} = .ok "<p class=\"sd-p\">$x^2$</p>" ∧
    containsStr "<p class=\"sd-p\">$x^2$</p>" "<math" = false ∧
    containsStr "<p class=\"sd-p\">$x^2$</p>" "$x^2$" = true ∧
    renderE squareCollab "$x^2$" { streaming := some false } =
      .ok "<p class=\"sd-p\"><math xmlns=\"http://www.w3.org/1998/Math/MathML\"><msup><mi>x</mi><mn>2</mn></msup></math></p>" ∧
    containsStr
      "<p class=\"sd-p\"><math xmlns=\"http://www.w3.org/1998/Math/MathML\"><msup><mi>x</mi><mn>2</mn></msup></math></p>"
      "<math" = true :=
  ⟨rfl, rfl, rfl, rfl, rfl, rfl⟩

/-! ## C9: collaborator failures are contained per token -/

set_option maxHeartbeats 8000000 in
/-- C9 fails as stated on the diagram path: a throwing mermaid collaborator
yields the fixed placeholder `Error rendering diagram`, which does not
contain the (escaped) diagram source at all. -/
theorem C9_counterexample :
    renderE trivialCollab "```mermaid\nBAD\n```" {} =
      .ok "<div class=\"sd-mermaid sd-error\">Error rendering diagram</div>" ∧
    containsStr "<div class=\"sd-mermaid sd-error\">Error rendering diagram</div>" "BAD" = false :=
  ⟨rfl, rfl⟩

/-- C9 amended: a failing math conversion produces an inert error
placeholder that does contain the escaped source (via `renderDisplayMath`'s
internal fallback); a failing diagram conversion produces the fixed
`Error rendering diagram` placeholder without the source; and in both cases
the failure is confined to that one token — rendering a token list
assembles each token's fragment independently, so every other token of the
document is still rendered. -/
theorem C9_amended :
    (∀ (collab : Collab) (src : String), collab.latexToMathML src = .error () →
      renderMathBlock collab { type := .math_block, raw := src, text := some src } =
        "<div class=\"sd-math-display\">" ++
          ("<pre class=\"math-error\"><code>" ++ escapeHtml src ++ "</code></pre>") ++
          "</div>") ∧
    (∀ (collab : Collab) (opts : StreamdownOptions) (src : String),
      opts.mermaid = true → collab.mermaidSvg src = .error () →
      renderCodeBlock collab opts
          { type := .code_block, raw := src, text := some src, lang := some "mermaid" } =
        "<div class=\"sd-mermaid sd-error\">Error rendering diagram</div>") ∧
    (∀ (collab : Collab) (opts : StreamdownOptions) (plugins : List Plugin)
      (rules : List (String → String)) (ts₁ ts₂ : List BlockToken) (t : BlockToken),
      t.type ≠ .newline →
      renderTokensStr collab opts plugins rules (ts₁ ++ t :: ts₂) =
        joinNl ((ts₁.filter (fun x => x.type ≠ .newline)).map (fun x =>
            renderTokenOv plugins x (renderSingleToken collab opts rules x)) ++
          renderTokenOv plugins t (renderSingleToken collab opts rules t) ::
          (ts₂.filter (fun x => x.type ≠ .newline)).map (fun x =>
            renderTokenOv plugins x (renderSingleToken collab opts rules x)))) := by
  refine ⟨?_, ?_, ?_⟩
  · intro collab src h
    unfold renderMathBlock renderDisplayMathStr
    simp only [Option.getD_some]
    rw [h]
  · intro collab opts src hm h
    unfold renderCodeBlock
    simp only [Option.getD_some]
    rw [hm, h]
    rfl
  · intro collab opts plugins rules ts₁ ts₂ t ht
    unfold renderTokensStr
    rw [List.filter_append]
    simp [ht]

/-- Witness for C9's amended statement at concrete failing collaborators
and a concrete surrounding document. -/
theorem C9_amended_witness :
    renderMathBlock trivialCollab { type := .math_block, raw := "x^", text := some "x^" } =
      "<div class=\"sd-math-display\">" ++
        ("<pre class=\"math-error\"><code>" ++ escapeHtml "x^" ++ "</code></pre>") ++
        "</div>" ∧
    renderCodeBlock trivialCollab DEFAULT_OPTIONS
        { type := .code_block, raw := "BAD", text := some "BAD", lang := some "mermaid" } =
      "<div class=\"sd-mermaid sd-error\">Error rendering diagram</div>" ∧
    renderTokensStr trivialCollab DEFAULT_OPTIONS [] []
        ([{ type := .heading, raw := "# a", text := some "a", depth := some 1 }] ++
          { type := .code_block, raw := "BAD", text := some "BAD", lang := some "mermaid" } ::
          [{ type := .paragraph, raw := "b", text := some "b" }]) =
      joinNl (([({ type := .heading, raw := "# a", text := some "a", depth := some 1 } : BlockToken)].filter
            (fun x => x.type ≠ .newline)).map (fun x =>
            renderTokenOv [] x (renderSingleToken trivialCollab DEFAULT_OPTIONS [] x)) ++
        renderTokenOv [] { type := .code_block, raw := "BAD", text := some "BAD", lang := some "mermaid" }
          (renderSingleToken trivialCollab DEFAULT_OPTIONS []
            { type := .code_block, raw := "BAD", text := some "BAD", lang := some "mermaid" }) ::
        ([({ type := .paragraph, raw := "b", text := some "b" } : BlockToken)].filter
            (fun x => x.type ≠ .newline)).map (fun x =>
            renderTokenOv [] x (renderSingleToken trivialCollab DEFAULT_OPTIONS [] x))) :=
  ⟨C9_amended.1 trivialCollab "x^" rfl,
   C9_amended.2.1 trivialCollab DEFAULT_OPTIONS "BAD" rfl rfl,
   C9_amended.2.2 trivialCollab DEFAULT_OPTIONS [] [] _ _ _ (by decide)⟩

/-! ## C2: incremental push output versus the one-shot render -/

/-- A plugin whose render override maps every token to the empty fragment
(legal per the plugin API: any non-null string wins). -/
def emptyOverridePlugin : Plugin where
  renderTokenOv := some (fun _ => some "")

/-- Session options registering that plugin. -/
def c2Opts : StreamdownOptions := { DEFAULT_OPTIONS with plugins := [emptyOverridePlugin] }

set_option maxHeartbeats 8000000 in
/-- C2 fails as stated: with a render override producing empty fragments,
the one-shot render of `"a\n\nb"` joins two empty fragments into `"\n"`,
while the incremental path drops the separating newline (its committed and
pending parts are both empty strings), so the first push's output differs
from render-plus-cursor. -/
theorem C2_counterexample :
    (pushE trivialCollab c2Opts initSession "a\n\nb").2 =
      .ok "<span class=\"sd-cursor\">▋</span>" ∧
    renderMerged trivialCollab c2Opts "a\n\nb" = .ok "\n" ∧
    ("<span class=\"sd-cursor\">▋</span>" : String) ≠
      "\n" ++ "<span class=\"sd-cursor\">▋</span>" :=
  ⟨rfl, rfl, by decide⟩

/-! ## C4 amended: append-only chunks starting with a newline -/

theorem takeWhile_append_of_lt {α : Type} (p : α → Bool) :
    ∀ (l ext : List α), (l.takeWhile p).length < l.length →
      (l ++ ext).takeWhile p = l.takeWhile p
  | [], _, h => by simp at h
  | a :: l, ext, h => by
    cases hp : p a with
    | false => simp [List.takeWhile_cons, hp]
    | true =>
      simp only [List.takeWhile_cons, hp, if_true, List.length_cons] at h
      simp only [List.cons_append, List.takeWhile_cons, hp, if_true]
      rw [takeWhile_append_of_lt p l ext (by omega)]

theorem headD_append {α : Type} (l ext : List α) (d : α) (h : l ≠ []) :
    (l ++ ext).headD d = l.headD d := by
  cases l with
  | nil => exact absurd rfl h
  | cons a t => rfl

theorem listBlankEat_append (after ext : List String) (h : after ≠ []) :
    listBlankEat (after ++ ext) = listBlankEat after := by
  cases after with
  | nil => exact absurd rfl h
  | cons a t => rfl

theorem tokenizeGo_ne_nil (opts : StreamdownOptions) (fuel : Nat) (line : String)
    (rest : List String) (i : Nat) (ts : List BlockToken)
    (h : tokenizeGo opts fuel (line :: rest) i = .ok ts) : ts ≠ [] := by
  cases fuel with
  | zero => simp [tokenizeGo] at h
  | succ fuel =>
    simp only [tokenizeGo] at h
    cases hstep : tokStep opts line rest with
    | error e => rw [hstep] at h; cases e; cases h
    | ok p =>
      obtain ⟨tok, k⟩ := p
      rw [hstep] at h
      dsimp only at h
      cases hrec : tokenizeGo opts fuel (rest.drop k) (i + 1 + k) with
      | error e => rw [hrec] at h; cases e; cases h
      | ok ts₁ => rw [hrec] at h; dsimp only at h; cases h; simp

/-- A tokenizer step that stopped strictly before the end of the buffer is
stable under appending further lines: every line it examined is unchanged. -/
theorem tokStep_extend (opts : StreamdownOptions) (line : String)
    (rest ext : List String) (tok : BlockToken) (k : Nat)
    (h : tokStep opts line rest = .ok (tok, k)) (hk : k < rest.length) :
    tokStep opts line (rest ++ ext) = .ok (tok, k) := by
  have hne : rest ≠ [] := by
    intro hnil
    subst hnil
    simp at hk
  unfold tokStep at h ⊢
  dsimp only at h ⊢
  by_cases h1 : jsTrimEnd line = ""
  · rw [if_pos h1] at h ⊢
    exact h
  · rw [if_neg h1] at h ⊢
    by_cases h2 : (opts.math && strStarts (jsTrimEnd line) "$$") = true
    · rw [if_pos h2] at h ⊢
      by_cases h2a : (decide (2 < (jsTrimEnd line).length) && strEnds (jsTrimEnd line) "$$" &&
          decide (jsTrimEnd line ≠ "$$")) = true
      · rw [if_pos h2a] at h ⊢
        exact h
      · rw [if_neg h2a] at h ⊢
        cases h
        have hle := takeWhile_len_le (fun l => !strStarts (jsTrimEnd l) "$$") rest
        have hcl : (rest.takeWhile (fun l => !strStarts (jsTrimEnd l) "$$")).length < rest.length := by
          by_contra hcon
          simp only [not_lt] at hcon
          have heq : (rest.takeWhile (fun l => !strStarts (jsTrimEnd l) "$$")).length = rest.length := by omega
          rw [heq, if_neg (lt_irrefl rest.length)] at hk
          omega
        rw [takeWhile_append_of_lt _ rest ext hcl]
        have hcl2 : (rest.takeWhile (fun l => !strStarts (jsTrimEnd l) "$$")).length <
            (rest ++ ext).length := by
          simp only [List.length_append]
          omega
        simp only [hcl, hcl2, if_true, decide_eq_true_eq]
    · rw [if_neg h2] at h ⊢
      by_cases h3 : strStarts (jsTrimEnd line) "```" = true
      · rw [if_pos h3] at h ⊢
        cases h
        have hle := takeWhile_len_le (fun l => !strStarts (jsTrimEnd l) "```") rest
        have hcl : (rest.takeWhile (fun l => !strStarts (jsTrimEnd l) "```")).length < rest.length := by
          by_contra hcon
          simp only [not_lt] at hcon
          have heq : (rest.takeWhile (fun l => !strStarts (jsTrimEnd l) "```")).length = rest.length := by omega
          rw [heq, if_neg (lt_irrefl rest.length)] at hk
          omega
        rw [takeWhile_append_of_lt _ rest ext hcl]
        have hcl2 : (rest.takeWhile (fun l => !strStarts (jsTrimEnd l) "```")).length <
            (rest ++ ext).length := by
          simp only [List.length_append]
          omega
        simp only [hcl, hcl2, if_true, decide_eq_true_eq]
      · rw [if_neg h3] at h ⊢
        cases hhm : headingMatch (jsTrimEnd line) with
        | some p =>
          rw [hhm] at h
          dsimp only at h ⊢
          exact h
        | none =>
          rw [hhm] at h
          dsimp only at h ⊢
          by_cases h5 : isHrLine (jsTrimEnd line) = true
          · rw [if_pos h5] at h ⊢
            exact h
          · rw [if_neg h5] at h ⊢
            by_cases h6 : strStarts (jsTrimEnd line) ">" = true
            · rw [if_pos h6] at h ⊢
              have hq := takeWhile_len_le (fun l => strStarts (jsTrimEnd l) ">") (line :: rest)
              simp only [List.length_cons] at hq
              split at h <;>
                (cases h
                 rename_i heq
                 have hlt : ((line :: rest).takeWhile (fun l => strStarts (jsTrimEnd l) ">")).length <
                    (line :: rest).length := by
                   simp only [List.length_cons]
                   omega
                 have hrw : ((line :: rest) ++ ext).takeWhile (fun l => strStarts (jsTrimEnd l) ">") =
                    (line :: rest).takeWhile (fun l => strStarts (jsTrimEnd l) ">") :=
                   takeWhile_append_of_lt _ _ ext hlt
                 simp only [List.cons_append] at hrw
                 rw [hrw, heq])
            · rw [if_neg h6] at h ⊢
              have htblcond : (opts.tables && containsChar (jsTrimEnd line) '|' &&
                  decide ((rest ++ ext) ≠ []) && isAlignRow (jsTrimEnd ((rest ++ ext).headD ""))) =
                  (opts.tables && containsChar (jsTrimEnd line) '|' &&
                  decide (rest ≠ []) && isAlignRow (jsTrimEnd (rest.headD ""))) := by
                rw [headD_append rest ext "" hne]
                have e1 : decide ((rest ++ ext) ≠ []) = true := by
                  simp [hne]
                have e2 : decide (rest ≠ []) = true := by simp [hne]
                rw [e1, e2]
              rw [htblcond]
              by_cases h7 : (opts.tables && containsChar (jsTrimEnd line) '|' &&
                  decide (rest ≠ []) && isAlignRow (jsTrimEnd (rest.headD ""))) = true
              · rw [if_pos h7] at h ⊢
                have htl := takeWhile_len_le (fun l => containsChar (jsTrimEnd l) '|') (line :: rest)
                cases htlm : ((line :: rest).takeWhile (fun l => containsChar (jsTrimEnd l) '|')).map jsTrimEnd with
                | nil => rw [htlm] at h; dsimp only at h; cases h
                | cons t0 ts0 =>
                  cases ts0 with
                  | nil => rw [htlm] at h; dsimp only at h; cases h
                  | cons t1 ts1 =>
                    rw [htlm] at h
                    dsimp only at h
                    cases h
                    have hlen : ((line :: rest).takeWhile (fun l => containsChar (jsTrimEnd l) '|')).length =
                        (t0 :: t1 :: ts1).length := by
                      rw [← htlm]
                      simp
                    have hlt : ((line :: rest).takeWhile (fun l => containsChar (jsTrimEnd l) '|')).length <
                        (line :: rest).length := by
                      simp only [List.length_cons] at hk ⊢
                      rw [hlen]
                      simp only [List.length_cons]
                      omega
                    have hrw : ((line :: rest) ++ ext).takeWhile (fun l => containsChar (jsTrimEnd l) '|') =
                        (line :: rest).takeWhile (fun l => containsChar (jsTrimEnd l) '|') :=
                      takeWhile_append_of_lt _ _ ext hlt
                    simp only [List.cons_append] at hrw
                    rw [hrw, htlm]
              · rw [if_neg h7] at h ⊢
                by_cases h8 : unordStart line = true
                · rw [if_pos h8] at h ⊢
                  have hrun := takeWhile_len_le (fun l => (unordItem l).isSome) (line :: rest)
                  cases h
                  have hrle : ((line :: rest).takeWhile (fun l => (unordItem l).isSome)).length ≤
                      rest.length := by
                    by_contra hcon
                    simp only [not_le, List.length_cons] at hcon hrun
                    have heq : ((line :: rest).takeWhile (fun l => (unordItem l).isSome)).length =
                        rest.length + 1 := by omega
                    rw [heq] at hk
                    rw [List.drop_eq_nil_of_le (by simp [heq])] at hk
                    simp [listBlankEat] at hk
                  have hlt : ((line :: rest).takeWhile (fun l => (unordItem l).isSome)).length <
                      (line :: rest).length := by
                    simp only [List.length_cons]
                    omega
                  have hrw : ((line :: rest) ++ ext).takeWhile (fun l => (unordItem l).isSome) =
                      (line :: rest).takeWhile (fun l => (unordItem l).isSome) :=
                    takeWhile_append_of_lt _ _ ext hlt
                  simp only [List.cons_append] at hrw
                  rw [hrw]
                  have hdrop : ((line :: rest) ++ ext).drop
                      ((line :: rest).takeWhile (fun l => (unordItem l).isSome)).length =
                      ((line :: rest).drop ((line :: rest).takeWhile (fun l => (unordItem l).isSome)).length) ++ ext :=
                    List.drop_append_of_le_length (by simp only [List.length_cons]; omega)
                  simp only [List.cons_append] at hdrop
                  rw [hdrop]
                  have hafter : (line :: rest).drop
                      ((line :: rest).takeWhile (fun l => (unordItem l).isSome)).length ≠ [] := by
                    intro hnil
                    have := congrArg List.length hnil
                    simp only [List.length_drop, List.length_cons, List.length_nil] at this
                    omega
                  rw [listBlankEat_append _ ext hafter]
                · rw [if_neg h8] at h ⊢
                  by_cases h9 : ordStart line = true
                  · rw [if_pos h9] at h ⊢
                    have hrun := takeWhile_len_le (fun l => (ordItem l).isSome) (line :: rest)
                    cases h
                    have hrle : ((line :: rest).takeWhile (fun l => (ordItem l).isSome)).length ≤
                        rest.length := by
                      by_contra hcon
                      simp only [not_le, List.length_cons] at hcon hrun
                      have heq : ((line :: rest).takeWhile (fun l => (ordItem l).isSome)).length =
                          rest.length + 1 := by omega
                      rw [heq] at hk
                      rw [List.drop_eq_nil_of_le (by simp [heq])] at hk
                      simp [listBlankEat] at hk
                    have hlt : ((line :: rest).takeWhile (fun l => (ordItem l).isSome)).length <
                        (line :: rest).length := by
                      simp only [List.length_cons]
                      omega
                    have hrw : ((line :: rest) ++ ext).takeWhile (fun l => (ordItem l).isSome) =
                        (line :: rest).takeWhile (fun l => (ordItem l).isSome) :=
                      takeWhile_append_of_lt _ _ ext hlt
                    simp only [List.cons_append] at hrw
                    rw [hrw]
                    have hdrop : ((line :: rest) ++ ext).drop
                        ((line :: rest).takeWhile (fun l => (ordItem l).isSome)).length =
                        ((line :: rest).drop ((line :: rest).takeWhile (fun l => (ordItem l).isSome)).length) ++ ext :=
                      List.drop_append_of_le_length (by simp only [List.length_cons]; omega)
                    simp only [List.cons_append] at hdrop
                    rw [hdrop]
                    have hafter : (line :: rest).drop
                        ((line :: rest).takeWhile (fun l => (ordItem l).isSome)).length ≠ [] := by
                      intro hnil
                      have := congrArg List.length hnil
                      simp only [List.length_drop, List.length_cons, List.length_nil] at this
                      omega
                    rw [listBlankEat_append _ ext hafter]
                  · rw [if_neg h9] at h ⊢
                    cases h
                    rw [takeWhile_append_of_lt paraCont rest ext hk]

theorem splitOnCharCs_ne_nil (sep : Char) : ∀ cs, splitOnCharCs sep cs ≠ []
  | [] => by simp [splitOnCharCs]
  | c :: cs => by
    unfold splitOnCharCs
    split
    · simp
    · cases hs : splitOnCharCs sep cs <;> simp

/-- Splitting at a separator occurrence splits the surrounding parts
independently (the JS `split` view of appending `sep :: b`). -/
theorem splitOnCharCs_append_sep (sep : Char) (a b : List Char) :
    splitOnCharCs sep (a ++ sep :: b) = splitOnCharCs sep a ++ splitOnCharCs sep b := by
  induction a with
  | nil => simp [splitOnCharCs]
  | cons c a ih =>
    simp only [List.cons_append, splitOnCharCs, List.append_eq]
    by_cases hc : c = sep
    · subst hc
      rw [if_pos rfl, if_pos rfl, ih]
      simp
    · rw [if_neg hc, if_neg hc, ih]
      cases hs : splitOnCharCs sep a with
      | nil => exact absurd hs (splitOnCharCs_ne_nil sep a)
      | cons l ls => simp

/-- Appending a chunk that starts with a newline appends whole fresh lines
and leaves every previously split line unchanged. -/
theorem splitLines_append_nl (b r : String) :
    splitLines (b ++ ("\n" ++ r)) = splitLines b ++ splitLines r := by
  unfold splitLines
  have hdata : (b ++ ("\n" ++ r)).data = b.data ++ '\n' :: r.data := by
    cases b
    cases r
    rfl
  rw [hdata, splitOnCharCs_append_sep, List.map_append]

/-- Tokenizing an extended line list yields at least as many tokens: every
step before the old end is unchanged, and the old tail region still yields
at least one token. -/
theorem tokenizeGo_len_append (opts : StreamdownOptions) :
    ∀ (fuel : Nat) (lines : List String) (i : Nat) (ts : List BlockToken)
      (fuel' : Nat) (ext : List String) (i' : Nat) (ts' : List BlockToken),
      tokenizeGo opts fuel lines i = .ok ts →
      tokenizeGo opts fuel' (lines ++ ext) i' = .ok ts' →
      ts.length ≤ ts'.length := by
  intro fuel
  induction fuel with
  | zero =>
    intro lines i ts fuel' ext i' ts' h h'
    cases lines with
    | nil => cases h; simp
    | cons l rest => simp [tokenizeGo] at h
  | succ fuel ih =>
    intro lines i ts fuel' ext i' ts' h h'
    cases lines with
    | nil => cases h; simp
    | cons line rest =>
      simp only [tokenizeGo] at h
      cases hstep : tokStep opts line rest with
      | error e => rw [hstep] at h; cases e; cases h
      | ok p =>
        obtain ⟨tok, k⟩ := p
        rw [hstep] at h
        dsimp only at h
        cases hrec : tokenizeGo opts fuel (rest.drop k) (i + 1 + k) with
        | error e => rw [hrec] at h; cases e; cases h
        | ok ts₁ =>
          rw [hrec] at h
          dsimp only at h
          cases h
          by_cases hk : k < rest.length
          · have hstep' := tokStep_extend opts line rest ext tok k hstep hk
            cases fuel' with
            | zero => simp [tokenizeGo] at h'
            | succ fuel' =>
              simp only [List.cons_append, tokenizeGo] at h'
              simp only [List.append_eq] at h'
              rw [hstep'] at h'
              dsimp only at h'
              cases hrec' : tokenizeGo opts fuel' ((rest ++ ext).drop k) (i' + 1 + k) with
              | error e => rw [hrec'] at h'; cases e; cases h'
              | ok ts₁' =>
                rw [hrec'] at h'
                dsimp only at h'
                cases h'
                have hdk : (rest ++ ext).drop k = rest.drop k ++ ext :=
                  List.drop_append_of_le_length (le_of_lt hk)
                rw [hdk] at hrec'
                have hle := ih (rest.drop k) (i + 1 + k) ts₁ fuel' ext (i' + 1 + k) ts₁' hrec hrec'
                simp only [List.length_cons]
                omega
          · have hkle := tokStep_k_le opts line rest tok k hstep
            have hnil : rest.drop k = [] := List.drop_eq_nil_of_le (by omega)
            rw [hnil] at hrec
            have hts₁ : (Except.ok [] : Except Unit (List BlockToken)) = .ok ts₁ := by
              rw [← hrec]
              cases fuel <;> rfl
            cases hts₁
            have h'ne : ts' ≠ [] := by
              refine tokenizeGo_ne_nil opts fuel' line (rest ++ ext) i' ts' ?_
              simpa using h'
            cases ts' with
            | nil => exact absurd rfl h'ne
            | cons u us => simp

/-- With every non-final token complete (the completeness invariant), the
committed part of a pass is exactly the tokens before the last. -/
theorem committedOf_aux (n : Nat) :
    ∀ (ts : List BlockToken) (s : Nat),
      (∀ t ∈ ts.dropLast, t.isComplete = some true) → s + ts.length = n →
      ((ts.enumFrom s).filter
        (fun p => p.2.isComplete = some true && decide (p.1 + 1 < n))).map (·.2) =
        ts.dropLast := by
  intro ts
  induction ts with
  | nil => intro s h hn; rfl
  | cons t ts ih =>
    intro s h hn
    cases ts with
    | nil =>
      simp only [List.length_cons, List.length_nil] at hn
      have hd : (decide (s + 1 < n)) = false := decide_eq_false (by omega)
      simp [List.enumFrom, List.filter_cons, hd]
    | cons u us =>
      simp only [List.length_cons] at hn
      have hct : t.isComplete = some true := by
        apply h
        rw [List.dropLast_cons_of_ne_nil (by simp)]
        exact List.mem_cons_self t _
      have hrest : ∀ x ∈ (u :: us).dropLast, x.isComplete = some true := by
        intro x hx
        apply h
        rw [List.dropLast_cons_of_ne_nil (by simp)]
        exact List.mem_cons_of_mem t hx
      have hih := ih (s + 1) hrest (by simp only [List.length_cons]; omega)
      have hd1 : decide (t.isComplete = some true) = true := decide_eq_true hct
      have hd2 : decide (s + 1 < n) = true := decide_eq_true (by omega)
      rw [List.dropLast_cons_of_ne_nil (by simp)]
      have hcond : (decide (t.isComplete = some true) && decide (s + 1 < n)) = true := by
        rw [hd1, hd2]
        rfl
      show (List.filter (fun p => decide (p.2.isComplete = some true) && decide (p.1 + 1 < n))
          ((s, t) :: (u :: us).enumFrom (s + 1))).map (fun x => x.2) = t :: (u :: us).dropLast
      rw [List.filter_cons, if_pos hcond, List.map_cons, hih]

theorem committedOf_eq_dropLast (ts : List BlockToken)
    (h : ∀ t ∈ ts.dropLast, t.isComplete = some true) :
    committedOf ts = ts.dropLast := by
  unfold committedOf
  exact committedOf_aux ts.length ts 0 h (by omega)

/-- C4 amended: the committed count can drop when a chunk rewrites the
unterminated last line (see the counterexample); across two consecutive
passes whose appended chunk *begins with a newline* — so every previously
tokenized line is preserved verbatim — the committed-token count is
non-decreasing. -/
theorem C4_amended (opts : StreamdownOptions) (b r : String)
    (ts₁ ts₂ : List BlockToken)
    (h1 : tokenizeE b opts = .ok ts₁)
    (h2 : tokenizeE (b ++ ("\n" ++ r)) opts = .ok ts₂) :
    (committedOf ts₁).length ≤ (committedOf ts₂).length := by
  rw [committedOf_eq_dropLast ts₁ (tokenizeGo_complete opts _ _ 0 ts₁ h1),
    committedOf_eq_dropLast ts₂ (tokenizeGo_complete opts _ _ 0 ts₂ h2)]
  have hlen : ts₁.length ≤ ts₂.length := by
    unfold tokenizeE at h1 h2
    rw [splitLines_append_nl b r] at h2
    exact tokenizeGo_len_append opts _ _ 0 ts₁ _ _ 0 ts₂ h1 h2
  simp only [List.length_dropLast]
  omega

/-- Witness for C4's amended statement: `"# a\nx"` extended by `"\nmore"`. -/
theorem C4_amended_witness :
    (committedOf ((tokenizeE "# a\nx" DEFAULT_OPTIONS).toOption.getD [])).length ≤
      (committedOf ((tokenizeE ("# a\nx" ++ ("\n" ++ "more")) DEFAULT_OPTIONS).toOption.getD [])).length :=
  C4_amended DEFAULT_OPTIONS "# a\nx" "more" _ _ (by rfl) (by rfl)

/-! ## C2 amended: helper lemmas -/

theorem takeWhile_agree {α : Type} (p : α → Bool) :
    ∀ (l₁ l₂ : List α) (m : Nat), l₁.take m = l₂.take m →
      (l₁.takeWhile p).length < m → l₂.takeWhile p = l₁.takeWhile p
  | l₁, l₂, 0, _, hlt => by simp at hlt
  | [], l₂, m + 1, h, hlt => by
    cases l₂ with
    | nil => rfl
    | cons b l₂ => simp [List.take] at h
  | a :: l₁, l₂, m + 1, h, hlt => by
    cases l₂ with
    | nil => simp [List.take] at h
    | cons b l₂ =>
      simp only [List.take, List.cons.injEq] at h
      obtain ⟨hab, htl⟩ := h
      subst hab
      cases hp : p a with
      | false => simp [List.takeWhile_cons, hp]
      | true =>
        simp only [List.takeWhile_cons, hp, if_true, List.length_cons] at hlt ⊢
        rw [takeWhile_agree p l₁ l₂ m htl (by omega)]

theorem takeWhile_append_all {α : Type} (p : α → Bool) :
    ∀ (l₁ l₂ : List α), (∀ x ∈ l₁, p x = true) →
      (l₁ ++ l₂).takeWhile p = l₁ ++ l₂.takeWhile p
  | [], l₂, _ => rfl
  | a :: l₁, l₂, h => by
    have ha : p a = true := h a (List.mem_cons_self a l₁)
    simp only [List.cons_append, List.takeWhile_cons, ha, if_true]
    rw [takeWhile_append_all p l₁ l₂ (fun x hx => h x (List.mem_cons_of_mem a hx))]

theorem takeWhile_sat {α : Type} (p : α → Bool) :
    ∀ l : List α, ∀ x ∈ l.takeWhile p, p x = true := by
  intro l x hx
  exact List.mem_takeWhile_imp hx

theorem takeWhile_eq_take_length {α : Type} (p : α → Bool) :
    ∀ l : List α, l.takeWhile p = l.take (l.takeWhile p).length
  | [] => rfl
  | a :: l => by
    cases hp : p a with
    | false => simp [List.takeWhile_cons, hp]
    | true =>
      simp only [List.takeWhile_cons, hp, if_true, List.length_cons, List.take]
      rw [← takeWhile_eq_take_length p l]

theorem joinNl_append_cons (xs : List String) (y : String) (ys : List String) (hxs : xs ≠ []) :
    joinNl (xs ++ y :: ys) = joinNl xs ++ "\n" ++ joinNl (y :: ys) := by
  induction xs with
  | nil => exact absurd rfl hxs
  | cons a xs ih =>
    cases xs with
    | nil => rfl
    | cons b xs =>
      have := ih (by simp)
      show joinNl (a :: (b :: xs ++ y :: ys)) = _
      unfold joinNl interStr
      simp only [List.cons_append]
      rw [show interStr "\n" (b :: (xs ++ y :: ys)) = joinNl ((b :: xs) ++ y :: ys) from rfl, this]
      unfold joinNl
      cases ys <;> simp [interStr, String.append_assoc]

theorem strLen_append (a b : String) : (a ++ b).length = a.length + b.length := by
  cases a
  cases b
  simp [String.length, String.append]

/-- Joining strictly grows when a nonempty tail is appended to a nonempty
list. -/
theorem joinNl_len_lt (xs ys : List String) (hxs : xs ≠ []) (hys : ys ≠ []) :
    (joinNl xs).length < (joinNl (xs ++ ys)).length := by
  cases ys with
  | nil => exact absurd rfl hys
  | cons y ys =>
    rw [joinNl_append_cons xs y ys hxs]
    rw [strLen_append, strLen_append]
    have : ("\n" : String).length = 1 := rfl
    omega

/-- A JS-trimmed string is empty exactly when every character is
whitespace. -/
theorem jsTrim_empty_iff : ∀ s : String, jsTrim s = "" ↔ s.data.all isJsWs = true := by
    intro s
    unfold jsTrim trimEndCs
    constructor
    · intro he
      have hd : (((s.data.dropWhile isJsWs).reverse.dropWhile isJsWs).reverse) = [] := by
        have := congrArg String.data he
        simpa using this
      rw [List.reverse_eq_nil_iff] at hd
      rw [List.all_eq_true]
      intro x hx
      by_contra hxw
      have hx0 : x ∈ s.data.takeWhile isJsWs ++ s.data.dropWhile isJsWs := by
        rw [List.takeWhile_append_dropWhile]
        exact hx
      have hx1 : x ∈ s.data.dropWhile isJsWs ∨ x ∈ s.data.takeWhile isJsWs := by
        rcases List.mem_append.mp hx0 with h1 | h2
        · exact Or.inr h1
        · exact Or.inl h2
      rcases hx1 with h1 | h2
      · have hx2 : x ∈ (s.data.dropWhile isJsWs).reverse := by simpa using h1
        rw [← List.takeWhile_append_dropWhile (p := isJsWs)
          (l := (s.data.dropWhile isJsWs).reverse)] at hx2
        rcases List.mem_append.mp hx2 with h3 | h4
        · exact hxw (takeWhile_sat isJsWs _ x h3)
        · rw [hd] at h4
          simp at h4
      · exact hxw (takeWhile_sat isJsWs _ x h2)
    · intro ha
      have hgen : ∀ l : List Char, (∀ x ∈ l, isJsWs x = true) → l.dropWhile isJsWs = [] := by
        intro l
        induction l with
        | nil => intro _; rfl
        | cons c l ih =>
          intro hall
          rw [List.dropWhile_cons, if_pos (hall c (List.mem_cons_self c l))]
          exact ih (fun x hx => hall x (List.mem_cons_of_mem c hx))
      have : s.data.dropWhile isJsWs = [] :=
        hgen _ (fun x hx => List.all_eq_true.mp ha x hx)
      rw [this]
      rfl

/-- The end-trimmed string is empty exactly when every character is
whitespace. -/
theorem jsTrimEnd_empty_iff : ∀ s : String, jsTrimEnd s = "" ↔ s.data.all isJsWs = true := by
  intro s
  unfold jsTrimEnd trimEndCs
  constructor
  · intro he
    have hd : (s.data.reverse.dropWhile isJsWs).reverse = [] := by
      have := congrArg String.data he
      simpa using this
    rw [List.reverse_eq_nil_iff] at hd
    rw [List.all_eq_true]
    intro x hx
    by_contra hxw
    have hx2 : x ∈ s.data.reverse := by simpa using hx
    rw [← List.takeWhile_append_dropWhile (p := isJsWs) (l := s.data.reverse)] at hx2
    rcases List.mem_append.mp hx2 with h3 | h4
    · exact hxw (takeWhile_sat isJsWs _ x h3)
    · rw [hd] at h4
      simp at h4
  · intro ha
    have hgen : ∀ l : List Char, (∀ x ∈ l, isJsWs x = true) → l.dropWhile isJsWs = [] := by
      intro l
      induction l with
      | nil => intro _; rfl
      | cons c l ih =>
        intro hall
        rw [List.dropWhile_cons, if_pos (hall c (List.mem_cons_self c l))]
        exact ih (fun x hx => hall x (List.mem_cons_of_mem c hx))
    have : s.data.reverse.dropWhile isJsWs = [] := by
      apply hgen
      intro x hx
      exact List.all_eq_true.mp ha x (by simpa using hx)
    rw [this]
    rfl

/-- A string with a non-whitespace character stays non-blank under
appending. -/
theorem jsTrim_append_ne (a t : String) (h : jsTrim a ≠ "") : jsTrim (a ++ t) ≠ "" := by
  intro hc
  apply h
  rw [jsTrim_empty_iff] at hc ⊢
  rw [List.all_eq_true] at hc ⊢
  intro x hx
  apply hc
  have : (a ++ t).data = a.data ++ t.data := by
    cases a
    cases t
    rfl
  rw [this]
  exact List.mem_append_left _ hx

/-- Full-trim blankness and end-trim blankness coincide. -/
theorem jsTrim_ne_of_trimEnd_ne (s : String) (h : jsTrimEnd s ≠ "") : jsTrim s ≠ "" := by
  intro hc
  exact h ((jsTrimEnd_empty_iff s).mpr ((jsTrim_empty_iff s).mp hc))

theorem headD_take {α : Type} (l : List α) (n : Nat) (d : α) (hn : 1 ≤ n) :
    (l.take n).headD d = l.headD d := by
  cases l with
  | nil => simp
  | cons a t =>
    cases n with
    | zero => omega
    | succ n => rfl

theorem listBlankEat_take (l : List String) (n : Nat) (hn : 1 ≤ n) :
    listBlankEat (l.take n) = listBlankEat l := by
  cases l with
  | nil => simp [listBlankEat]
  | cons a t =>
    cases n with
    | zero => omega
    | succ n => rfl

/-- A tokenizer step examines no line beyond the consumed span, so it is
stable under truncating the remaining lines anywhere past that span. -/
theorem tokStep_restrict (opts : StreamdownOptions) (line : String)
    (rest : List String) (m : Nat) (tok : BlockToken) (k : Nat)
    (h : tokStep opts line rest = .ok (tok, k)) (hk : k < m) (hm : m ≤ rest.length) :
    tokStep opts line (rest.take m) = .ok (tok, k) := by
  have hm1 : 1 ≤ m := by omega
  have htk : rest.take m ≠ [] := by
    intro hnil
    have := congrArg List.length hnil
    simp only [List.length_take, List.length_nil] at this
    omega
  have hagree : ∀ j : Nat, rest.take j = (rest.take m).take j ∨ m < j := by
    intro j
    by_cases hj : j ≤ m
    · left
      rw [List.take_take]
      congr 1
      omega
    · right
      omega
  unfold tokStep at h ⊢
  dsimp only at h ⊢
  by_cases h1 : jsTrimEnd line = ""
  · rw [if_pos h1] at h ⊢
    exact h
  · rw [if_neg h1] at h ⊢
    by_cases h2 : (opts.math && strStarts (jsTrimEnd line) "$$") = true
    · rw [if_pos h2] at h ⊢
      by_cases h2a : (decide (2 < (jsTrimEnd line).length) && strEnds (jsTrimEnd line) "$$" &&
          decide (jsTrimEnd line ≠ "$$")) = true
      · rw [if_pos h2a] at h ⊢
        exact h
      · rw [if_neg h2a] at h ⊢
        cases h
        have hcl : (rest.takeWhile (fun l => !strStarts (jsTrimEnd l) "$$")).length < rest.length := by
          by_contra hcon
          simp only [not_lt] at hcon
          have heq : (rest.takeWhile (fun l => !strStarts (jsTrimEnd l) "$$")).length = rest.length := by
            have := takeWhile_len_le (fun l => !strStarts (jsTrimEnd l) "$$") rest
            omega
          rw [heq, if_neg (lt_irrefl rest.length)] at hk
          omega
        have hklt : (rest.takeWhile (fun l => !strStarts (jsTrimEnd l) "$$")).length < m := by
          rw [if_pos hcl] at hk
          omega
        have hrw : (rest.take m).takeWhile (fun l => !strStarts (jsTrimEnd l) "$$") =
            rest.takeWhile (fun l => !strStarts (jsTrimEnd l) "$$") :=
          takeWhile_agree _ rest (rest.take m) m (by rw [List.take_take]; congr 1; omega) hklt
        rw [hrw]
        have hcl2 : (rest.takeWhile (fun l => !strStarts (jsTrimEnd l) "$$")).length <
            (rest.take m).length := by
          rw [List.length_take]
          omega
        simp only [hcl, hcl2, if_true, decide_eq_true_eq]
    · rw [if_neg h2] at h ⊢
      by_cases h3 : strStarts (jsTrimEnd line) "```" = true
      · rw [if_pos h3] at h ⊢
        cases h
        have hcl : (rest.takeWhile (fun l => !strStarts (jsTrimEnd l) "```")).length < rest.length := by
          by_contra hcon
          simp only [not_lt] at hcon
          have heq : (rest.takeWhile (fun l => !strStarts (jsTrimEnd l) "```")).length = rest.length := by
            have := takeWhile_len_le (fun l => !strStarts (jsTrimEnd l) "```") rest
            omega
          rw [heq, if_neg (lt_irrefl rest.length)] at hk
          omega
        have hklt : (rest.takeWhile (fun l => !strStarts (jsTrimEnd l) "```")).length < m := by
          rw [if_pos hcl] at hk
          omega
        have hrw : (rest.take m).takeWhile (fun l => !strStarts (jsTrimEnd l) "```") =
            rest.takeWhile (fun l => !strStarts (jsTrimEnd l) "```") :=
          takeWhile_agree _ rest (rest.take m) m (by rw [List.take_take]; congr 1; omega) hklt
        rw [hrw]
        have hcl2 : (rest.takeWhile (fun l => !strStarts (jsTrimEnd l) "```")).length <
            (rest.take m).length := by
          rw [List.length_take]
          omega
        simp only [hcl, hcl2, if_true, decide_eq_true_eq]
      · rw [if_neg h3] at h ⊢
        cases hhm : headingMatch (jsTrimEnd line) with
        | some p =>
          rw [hhm] at h
          dsimp only at h ⊢
          exact h
        | none =>
          rw [hhm] at h
          dsimp only at h ⊢
          by_cases h5 : isHrLine (jsTrimEnd line) = true
          · rw [if_pos h5] at h ⊢
            exact h
          · rw [if_neg h5] at h ⊢
            by_cases h6 : strStarts (jsTrimEnd line) ">" = true
            · rw [if_pos h6] at h ⊢
              split at h <;>
                (cases h
                 rename_i heq
                 have hlt : ((line :: rest).takeWhile (fun l => strStarts (jsTrimEnd l) ">")).length <
                    m + 1 := by
                   have hle := takeWhile_len_le (fun l => strStarts (jsTrimEnd l) ">") (line :: rest)
                   simp only [List.length_cons] at hle
                   omega
                 have hagc : (line :: rest).take (m + 1) = (line :: rest.take m).take (m + 1) := by
                   simp only [List.take, List.cons.injEq, true_and]
                   rw [List.take_take]
                   congr 1
                   omega
                 have hrw : (line :: rest.take m).takeWhile (fun l => strStarts (jsTrimEnd l) ">") =
                    (line :: rest).takeWhile (fun l => strStarts (jsTrimEnd l) ">") :=
                   takeWhile_agree _ (line :: rest) (line :: rest.take m) (m + 1) hagc hlt
                 rw [hrw, heq])
            · rw [if_neg h6] at h ⊢
              have htblcond : (opts.tables && containsChar (jsTrimEnd line) '|' &&
                  decide ((rest.take m) ≠ []) && isAlignRow (jsTrimEnd ((rest.take m).headD ""))) =
                  (opts.tables && containsChar (jsTrimEnd line) '|' &&
                  decide (rest ≠ []) && isAlignRow (jsTrimEnd (rest.headD ""))) := by
                rw [headD_take rest m "" hm1]
                have e1 : decide ((rest.take m) ≠ []) = true := by simp [htk]
                have e2 : decide (rest ≠ []) = true := by
                  have : rest ≠ [] := by
                    intro hnil
                    subst hnil
                    simp at hm
                    omega
                  simp [this]
                rw [e1, e2]
              rw [htblcond]
              by_cases h7 : (opts.tables && containsChar (jsTrimEnd line) '|' &&
                  decide (rest ≠ []) && isAlignRow (jsTrimEnd (rest.headD ""))) = true
              · rw [if_pos h7] at h ⊢
                cases htlm : ((line :: rest).takeWhile (fun l => containsChar (jsTrimEnd l) '|')).map jsTrimEnd with
                | nil => rw [htlm] at h; dsimp only at h; cases h
                | cons t0 ts0 =>
                  cases ts0 with
                  | nil => rw [htlm] at h; dsimp only at h; cases h
                  | cons t1 ts1 =>
                    rw [htlm] at h
                    dsimp only at h
                    cases h
                    have hlen : ((line :: rest).takeWhile (fun l => containsChar (jsTrimEnd l) '|')).length =
                        (t0 :: t1 :: ts1).length := by
                      rw [← htlm]
                      simp
                    have hlt : ((line :: rest).takeWhile (fun l => containsChar (jsTrimEnd l) '|')).length <
                        m + 1 := by
                      rw [hlen]
                      simp only [List.length_cons] at hk ⊢
                      omega
                    have hagc : (line :: rest).take (m + 1) = (line :: rest.take m).take (m + 1) := by
                      simp only [List.take, List.cons.injEq, true_and]
                      rw [List.take_take]
                      congr 1
                      omega
                    have hrw : (line :: rest.take m).takeWhile (fun l => containsChar (jsTrimEnd l) '|') =
                        (line :: rest).takeWhile (fun l => containsChar (jsTrimEnd l) '|') :=
                      takeWhile_agree _ (line :: rest) (line :: rest.take m) (m + 1) hagc hlt
                    rw [hrw, htlm]
              · rw [if_neg h7] at h ⊢
                by_cases h8 : unordStart line = true
                · rw [if_pos h8] at h ⊢
                  cases h
                  have hrle : ((line :: rest).takeWhile (fun l => (unordItem l).isSome)).length ≤ m := by
                    by_contra hcon
                    simp only [not_le] at hcon
                    have hle := takeWhile_len_le (fun l => (unordItem l).isSome) (line :: rest)
                    simp only [List.length_cons] at hle
                    have hbe := listBlankEat ((line :: rest).drop
                      ((line :: rest).takeWhile (fun l => (unordItem l).isSome)).length)
                    have : listBlankEat ((line :: rest).drop
                        ((line :: rest).takeWhile (fun l => (unordItem l).isSome)).length) ≤ 1 := by
                      unfold listBlankEat
                      split
                      · split <;> omega
                      · omega
                    omega
                  have hlt : ((line :: rest).takeWhile (fun l => (unordItem l).isSome)).length <
                      m + 1 := by omega
                  have hagc : (line :: rest).take (m + 1) = (line :: rest.take m).take (m + 1) := by
                    simp only [List.take, List.cons.injEq, true_and]
                    rw [List.take_take]
                    congr 1
                    omega
                  have hrw : (line :: rest.take m).takeWhile (fun l => (unordItem l).isSome) =
                      (line :: rest).takeWhile (fun l => (unordItem l).isSome) :=
                    takeWhile_agree _ (line :: rest) (line :: rest.take m) (m + 1) hagc hlt
                  rw [hrw]
                  have hdrop : (line :: rest.take m).drop
                      ((line :: rest).takeWhile (fun l => (unordItem l).isSome)).length =
                      ((line :: rest).drop
                        ((line :: rest).takeWhile (fun l => (unordItem l).isSome)).length).take
                        (m + 1 - ((line :: rest).takeWhile (fun l => (unordItem l).isSome)).length) := by
                    have : line :: rest.take m = (line :: rest).take (m + 1) := by
                      simp [List.take]
                    rw [this, List.drop_take]
                  rw [hdrop, listBlankEat_take _ _ (by omega)]
                · rw [if_neg h8] at h ⊢
                  by_cases h9 : ordStart line = true
                  · rw [if_pos h9] at h ⊢
                    cases h
                    have hrle : ((line :: rest).takeWhile (fun l => (ordItem l).isSome)).length ≤ m := by
                      by_contra hcon
                      simp only [not_le] at hcon
                      have hle := takeWhile_len_le (fun l => (ordItem l).isSome) (line :: rest)
                      simp only [List.length_cons] at hle
                      have : listBlankEat ((line :: rest).drop
                          ((line :: rest).takeWhile (fun l => (ordItem l).isSome)).length) ≤ 1 := by
                        unfold listBlankEat
                        split
                        · split <;> omega
                        · omega
                      omega
                    have hlt : ((line :: rest).takeWhile (fun l => (ordItem l).isSome)).length <
                        m + 1 := by omega
                    have hagc : (line :: rest).take (m + 1) = (line :: rest.take m).take (m + 1) := by
                      simp only [List.take, List.cons.injEq, true_and]
                      rw [List.take_take]
                      congr 1
                      omega
                    have hrw : (line :: rest.take m).takeWhile (fun l => (ordItem l).isSome) =
                        (line :: rest).takeWhile (fun l => (ordItem l).isSome) :=
                      takeWhile_agree _ (line :: rest) (line :: rest.take m) (m + 1) hagc hlt
                    rw [hrw]
                    have hdrop : (line :: rest.take m).drop
                        ((line :: rest).takeWhile (fun l => (ordItem l).isSome)).length =
                        ((line :: rest).drop
                          ((line :: rest).takeWhile (fun l => (ordItem l).isSome)).length).take
                          (m + 1 - ((line :: rest).takeWhile (fun l => (ordItem l).isSome)).length) := by
                      have : line :: rest.take m = (line :: rest).take (m + 1) := by
                        simp [List.take]
                      rw [this, List.drop_take]
                    rw [hdrop, listBlankEat_take _ _ (by omega)]
                  · rw [if_neg h9] at h ⊢
                    cases h
                    have hrw : (rest.take m).takeWhile paraCont = rest.takeWhile paraCont :=
                      takeWhile_agree _ rest (rest.take m) m
                        (by rw [List.take_take]; congr 1; omega) hk
                    rw [hrw]

theorem listBlankEat_le_one (l : List String) : listBlankEat l ≤ 1 := by
  unfold listBlankEat
  split
  · split <;> omega
  · omega

theorem listBlankEat_eq_head? (l : List String) :
    listBlankEat l = match l.head? with
      | some x => if jsTrim x = "" then 1 else 0
      | none => 0 := by
  cases l <;> rfl

theorem head?_drop_eq_get? {α : Type} : ∀ (l : List α) (n : Nat), (l.drop n).head? = l.get? n
  | [], _ => by simp
  | _ :: _, 0 => rfl
  | _ :: t, n + 1 => head?_drop_eq_get? t n

theorem get?_agree_of_take {α : Type} (l₁ l₂ : List α) (m j : Nat)
    (hag : l₁.take m = l₂.take m) (hj : j < m) : l₁.get? j = l₂.get? j := by
  have h1 : (l₁.take m).get? j = l₁.get? j := List.get?_take hj
  have h2 : (l₂.take m).get? j = l₂.get? j := List.get?_take hj
  rw [← h1, ← h2, hag]

theorem joinNl_contains_nl (x y : String) (ys : List String) :
    '\n' ∈ (joinNl (x :: y :: ys)).data := by
  show '\n' ∈ (x ++ "\n" ++ interStr "\n" (y :: ys)).data
  have hdata : ∀ a b : String, (a ++ b).data = a.data ++ b.data := by
    intro a b
    cases a
    cases b
    rfl
  rw [hdata, hdata]
  refine List.mem_append_left _ (List.mem_append_right _ ?_)
  simp [String.data]

theorem mem_of_mem_dropWhile {α : Type} (p : α → Bool) (l : List α) (x : α)
    (hx : x ∈ l.dropWhile p) : x ∈ l :=
  (List.dropWhile_sublist p (l := l)).mem hx

theorem unordItem_content_mem (l : String) (ind : Nat) (content : String)
    (h : unordItem l = some (ind, content)) :
    ∀ y ∈ content.data, y ∈ l.data := by
  unfold unordItem at h
  dsimp only at h
  split at h
  · rename_i b c r hpat
    split at h
    · injection h with h
      injection h with h1 h2
      intro y hy
      rw [← h2] at hy
      have : y ∈ l.data.dropWhile isJsWs := by
        rw [hpat]
        exact List.mem_cons_of_mem b (List.mem_cons_of_mem c hy)
      exact mem_of_mem_dropWhile _ _ y this
    · cases h
  · cases h

theorem taskMatch_rest_mem (content : String) (ch : Bool) (restc : String)
    (h : taskMatch content = some (ch, restc)) :
    ∀ y ∈ restc.data, y ∈ content.data := by
  unfold taskMatch at h
  split at h
  · rename_i m c r hpat
    split at h
    · injection h with h
      injection h with h1 h2
      intro y hy
      rw [← h2] at hy
      rw [hpat]
      exact List.mem_cons_of_mem _ (List.mem_cons_of_mem _
        (List.mem_cons_of_mem _ (List.mem_cons_of_mem _ hy)))
    · cases h
  · cases h

theorem ordItem_content_mem (l : String) (ind : Nat) (content : String)
    (h : ordItem l = some (ind, content)) :
    ∀ y ∈ content.data, y ∈ l.data := by
  unfold ordItem at h
  dsimp only at h
  split at h
  · rename_i c r hpat
    split at h
    · injection h with h
      injection h with h1 h2
      intro y hy
      rw [← h2] at hy
      have hm1 : y ∈ ('.' :: c :: r : List Char) :=
        List.mem_cons_of_mem _ (List.mem_cons_of_mem _ hy)
      have hm2 : y ∈ (l.data.dropWhile isJsWs).drop
          ((l.data.dropWhile isJsWs).takeWhile Char.isDigit).length := by
        rw [hpat]
        exact hm1
      exact mem_of_mem_dropWhile _ _ y ((List.drop_sublist _ _).mem hm2)
    · cases h
  · cases h

theorem mem_unordContent (opts : StreamdownOptions) (l : String) (x : Char)
    (hx : x ∈ ((mkUnordListItem opts l).content).data) : x ∈ l.data := by
  unfold mkUnordListItem at hx
  cases hui : unordItem l with
  | none =>
    rw [hui] at hx
    simp at hx
  | some p =>
    obtain ⟨ind, content⟩ := p
    rw [hui] at hx
    dsimp only at hx
    by_cases hg : opts.gfm = true
    · rw [if_pos hg] at hx
      cases htm : taskMatch content with
      | none =>
        rw [htm] at hx
        exact unordItem_content_mem l ind content hui x hx
      | some q =>
        obtain ⟨ch, restc⟩ := q
        rw [htm] at hx
        dsimp only at hx
        exact unordItem_content_mem l ind content hui x
          (taskMatch_rest_mem content ch restc htm x hx)
    · rw [if_neg hg] at hx
      exact unordItem_content_mem l ind content hui x hx

theorem mem_ordContent (l : String) (x : Char)
    (hx : x ∈ ((mkOrdListItem l).content).data) : x ∈ l.data := by
  unfold mkOrdListItem at hx
  cases hoi : ordItem l with
  | none =>
    rw [hoi] at hx
    simp at hx
  | some p =>
    obtain ⟨ind, content⟩ := p
    rw [hoi] at hx
    dsimp only at hx
    exact ordItem_content_mem l ind content hoi x hx

theorem getLastD_congr {α : Type} (l : List α) (h : l ≠ []) (d₁ d₂ : α) :
    l.getLastD d₁ = l.getLastD d₂ := by
  cases l with
  | nil => exact absurd rfl h
  | cons a t =>
    cases t with
    | nil => rfl
    | cons b u =>
      conv_lhs => rw [List.getLastD_cons]
      conv_rhs => rw [List.getLastD_cons]

theorem dropLast_append_getLastD {α : Type} (d : α) : ∀ (l : List α), l ≠ [] →
    l.dropLast ++ [l.getLastD d] = l
  | [a], _ => rfl
  | a :: b :: t, _ => by
    have ih := dropLast_append_getLastD d (b :: t) (by simp)
    have h1 : (a :: b :: t).dropLast = a :: (b :: t).dropLast := rfl
    have h2 : (a :: b :: t).getLastD d = (b :: t).getLastD d := by
      rw [List.getLastD_cons]
      exact getLastD_congr (b :: t) (by simp) a d
    rw [h1, h2, List.cons_append, ih]

theorem getLastD_cons_ne {α : Type} (line : α) (rest : List α) (h : rest ≠ []) (d : α) :
    (line :: rest).getLastD d = rest.getLastD d := by
  cases rest with
  | nil => exact absurd rfl h
  | cons b t =>
    rw [List.getLastD_cons]
    exact getLastD_congr (b :: t) (by simp) line d

theorem head?_append_left {α : Type} (l l' : List α) (h : l ≠ []) :
    (l ++ l').head? = l.head? := by
  cases l with
  | nil => exact absurd rfl h
  | cons a t => rfl

/-- The examined-to-the-last-line characterisation: a `takeWhile` whose
length is one less than the list covers exactly `dropLast` and fails on the
last element. -/
theorem takeWhile_pred_last (p : String → Bool) (l : List String)
    (hlen : (l.takeWhile p).length = l.length - 1) (hne : l ≠ []) :
    l.takeWhile p = l.dropLast ∧ p (l.getLastD "") = false := by
  have h1 : l.takeWhile p = l.take (l.length - 1) := by
    rw [takeWhile_eq_take_length, hlen]
  have h2 : l.takeWhile p = l.dropLast := by
    rw [h1, List.dropLast_eq_take]
  refine ⟨h2, ?_⟩
  have hsplit := dropLast_append_getLastD "" l hne
  have hassoc : l.takeWhile p = l.dropLast ++ [].takeWhile p := by
    rw [h2]
    simp
  have hstep : l.takeWhile p = l.dropLast ++ ([l.getLastD ""].takeWhile p) := by
    conv_lhs => rw [← hsplit]
    exact takeWhile_append_all p l.dropLast [l.getLastD ""]
      (fun x hx => takeWhile_sat p l x (by rw [h2]; exact hx))
  rw [h2] at hstep
  have hempty : ([l.getLastD ""].takeWhile p) = [] := by
    have := congrArg List.length hstep
    simp only [List.length_append] at this
    cases he : [l.getLastD ""].takeWhile p with
    | nil => rfl
    | cons a t =>
      rw [he] at this
      simp at this
  cases hp : p (l.getLastD "") with
  | false => rfl
  | true =>
    exfalso
    have hone : ([l.getLastD ""].takeWhile p) = [l.getLastD ""] := by
      rw [List.takeWhile_cons, hp]
      simp
    rw [hone] at hempty
    cases hempty

/-- Two line buffers agreeing past every line a step examines give the same
step. -/
theorem tokStep_agree (opts : StreamdownOptions) (line : String)
    (rest₁ rest₂ : List String) (m : Nat) (tok : BlockToken) (k : Nat)
    (hag : rest₁.take m = rest₂.take m)
    (h : tokStep opts line rest₁ = .ok (tok, k)) (hk : k < m) (hm : m ≤ rest₁.length) :
    tokStep opts line rest₂ = .ok (tok, k) := by
  have hres := tokStep_restrict opts line rest₁ m tok k h hk hm
  rw [hag] at hres
  have hlen2 : m ≤ rest₂.length := by
    have := congrArg List.length hag
    simp only [List.length_take] at this
    omega
  have hlen : (rest₂.take m).length = m := by
    rw [List.length_take]
    omega
  have hext := tokStep_extend opts line (rest₂.take m) (rest₂.drop m) tok k hres
    (by rw [hlen]; exact hk)
  rw [List.take_append_drop] at hext
  exact hext

theorem containsChar_iff (s : String) (ch : Char) : containsChar s ch = true ↔ ch ∈ s.data := by
  unfold containsChar
  exact List.elem_iff

theorem headD_dropLast (l : List String) (h : 2 ≤ l.length) (d : String) :
    l.dropLast.headD d = l.headD d := by
  cases l with
  | nil => simp at h
  | cons a t =>
    cases t with
    | nil => simp at h
    | cons b u => rfl

theorem dropLast_cons_ne {α : Type} (line : α) (rest : List α) (h : rest ≠ []) :
    (line :: rest).dropLast = line :: rest.dropLast := by
  cases rest with
  | nil => exact absurd rfl h
  | cons b t => rfl

theorem listBlankEat_single (x : String) :
    listBlankEat [x] = if jsTrim x = "" then 1 else 0 := rfl

theorem listBlankEat_cons (x : String) (l : List String) :
    listBlankEat (x :: l) = if jsTrim x = "" then 1 else 0 := rfl

theorem mem_trimEnd (s : String) (x : Char) (hx : x ∈ (jsTrimEnd s).data) : x ∈ s.data := by
  unfold jsTrimEnd trimEndCs at hx
  simp only [List.mem_reverse] at hx
  have := mem_of_mem_dropWhile isJsWs _ x hx
  simpa using this

/-- At the divergence point of a last-line modification, a step that
consumed everything but the last line is reproduced by the modified run
whenever the produced raws agree. -/
theorem tokStep_last_raw (opts : StreamdownOptions) (line c : String)
    (rest₁ tail2 : List String) (a a₂ : BlockToken) (k₂ : Nat)
    (hne : rest₁ ≠ [])
    (hnl : containsChar line '\n' = false)
    (h : tokStep opts line rest₁ = .ok (a, rest₁.length - 1))
    (h₂ : tokStep opts line (rest₁.dropLast ++ (rest₁.getLastD "" ++ c) :: tail2) =
      .ok (a₂, k₂))
    (hraw : a₂.raw = a.raw) :
    a₂ = a ∧ k₂ = rest₁.length - 1 := by
  have hn1 : 1 ≤ rest₁.length := List.length_pos.mpr hne
  have hdllen : rest₁.dropLast.length = rest₁.length - 1 := by
    rw [List.length_dropLast]
  have hdltake : rest₁.dropLast = rest₁.take (rest₁.length - 1) := List.dropLast_eq_take rest₁
  have hsplit : rest₁.dropLast ++ [rest₁.getLastD ""] = rest₁ := dropLast_append_getLastD "" rest₁ hne
  have htakeag : rest₁.take (rest₁.length - 1) =
      (rest₁.dropLast ++ (rest₁.getLastD "" ++ c) :: tail2).take (rest₁.length - 1) := by
    rw [List.take_left' hdllen, hdltake]
  have hlen2 : (rest₁.dropLast ++ (rest₁.getLastD "" ++ c) :: tail2).length =
      rest₁.length + tail2.length := by
    simp only [List.length_append, List.length_cons, hdllen]
    omega
  unfold tokStep at h h₂
  dsimp only at h h₂
  by_cases h1 : jsTrimEnd line = ""
  · rw [if_pos h1] at h h₂
    simp only [Except.ok.injEq, Prod.mk.injEq] at h h₂
    exact ⟨h₂.1.symm.trans h.1, by omega⟩
  · rw [if_neg h1] at h h₂
    by_cases h2 : (opts.math && strStarts (jsTrimEnd line) "$$") = true
    · rw [if_pos h2] at h h₂
      by_cases h2a : (decide (2 < (jsTrimEnd line).length) && strEnds (jsTrimEnd line) "$$" &&
          decide (jsTrimEnd line ≠ "$$")) = true
      · rw [if_pos h2a] at h h₂
        simp only [Except.ok.injEq, Prod.mk.injEq] at h h₂
        exact ⟨h₂.1.symm.trans h.1, by omega⟩
      · rw [if_neg h2a] at h h₂
        have hle := takeWhile_len_le (fun l => !strStarts (jsTrimEnd l) "$$") rest₁
        by_cases hcl : (rest₁.takeWhile (fun l => !strStarts (jsTrimEnd l) "$$")).length <
            rest₁.length
        · -- closed fence strictly inside the old buffer
          simp only [Except.ok.injEq, Prod.mk.injEq] at h
          obtain ⟨ha, hk⟩ := h
          rw [if_pos (by simpa using hcl)] at hk
          have hmlt : (rest₁.takeWhile (fun l => !strStarts (jsTrimEnd l) "$$")).length <
              rest₁.length - 1 := by omega
          have htw : ((rest₁.dropLast ++ (rest₁.getLastD "" ++ c) :: tail2).takeWhile
              (fun l => !strStarts (jsTrimEnd l) "$$")) =
              rest₁.takeWhile (fun l => !strStarts (jsTrimEnd l) "$$") :=
            takeWhile_agree _ rest₁ _ (rest₁.length - 1) htakeag hmlt
          rw [htw] at h₂
          have hcl2 : (rest₁.takeWhile (fun l => !strStarts (jsTrimEnd l) "$$")).length <
              (rest₁.dropLast ++ (rest₁.getLastD "" ++ c) :: tail2).length := by
            rw [hlen2]
            omega
          simp only [Except.ok.injEq, Prod.mk.injEq] at h₂
          obtain ⟨ha2, hk2⟩ := h₂
          rw [if_pos (by simpa using hcl2)] at hk2
          constructor
          · rw [← ha2, ← ha]
            have d1 : decide ((rest₁.takeWhile (fun l => !strStarts (jsTrimEnd l) "$$")).length <
                rest₁.length) = true := decide_eq_true hcl
            have d2 : decide ((rest₁.takeWhile (fun l => !strStarts (jsTrimEnd l) "$$")).length <
                (rest₁.dropLast ++ (rest₁.getLastD "" ++ c) :: tail2).length) = true :=
              decide_eq_true hcl2
            rw [d1, d2]
          · omega
        · -- unclosed fence would have consumed the whole buffer
          exfalso
          simp only [Except.ok.injEq, Prod.mk.injEq] at h
          have hk := h.2
          have hmlen : (rest₁.takeWhile (fun l => !strStarts (jsTrimEnd l) "$$")).length =
              rest₁.length := by omega
          rw [hmlen, if_neg (by simp)] at hk
          omega
    · rw [if_neg h2] at h h₂
      by_cases h3 : strStarts (jsTrimEnd line) "```" = true
      · rw [if_pos h3] at h h₂
        have hle := takeWhile_len_le (fun l => !strStarts (jsTrimEnd l) "```") rest₁
        by_cases hcl : (rest₁.takeWhile (fun l => !strStarts (jsTrimEnd l) "```")).length <
            rest₁.length
        · simp only [Except.ok.injEq, Prod.mk.injEq] at h
          obtain ⟨ha, hk⟩ := h
          rw [if_pos (by simpa using hcl)] at hk
          have hmlt : (rest₁.takeWhile (fun l => !strStarts (jsTrimEnd l) "```")).length <
              rest₁.length - 1 := by omega
          have htw : ((rest₁.dropLast ++ (rest₁.getLastD "" ++ c) :: tail2).takeWhile
              (fun l => !strStarts (jsTrimEnd l) "```")) =
              rest₁.takeWhile (fun l => !strStarts (jsTrimEnd l) "```") :=
            takeWhile_agree _ rest₁ _ (rest₁.length - 1) htakeag hmlt
          rw [htw] at h₂
          have hcl2 : (rest₁.takeWhile (fun l => !strStarts (jsTrimEnd l) "```")).length <
              (rest₁.dropLast ++ (rest₁.getLastD "" ++ c) :: tail2).length := by
            rw [hlen2]
            omega
          simp only [Except.ok.injEq, Prod.mk.injEq] at h₂
          obtain ⟨ha2, hk2⟩ := h₂
          rw [if_pos (by simpa using hcl2)] at hk2
          constructor
          · rw [← ha2, ← ha]
            have d1 : decide ((rest₁.takeWhile (fun l => !strStarts (jsTrimEnd l) "```")).length <
                rest₁.length) = true := decide_eq_true hcl
            have d2 : decide ((rest₁.takeWhile (fun l => !strStarts (jsTrimEnd l) "```")).length <
                (rest₁.dropLast ++ (rest₁.getLastD "" ++ c) :: tail2).length) = true :=
              decide_eq_true hcl2
            rw [d1, d2]
          · omega
        · exfalso
          simp only [Except.ok.injEq, Prod.mk.injEq] at h
          have hk := h.2
          have hmlen : (rest₁.takeWhile (fun l => !strStarts (jsTrimEnd l) "```")).length =
              rest₁.length := by omega
          rw [hmlen, if_neg (by simp)] at hk
          omega
      · rw [if_neg h3] at h h₂
        cases hhm : headingMatch (jsTrimEnd line) with
        | some p =>
          rw [hhm] at h h₂
          dsimp only at h h₂
          simp only [Except.ok.injEq, Prod.mk.injEq] at h h₂
          exact ⟨h₂.1.symm.trans h.1, by omega⟩
        | none =>
          rw [hhm] at h h₂
          dsimp only at h h₂
          by_cases h5 : isHrLine (jsTrimEnd line) = true
          · rw [if_pos h5] at h h₂
            simp only [Except.ok.injEq, Prod.mk.injEq] at h h₂
            exact ⟨h₂.1.symm.trans h.1, by omega⟩
          · rw [if_neg h5] at h h₂
            by_cases h6 : strStarts (jsTrimEnd line) ">" = true
            · rw [if_pos h6] at h h₂
              have hrun_cons : ((line :: rest₁).takeWhile (fun l => strStarts (jsTrimEnd l) ">")) =
                  line :: (rest₁.takeWhile (fun l => strStarts (jsTrimEnd l) ">")) := by
                simp [List.takeWhile_cons, h6]
              have hconsapp : (line :: (rest₁.dropLast ++ (rest₁.getLastD "" ++ c) :: tail2)) =
                  (line :: rest₁.dropLast) ++ ((rest₁.getLastD "" ++ c) :: tail2) := rfl
              split at h <;>
                (rename_i heq
                 simp only [Except.ok.injEq, Prod.mk.injEq] at h
                 obtain ⟨ha, hk⟩ := h
                 have hcons_len : ((line :: rest₁).takeWhile
                     (fun l => strStarts (jsTrimEnd l) ">")).length =
                     (rest₁.takeWhile (fun l => strStarts (jsTrimEnd l) ">")).length + 1 := by
                   rw [hrun_cons]
                   simp
                 have hrunn : ((line :: rest₁).takeWhile
                     (fun l => strStarts (jsTrimEnd l) ">")).length = rest₁.length := by
                   have hle := takeWhile_len_le (fun l => strStarts (jsTrimEnd l) ">") rest₁
                   omega
                 have hpred := takeWhile_pred_last (fun l => strStarts (jsTrimEnd l) ">")
                   (line :: rest₁) (by rw [hrunn]; simp) (by simp)
                 obtain ⟨hcover, hstop⟩ := hpred
                 rw [dropLast_cons_ne line rest₁ hne] at hcover
                 have hsat : ∀ x ∈ line :: rest₁.dropLast,
                     (fun l => strStarts (jsTrimEnd l) ">") x = true := by
                   intro x hx
                   exact takeWhile_sat _ (line :: rest₁) x (by rw [hcover]; exact hx)
                 have happ := takeWhile_append_all (fun l => strStarts (jsTrimEnd l) ">")
                   (line :: rest₁.dropLast) ((rest₁.getLastD "" ++ c) :: tail2) hsat
                 by_cases hqml : (fun l => strStarts (jsTrimEnd l) ">")
                     (rest₁.getLastD "" ++ c) = true
                 · -- the modified last line extends the quote run: raw strictly grows
                   exfalso
                   have hr2 : ((line :: (rest₁.dropLast ++ (rest₁.getLastD "" ++ c) :: tail2)).takeWhile
                       (fun l => strStarts (jsTrimEnd l) ">"))
                       = ((line :: rest₁).takeWhile (fun l => strStarts (jsTrimEnd l) ">")) ++
                         ((rest₁.getLastD "" ++ c) ::
                           tail2.takeWhile (fun l => strStarts (jsTrimEnd l) ">")) := by
                     rw [hconsapp, happ, hcover]
                     congr 1
                     rw [List.takeWhile_cons, if_pos hqml]
                   rw [hr2] at h₂
                   have hscr : (((((line :: rest₁).takeWhile (fun l => strStarts (jsTrimEnd l) ">")) ++
                       ((rest₁.getLastD "" ++ c) ::
                         tail2.takeWhile (fun l => strStarts (jsTrimEnd l) ">"))).map
                       (fun l => stripQuoteMark (jsTrimEnd l))).head?).bind calloutMatch
                       = ((((line :: rest₁).takeWhile (fun l => strStarts (jsTrimEnd l) ">")).map
                       (fun l => stripQuoteMark (jsTrimEnd l))).head?).bind calloutMatch := by
                     rw [List.map_append, head?_append_left]
                     rw [hcover]
                     simp
                   rw [hscr, heq] at h₂
                   dsimp only at h₂
                   simp only [Except.ok.injEq, Prod.mk.injEq] at h₂
                   obtain ⟨ha2, hk2⟩ := h₂
                   have hr_a : a.raw = joinNl (((line :: rest₁).takeWhile
                       (fun l => strStarts (jsTrimEnd l) ">")).map
                       (fun l => stripQuoteMark (jsTrimEnd l))) := by
                     rw [← ha]
                   have hr_a2 : a₂.raw = joinNl ((((line :: rest₁).takeWhile
                       (fun l => strStarts (jsTrimEnd l) ">")) ++
                       ((rest₁.getLastD "" ++ c) ::
                         tail2.takeWhile (fun l => strStarts (jsTrimEnd l) ">"))).map
                       (fun l => stripQuoteMark (jsTrimEnd l))) := by
                     rw [← ha2]
                   rw [hr_a2, hr_a] at hraw
                   rw [List.map_append] at hraw
                   have hlt := joinNl_len_lt
                     (((line :: rest₁).takeWhile (fun l => strStarts (jsTrimEnd l) ">")).map
                       (fun l => stripQuoteMark (jsTrimEnd l)))
                     ((((rest₁.getLastD "" ++ c) ::
                         tail2.takeWhile (fun l => strStarts (jsTrimEnd l) ">"))).map
                       (fun l => stripQuoteMark (jsTrimEnd l)))
                     (by rw [hcover]; simp) (by simp)
                   have hlen := congrArg String.length hraw
                   omega
                 · -- unchanged run: identical token and consumption
                   have hr2 : ((line :: (rest₁.dropLast ++ (rest₁.getLastD "" ++ c) :: tail2)).takeWhile
                       (fun l => strStarts (jsTrimEnd l) ">"))
                       = ((line :: rest₁).takeWhile (fun l => strStarts (jsTrimEnd l) ">")) := by
                     rw [hconsapp, happ, hcover]
                     have hnil : (((rest₁.getLastD "" ++ c) :: tail2).takeWhile
                         (fun l => strStarts (jsTrimEnd l) ">")) = [] := by
                       rw [List.takeWhile_cons, if_neg hqml]
                     rw [hnil, List.append_nil]
                   rw [hr2, heq] at h₂
                   dsimp only at h₂
                   simp only [Except.ok.injEq, Prod.mk.injEq] at h₂
                   obtain ⟨ha2, hk2⟩ := h₂
                   exact ⟨ha2.symm.trans ha, by omega⟩)
            · rw [if_neg h6] at h h₂
              by_cases h7 : (opts.tables && containsChar (jsTrimEnd line) '|' &&
                  decide (rest₁ ≠ []) && isAlignRow (jsTrimEnd (rest₁.headD ""))) = true
              · rw [if_pos h7] at h
                cases htlm : ((line :: rest₁).takeWhile
                    (fun l => containsChar (jsTrimEnd l) '|')).map jsTrimEnd with
                | nil => rw [htlm] at h; dsimp only at h; cases h
                | cons t0 ts0 =>
                  cases ts0 with
                  | nil => rw [htlm] at h; dsimp only at h; cases h
                  | cons alignLine ts =>
                    rw [htlm] at h
                    dsimp only at h
                    simp only [Except.ok.injEq, Prod.mk.injEq] at h
                    obtain ⟨ha, hk⟩ := h
                    have hlen_run : ((line :: rest₁).takeWhile
                        (fun l => containsChar (jsTrimEnd l) '|')).length = ts.length + 2 := by
                      have := congrArg List.length htlm
                      simpa using this
                    simp only [List.length_cons] at hk
                    have hrunn : ((line :: rest₁).takeWhile
                        (fun l => containsChar (jsTrimEnd l) '|')).length = rest₁.length := by
                      omega
                    have hn2 : 2 ≤ rest₁.length := by omega
                    have hpred := takeWhile_pred_last (fun l => containsChar (jsTrimEnd l) '|')
                      (line :: rest₁) (by rw [hrunn]; simp) (by simp)
                    obtain ⟨hcover, hstop⟩ := hpred
                    rw [dropLast_cons_ne line rest₁ hne] at hcover
                    have hdlne : rest₁.dropLast ≠ [] := by
                      intro hnil
                      have := congrArg List.length hnil
                      simp only [hdllen, List.length_nil] at this
                      omega
                    have hheadD : ((rest₁.dropLast ++ (rest₁.getLastD "" ++ c) :: tail2).headD "")
                        = rest₁.headD "" := by
                      rw [headD_append _ _ _ hdlne, headD_dropLast rest₁ hn2]
                    have h7b : (opts.tables && containsChar (jsTrimEnd line) '|' &&
                        decide ((rest₁.dropLast ++ (rest₁.getLastD "" ++ c) :: tail2) ≠ []) &&
                        isAlignRow (jsTrimEnd ((rest₁.dropLast ++
                          (rest₁.getLastD "" ++ c) :: tail2).headD ""))) = true := by
                      rw [hheadD]
                      simp only [Bool.and_eq_true] at h7 ⊢
                      exact ⟨⟨⟨h7.1.1.1, h7.1.1.2⟩, by simp⟩, h7.2⟩
                    rw [if_pos h7b] at h₂
                    have hsat : ∀ x ∈ line :: rest₁.dropLast,
                        (fun l => containsChar (jsTrimEnd l) '|') x = true := by
                      intro x hx
                      exact takeWhile_sat _ (line :: rest₁) x (by rw [hcover]; exact hx)
                    have happ := takeWhile_append_all (fun l => containsChar (jsTrimEnd l) '|')
                      (line :: rest₁.dropLast) ((rest₁.getLastD "" ++ c) :: tail2) hsat
                    have hconsapp : (line :: (rest₁.dropLast ++ (rest₁.getLastD "" ++ c) :: tail2)) =
                        (line :: rest₁.dropLast) ++ ((rest₁.getLastD "" ++ c) :: tail2) := rfl
                    by_cases hpml : (fun l => containsChar (jsTrimEnd l) '|')
                        (rest₁.getLastD "" ++ c) = true
                    · -- run grows: the table raw strictly lengthens, contradicting raw equality
                      exfalso
                      have hr2 : ((line :: (rest₁.dropLast ++
                          (rest₁.getLastD "" ++ c) :: tail2)).takeWhile
                          (fun l => containsChar (jsTrimEnd l) '|'))
                          = ((line :: rest₁).takeWhile (fun l => containsChar (jsTrimEnd l) '|')) ++
                            ((rest₁.getLastD "" ++ c) ::
                              tail2.takeWhile (fun l => containsChar (jsTrimEnd l) '|')) := by
                        rw [hconsapp, happ, hcover]
                        congr 1
                        rw [List.takeWhile_cons, if_pos hpml]
                      rw [hr2] at h₂
                      have hmap2 : ((((line :: rest₁).takeWhile
                          (fun l => containsChar (jsTrimEnd l) '|')) ++
                          ((rest₁.getLastD "" ++ c) ::
                            tail2.takeWhile (fun l => containsChar (jsTrimEnd l) '|'))).map jsTrimEnd)
                          = t0 :: alignLine :: (ts ++ (jsTrimEnd (rest₁.getLastD "" ++ c) ::
                            (tail2.takeWhile (fun l => containsChar (jsTrimEnd l) '|')).map jsTrimEnd)) := by
                        rw [List.map_append, htlm]
                        simp
                      rw [hmap2] at h₂
                      dsimp only at h₂
                      simp only [Except.ok.injEq, Prod.mk.injEq] at h₂
                      obtain ⟨ha2, hk2⟩ := h₂
                      have hr_a : a.raw = joinNl (t0 :: alignLine :: ts) := by
                        rw [← ha]
                      have hr_a2 : a₂.raw = joinNl (t0 :: alignLine ::
                          (ts ++ (jsTrimEnd (rest₁.getLastD "" ++ c) ::
                            (tail2.takeWhile (fun l => containsChar (jsTrimEnd l) '|')).map jsTrimEnd))) := by
                        rw [← ha2]
                      rw [hr_a2, hr_a] at hraw
                      have hconsapp2 : t0 :: alignLine ::
                          (ts ++ (jsTrimEnd (rest₁.getLastD "" ++ c) ::
                            (tail2.takeWhile (fun l => containsChar (jsTrimEnd l) '|')).map jsTrimEnd))
                          = (t0 :: alignLine :: ts) ++ (jsTrimEnd (rest₁.getLastD "" ++ c) ::
                            (tail2.takeWhile (fun l => containsChar (jsTrimEnd l) '|')).map jsTrimEnd) := by
                        simp
                      rw [hconsapp2] at hraw
                      have hlt := joinNl_len_lt (t0 :: alignLine :: ts)
                        (jsTrimEnd (rest₁.getLastD "" ++ c) ::
                          (tail2.takeWhile (fun l => containsChar (jsTrimEnd l) '|')).map jsTrimEnd)
                        (by simp) (by simp)
                      have hlen := congrArg String.length hraw
                      omega
                    · -- unchanged run: identical token and consumption
                      have hr2 : ((line :: (rest₁.dropLast ++
                          (rest₁.getLastD "" ++ c) :: tail2)).takeWhile
                          (fun l => containsChar (jsTrimEnd l) '|'))
                          = ((line :: rest₁).takeWhile (fun l => containsChar (jsTrimEnd l) '|')) := by
                        rw [hconsapp, happ, hcover]
                        have hnil : (((rest₁.getLastD "" ++ c) :: tail2).takeWhile
                            (fun l => containsChar (jsTrimEnd l) '|')) = [] := by
                          rw [List.takeWhile_cons, if_neg hpml]
                        rw [hnil, List.append_nil]
                      rw [hr2, htlm] at h₂
                      dsimp only at h₂
                      simp only [Except.ok.injEq, Prod.mk.injEq] at h₂
                      obtain ⟨ha2, hk2⟩ := h₂
                      refine ⟨ha2.symm.trans ha, ?_⟩
                      simp only [List.length_cons] at hk2
                      omega
              · rw [if_neg h7] at h
                by_cases h7b : (opts.tables && containsChar (jsTrimEnd line) '|' &&
                    decide ((rest₁.dropLast ++ (rest₁.getLastD "" ++ c) :: tail2) ≠ []) &&
                    isAlignRow (jsTrimEnd ((rest₁.dropLast ++
                      (rest₁.getLastD "" ++ c) :: tail2).headD ""))) = true
                · rw [if_pos h7b] at h₂
                  -- possible only when the old buffer had a single remaining line
                  have hn1' : rest₁.length = 1 := by
                    by_contra hge
                    have hn2 : 2 ≤ rest₁.length := by omega
                    have hdlne : rest₁.dropLast ≠ [] := by
                      intro hnil
                      have := congrArg List.length hnil
                      simp only [hdllen, List.length_nil] at this
                      omega
                    have hheadD : ((rest₁.dropLast ++
                        (rest₁.getLastD "" ++ c) :: tail2).headD "") = rest₁.headD "" := by
                      rw [headD_append _ _ _ hdlne, headD_dropLast rest₁ hn2]
                    rw [hheadD] at h7b
                    simp only [Bool.and_eq_true] at h7b
                    exact h7 (by
                      simp only [Bool.and_eq_true]
                      exact ⟨⟨⟨h7b.1.1.1, h7b.1.1.2⟩, by simp [hne]⟩, h7b.2⟩)
                  obtain ⟨old, hrest⟩ : ∃ x, rest₁ = [x] := by
                    cases rest₁ with
                    | nil => exact absurd rfl hne
                    | cons x t =>
                      cases t with
                      | nil => exact ⟨x, rfl⟩
                      | cons y u => simp at hn1'
                  subst hrest
                  have hR2 : ([old].dropLast ++ ([old].getLastD "" ++ c) :: tail2) =
                      (old ++ c) :: tail2 := rfl
                  rw [hR2] at h₂
                  cases htlm : ((line :: (old ++ c) :: tail2).takeWhile
                      (fun l => containsChar (jsTrimEnd l) '|')).map jsTrimEnd with
                  | nil => rw [htlm] at h₂; dsimp only at h₂; cases h₂
                  | cons t0 ts0 =>
                    cases ts0 with
                    | nil => rw [htlm] at h₂; dsimp only at h₂; cases h₂
                    | cons t1 ts =>
                      rw [htlm] at h₂
                      dsimp only at h₂
                      simp only [Except.ok.injEq, Prod.mk.injEq] at h₂
                      obtain ⟨ha2, hk2⟩ := h₂
                      exfalso
                      have hnl2 : Char.ofNat 10 ∈ a₂.raw.data := by
                        rw [← ha2]
                        exact joinNl_contains_nl t0 t1 ts
                      rw [hraw] at hnl2
                      have hnlline : Char.ofNat 10 ∉ line.data := by
                        intro hmem
                        have hcc := (containsChar_iff line (Char.ofNat 10)).mpr hmem
                        rw [show (Char.ofNat 10) = (Char.ofNat 10) from rfl] at hcc
                        rw [hnl] at hcc
                        cases hcc
                      by_cases h8 : unordStart line = true
                      · rw [if_pos h8] at h
                        simp only [Except.ok.injEq, Prod.mk.injEq] at h
                        obtain ⟨ha, hk⟩ := h
                        by_cases hil : (fun l => (unordItem l).isSome) line = true
                        · by_cases hio : (fun l => (unordItem l).isSome) old = true
                          · have hRfull : ((line :: [old]).takeWhile
                                (fun l => (unordItem l).isSome)) = [line, old] := by
                              rw [List.takeWhile_cons, if_pos hil,
                                List.takeWhile_cons, if_pos hio]
                              rfl
                            rw [hRfull] at hk
                            simp only [List.length_cons, List.length_nil] at hk
                            rw [show (line :: [old]).drop (0 + 1 + 1) = [] from rfl] at hk
                            rw [show listBlankEat [] = 0 from rfl] at hk
                            omega
                          · have hR1 : ((line :: [old]).takeWhile
                                (fun l => (unordItem l).isSome)) = [line] := by
                              rw [List.takeWhile_cons, if_pos hil,
                                List.takeWhile_cons, if_neg hio]
                            rw [hR1] at ha
                            have hrawa : a.raw = joinNl (([line].map
                                (mkUnordListItem opts)).map (fun i => i.content)) := by
                              rw [← ha]
                            rw [hrawa] at hnl2
                            simp only [List.map_cons, List.map_nil] at hnl2
                            have : Char.ofNat 10 ∈ ((mkUnordListItem opts line).content).data := by
                              simpa [joinNl, interStr] using hnl2
                            exact hnlline (mem_unordContent opts line _ this)
                        · have hR0 : ((line :: [old]).takeWhile
                              (fun l => (unordItem l).isSome)) = [] := by
                            rw [List.takeWhile_cons, if_neg hil]
                          rw [hR0] at ha
                          have hrawa : a.raw = "" := by
                            rw [← ha]
                            rfl
                          rw [hrawa] at hnl2
                          simp at hnl2
                      · rw [if_neg h8] at h
                        by_cases h9 : ordStart line = true
                        · rw [if_pos h9] at h
                          simp only [Except.ok.injEq, Prod.mk.injEq] at h
                          obtain ⟨ha, hk⟩ := h
                          by_cases hil : (fun l => (ordItem l).isSome) line = true
                          · by_cases hio : (fun l => (ordItem l).isSome) old = true
                            · have hRfull : ((line :: [old]).takeWhile
                                  (fun l => (ordItem l).isSome)) = [line, old] := by
                                rw [List.takeWhile_cons, if_pos hil,
                                  List.takeWhile_cons, if_pos hio]
                                rfl
                              rw [hRfull] at hk
                              simp only [List.length_cons, List.length_nil] at hk
                              rw [show (line :: [old]).drop (0 + 1 + 1) = [] from rfl] at hk
                              rw [show listBlankEat [] = 0 from rfl] at hk
                              omega
                            · have hR1 : ((line :: [old]).takeWhile
                                  (fun l => (ordItem l).isSome)) = [line] := by
                                rw [List.takeWhile_cons, if_pos hil,
                                  List.takeWhile_cons, if_neg hio]
                              rw [hR1] at ha
                              have hrawa : a.raw = joinNl (([line].map
                                  mkOrdListItem).map (fun i => i.content)) := by
                                rw [← ha]
                              rw [hrawa] at hnl2
                              simp only [List.map_cons, List.map_nil] at hnl2
                              have : Char.ofNat 10 ∈ ((mkOrdListItem line).content).data := by
                                simpa [joinNl, interStr] using hnl2
                              exact hnlline (mem_ordContent line _ this)
                          · have hR0 : ((line :: [old]).takeWhile
                                (fun l => (ordItem l).isSome)) = [] := by
                              rw [List.takeWhile_cons, if_neg hil]
                            rw [hR0] at ha
                            have hrawa : a.raw = "" := by
                              rw [← ha]
                              rfl
                            rw [hrawa] at hnl2
                            simp at hnl2
                        · rw [if_neg h9] at h
                          simp only [Except.ok.injEq, Prod.mk.injEq] at h
                          obtain ⟨ha, hk⟩ := h
                          -- k = 0 forces an empty continuation run
                          have hc0 : ([old].takeWhile paraCont) = [] := by
                            have : ([old].takeWhile paraCont).length = 0 := by omega
                            exact List.eq_nil_of_length_eq_zero this
                          rw [hc0] at ha
                          have hrawa : a.raw = jsTrimEnd line := by
                            rw [← ha]
                            simp [joinNl, interStr]
                          rw [hrawa] at hnl2
                          exact hnlline (mem_trimEnd line _ hnl2)
                · rw [if_neg h7b] at h₂
                  by_cases h8 : unordStart line = true
                  · rw [if_pos h8] at h h₂
                    simp only [Except.ok.injEq, Prod.mk.injEq] at h
                    obtain ⟨ha, hk⟩ := h
                    have hble := listBlankEat_le_one ((line :: rest₁).drop
                      ((line :: rest₁).takeWhile (fun l => (unordItem l).isSome)).length)
                    have hRle := takeWhile_len_le (fun l => (unordItem l).isSome) (line :: rest₁)
                    simp only [List.length_cons] at hRle
                    by_cases hfull : ((line :: rest₁).takeWhile
                        (fun l => (unordItem l).isSome)).length = rest₁.length + 1
                    · exfalso
                      have hA1 : (line :: rest₁).drop ((line :: rest₁).takeWhile
                          (fun l => (unordItem l).isSome)).length = [] := by
                        rw [hfull]
                        exact List.drop_eq_nil_of_le (by simp)
                      rw [hA1] at hk
                      rw [show listBlankEat [] = 0 from rfl] at hk
                      omega
                    · by_cases hRn : ((line :: rest₁).takeWhile
                          (fun l => (unordItem l).isSome)).length = rest₁.length
                      · -- the run covers everything except the old last line
                        have hpred := takeWhile_pred_last (fun l => (unordItem l).isSome)
                          (line :: rest₁) (by rw [hRn]; simp) (by simp)
                        obtain ⟨hcover, hstop⟩ := hpred
                        rw [dropLast_cons_ne line rest₁ hne] at hcover
                        rw [getLastD_cons_ne line rest₁ hne] at hstop
                        have hlineq : ((line :: rest₁.dropLast) ++ [rest₁.getLastD ""]) =
                            line :: rest₁ := by
                          rw [List.cons_append, hsplit]
                        have hA1 : (line :: rest₁).drop ((line :: rest₁).takeWhile
                            (fun l => (unordItem l).isSome)).length = [rest₁.getLastD ""] := by
                          rw [hRn, ← hlineq]
                          exact List.drop_left' (by simp only [List.length_cons, hdllen]; omega)
                        rw [hA1, listBlankEat_single, hRn] at hk
                        by_cases hob : jsTrim (rest₁.getLastD "") = ""
                        · rw [if_pos hob] at hk
                          exfalso
                          omega
                        · rw [if_neg hob] at hk
                          have hsat : ∀ x ∈ line :: rest₁.dropLast,
                              (fun l => (unordItem l).isSome) x = true := by
                            intro x hx
                            exact takeWhile_sat _ (line :: rest₁) x (by rw [hcover]; exact hx)
                          have happ := takeWhile_append_all (fun l => (unordItem l).isSome)
                            (line :: rest₁.dropLast) ((rest₁.getLastD "" ++ c) :: tail2) hsat
                          have hconsapp : (line :: (rest₁.dropLast ++
                              (rest₁.getLastD "" ++ c) :: tail2)) =
                              (line :: rest₁.dropLast) ++ ((rest₁.getLastD "" ++ c) :: tail2) := rfl
                          by_cases himl : (fun l => (unordItem l).isSome)
                              (rest₁.getLastD "" ++ c) = true
                          · -- items strictly grow: raw lengthens
                            exfalso
                            have hr2 : ((line :: (rest₁.dropLast ++
                                (rest₁.getLastD "" ++ c) :: tail2)).takeWhile
                                (fun l => (unordItem l).isSome))
                                = ((line :: rest₁).takeWhile (fun l => (unordItem l).isSome)) ++
                                  ((rest₁.getLastD "" ++ c) ::
                                    tail2.takeWhile (fun l => (unordItem l).isSome)) := by
                              rw [hconsapp, happ, hcover]
                              congr 1
                              rw [List.takeWhile_cons, if_pos himl]
                            rw [hr2] at h₂
                            simp only [Except.ok.injEq, Prod.mk.injEq] at h₂
                            obtain ⟨ha2, hk2⟩ := h₂
                            rw [← ha, ← ha2] at hraw
                            dsimp only at hraw
                            rw [List.map_append, List.map_append] at hraw
                            have hlt := joinNl_len_lt
                              ((((line :: rest₁).takeWhile
                                (fun l => (unordItem l).isSome)).map
                                (mkUnordListItem opts)).map (fun i => i.content))
                              (((((rest₁.getLastD "" ++ c) ::
                                tail2.takeWhile (fun l => (unordItem l).isSome))).map
                                (mkUnordListItem opts)).map (fun i => i.content))
                              (by rw [hcover]; simp) (by simp)
                            have hlen := congrArg String.length hraw
                            omega
                          · -- run unchanged; the appended region is not blank either
                            have hr2 : ((line :: (rest₁.dropLast ++
                                (rest₁.getLastD "" ++ c) :: tail2)).takeWhile
                                (fun l => (unordItem l).isSome))
                                = ((line :: rest₁).takeWhile (fun l => (unordItem l).isSome)) := by
                              rw [hconsapp, happ, hcover]
                              have hnil : (((rest₁.getLastD "" ++ c) :: tail2).takeWhile
                                  (fun l => (unordItem l).isSome)) = [] := by
                                rw [List.takeWhile_cons, if_neg himl]
                              rw [hnil, List.append_nil]
                            rw [hr2] at h₂
                            have hA2 : (line :: (rest₁.dropLast ++
                                (rest₁.getLastD "" ++ c) :: tail2)).drop
                                ((line :: rest₁).takeWhile
                                  (fun l => (unordItem l).isSome)).length
                                = (rest₁.getLastD "" ++ c) :: tail2 := by
                              rw [hRn, hconsapp]
                              exact List.drop_left' (by simp only [List.length_cons, hdllen]; omega)
                            rw [hA2, listBlankEat_cons,
                              if_neg (jsTrim_append_ne _ c hob)] at h₂
                            simp only [Except.ok.injEq, Prod.mk.injEq] at h₂
                            obtain ⟨ha2, hk2⟩ := h₂
                            refine ⟨ha2.symm.trans ha, ?_⟩
                            rw [hRn] at hk2
                            omega
                      · -- the run stops before the old last line
                        have hRlt : ((line :: rest₁).takeWhile
                            (fun l => (unordItem l).isSome)).length < rest₁.length := by
                          omega
                        by_cases hn1' : rest₁.length = 1
                        · -- the run is empty; nothing changes
                          have hR0 : ((line :: rest₁).takeWhile
                              (fun l => (unordItem l).isSome)).length = 0 := by omega
                          have hR0' : ((line :: rest₁).takeWhile
                              (fun l => (unordItem l).isSome)) = [] :=
                            List.eq_nil_of_length_eq_zero hR0
                          have hil : ¬((fun l => (unordItem l).isSome) line = true) := by
                            intro hil'
                            rw [List.takeWhile_cons, if_pos hil'] at hR0'
                            cases hR0'
                          have hjl : jsTrim line ≠ "" := jsTrim_ne_of_trimEnd_ne line h1
                          have hR2nil : ((line :: (rest₁.dropLast ++
                              (rest₁.getLastD "" ++ c) :: tail2)).takeWhile
                              (fun l => (unordItem l).isSome)) = [] := by
                            rw [List.takeWhile_cons, if_neg hil]
                          rw [hR0'] at ha hk
                          rw [hR2nil] at h₂
                          simp only [List.length_nil, List.drop_zero] at hk h₂
                          rw [listBlankEat_cons, if_neg hjl] at hk h₂
                          simp only [Except.ok.injEq, Prod.mk.injEq] at h₂
                          obtain ⟨ha2, hk2⟩ := h₂
                          exact ⟨ha2.symm.trans ha, by omega⟩
                        · -- blank stop strictly inside: everything examined is unchanged
                          have hn2 : 2 ≤ rest₁.length := by omega
                          have hRlen : ((line :: rest₁).takeWhile
                              (fun l => (unordItem l).isSome)).length = rest₁.length - 1 := by
                            omega
                          have hn' : rest₁.length = (rest₁.length - 1) + 1 := by omega
                          have htakeN : (line :: rest₁).take rest₁.length =
                              (line :: (rest₁.dropLast ++
                                (rest₁.getLastD "" ++ c) :: tail2)).take rest₁.length := by
                            rw [hn', List.take_succ_cons, List.take_succ_cons]
                            rw [← hdltake, List.take_left' hdllen, hdltake]
                          have hr2 := takeWhile_agree (fun l => (unordItem l).isSome)
                            (line :: rest₁)
                            (line :: (rest₁.dropLast ++ (rest₁.getLastD "" ++ c) :: tail2))
                            rest₁.length htakeN (by omega)
                          rw [hr2] at h₂
                          have hhead : ((line :: (rest₁.dropLast ++
                              (rest₁.getLastD "" ++ c) :: tail2)).drop
                              ((line :: rest₁).takeWhile
                                (fun l => (unordItem l).isSome)).length).head? =
                              ((line :: rest₁).drop ((line :: rest₁).takeWhile
                                (fun l => (unordItem l).isSome)).length).head? := by
                            rw [head?_drop_eq_get?, head?_drop_eq_get?]
                            exact get?_agree_of_take _ _ rest₁.length _ htakeN.symm (by omega)
                          have hbe2 : listBlankEat ((line :: (rest₁.dropLast ++
                              (rest₁.getLastD "" ++ c) :: tail2)).drop
                              ((line :: rest₁).takeWhile
                                (fun l => (unordItem l).isSome)).length) =
                              listBlankEat ((line :: rest₁).drop
                                ((line :: rest₁).takeWhile
                                  (fun l => (unordItem l).isSome)).length) := by
                            rw [listBlankEat_eq_head?, listBlankEat_eq_head?, hhead]
                          rw [hbe2] at h₂
                          simp only [Except.ok.injEq, Prod.mk.injEq] at h₂
                          obtain ⟨ha2, hk2⟩ := h₂
                          exact ⟨ha2.symm.trans ha, by omega⟩
                  · rw [if_neg h8] at h h₂
                    by_cases h9 : ordStart line = true
                    · rw [if_pos h9] at h h₂
                      simp only [Except.ok.injEq, Prod.mk.injEq] at h
                      obtain ⟨ha, hk⟩ := h
                      have hble := listBlankEat_le_one ((line :: rest₁).drop
                        ((line :: rest₁).takeWhile (fun l => (ordItem l).isSome)).length)
                      have hRle := takeWhile_len_le (fun l => (ordItem l).isSome) (line :: rest₁)
                      simp only [List.length_cons] at hRle
                      by_cases hfull : ((line :: rest₁).takeWhile
                          (fun l => (ordItem l).isSome)).length = rest₁.length + 1
                      · exfalso
                        have hA1 : (line :: rest₁).drop ((line :: rest₁).takeWhile
                            (fun l => (ordItem l).isSome)).length = [] := by
                          rw [hfull]
                          exact List.drop_eq_nil_of_le (by simp)
                        rw [hA1] at hk
                        rw [show listBlankEat [] = 0 from rfl] at hk
                        omega
                      · by_cases hRn : ((line :: rest₁).takeWhile
                            (fun l => (ordItem l).isSome)).length = rest₁.length
                        · -- the run covers everything except the old last line
                          have hpred := takeWhile_pred_last (fun l => (ordItem l).isSome)
                            (line :: rest₁) (by rw [hRn]; simp) (by simp)
                          obtain ⟨hcover, hstop⟩ := hpred
                          rw [dropLast_cons_ne line rest₁ hne] at hcover
                          rw [getLastD_cons_ne line rest₁ hne] at hstop
                          have hlineq : ((line :: rest₁.dropLast) ++ [rest₁.getLastD ""]) =
                              line :: rest₁ := by
                            rw [List.cons_append, hsplit]
                          have hA1 : (line :: rest₁).drop ((line :: rest₁).takeWhile
                              (fun l => (ordItem l).isSome)).length = [rest₁.getLastD ""] := by
                            rw [hRn, ← hlineq]
                            exact List.drop_left' (by simp only [List.length_cons, hdllen]; omega)
                          rw [hA1, listBlankEat_single, hRn] at hk
                          by_cases hob : jsTrim (rest₁.getLastD "") = ""
                          · rw [if_pos hob] at hk
                            exfalso
                            omega
                          · rw [if_neg hob] at hk
                            have hsat : ∀ x ∈ line :: rest₁.dropLast,
                                (fun l => (ordItem l).isSome) x = true := by
                              intro x hx
                              exact takeWhile_sat _ (line :: rest₁) x (by rw [hcover]; exact hx)
                            have happ := takeWhile_append_all (fun l => (ordItem l).isSome)
                              (line :: rest₁.dropLast) ((rest₁.getLastD "" ++ c) :: tail2) hsat
                            have hconsapp : (line :: (rest₁.dropLast ++
                                (rest₁.getLastD "" ++ c) :: tail2)) =
                                (line :: rest₁.dropLast) ++ ((rest₁.getLastD "" ++ c) :: tail2) := rfl
                            by_cases himl : (fun l => (ordItem l).isSome)
                                (rest₁.getLastD "" ++ c) = true
                            · -- items strictly grow: raw lengthens
                              exfalso
                              have hr2 : ((line :: (rest₁.dropLast ++
                                  (rest₁.getLastD "" ++ c) :: tail2)).takeWhile
                                  (fun l => (ordItem l).isSome))
                                  = ((line :: rest₁).takeWhile (fun l => (ordItem l).isSome)) ++
                                    ((rest₁.getLastD "" ++ c) ::
                                      tail2.takeWhile (fun l => (ordItem l).isSome)) := by
                                rw [hconsapp, happ, hcover]
                                congr 1
                                rw [List.takeWhile_cons, if_pos himl]
                              rw [hr2] at h₂
                              simp only [Except.ok.injEq, Prod.mk.injEq] at h₂
                              obtain ⟨ha2, hk2⟩ := h₂
                              rw [← ha, ← ha2] at hraw
                              dsimp only at hraw
                              rw [List.map_append, List.map_append] at hraw
                              have hlt := joinNl_len_lt
                                ((((line :: rest₁).takeWhile
                                  (fun l => (ordItem l).isSome)).map
                                  (mkOrdListItem)).map (fun i => i.content))
                                (((((rest₁.getLastD "" ++ c) ::
                                  tail2.takeWhile (fun l => (ordItem l).isSome))).map
                                  (mkOrdListItem)).map (fun i => i.content))
                                (by rw [hcover]; simp) (by simp)
                              have hlen := congrArg String.length hraw
                              omega
                            · -- run unchanged; the appended region is not blank either
                              have hr2 : ((line :: (rest₁.dropLast ++
                                  (rest₁.getLastD "" ++ c) :: tail2)).takeWhile
                                  (fun l => (ordItem l).isSome))
                                  = ((line :: rest₁).takeWhile (fun l => (ordItem l).isSome)) := by
                                rw [hconsapp, happ, hcover]
                                have hnil : (((rest₁.getLastD "" ++ c) :: tail2).takeWhile
                                    (fun l => (ordItem l).isSome)) = [] := by
                                  rw [List.takeWhile_cons, if_neg himl]
                                rw [hnil, List.append_nil]
                              rw [hr2] at h₂
                              have hA2 : (line :: (rest₁.dropLast ++
                                  (rest₁.getLastD "" ++ c) :: tail2)).drop
                                  ((line :: rest₁).takeWhile
                                    (fun l => (ordItem l).isSome)).length
                                  = (rest₁.getLastD "" ++ c) :: tail2 := by
                                rw [hRn, hconsapp]
                                exact List.drop_left' (by simp only [List.length_cons, hdllen]; omega)
                              rw [hA2, listBlankEat_cons,
                                if_neg (jsTrim_append_ne _ c hob)] at h₂
                              simp only [Except.ok.injEq, Prod.mk.injEq] at h₂
                              obtain ⟨ha2, hk2⟩ := h₂
                              refine ⟨ha2.symm.trans ha, ?_⟩
                              rw [hRn] at hk2
                              omega
                        · -- the run stops before the old last line
                          have hRlt : ((line :: rest₁).takeWhile
                              (fun l => (ordItem l).isSome)).length < rest₁.length := by
                            omega
                          by_cases hn1' : rest₁.length = 1
                          · -- the run is empty; nothing changes
                            have hR0 : ((line :: rest₁).takeWhile
                                (fun l => (ordItem l).isSome)).length = 0 := by omega
                            have hR0' : ((line :: rest₁).takeWhile
                                (fun l => (ordItem l).isSome)) = [] :=
                              List.eq_nil_of_length_eq_zero hR0
                            have hil : ¬((fun l => (ordItem l).isSome) line = true) := by
                              intro hil'
                              rw [List.takeWhile_cons, if_pos hil'] at hR0'
                              cases hR0'
                            have hjl : jsTrim line ≠ "" := jsTrim_ne_of_trimEnd_ne line h1
                            have hR2nil : ((line :: (rest₁.dropLast ++
                                (rest₁.getLastD "" ++ c) :: tail2)).takeWhile
                                (fun l => (ordItem l).isSome)) = [] := by
                              rw [List.takeWhile_cons, if_neg hil]
                            rw [hR0'] at ha hk
                            rw [hR2nil] at h₂
                            simp only [List.length_nil, List.drop_zero] at hk h₂
                            rw [listBlankEat_cons, if_neg hjl] at hk h₂
                            simp only [Except.ok.injEq, Prod.mk.injEq] at h₂
                            obtain ⟨ha2, hk2⟩ := h₂
                            exact ⟨ha2.symm.trans ha, by omega⟩
                          · -- blank stop strictly inside: everything examined is unchanged
                            have hn2 : 2 ≤ rest₁.length := by omega
                            have hRlen : ((line :: rest₁).takeWhile
                                (fun l => (ordItem l).isSome)).length = rest₁.length - 1 := by
                              omega
                            have hn' : rest₁.length = (rest₁.length - 1) + 1 := by omega
                            have htakeN : (line :: rest₁).take rest₁.length =
                                (line :: (rest₁.dropLast ++
                                  (rest₁.getLastD "" ++ c) :: tail2)).take rest₁.length := by
                              rw [hn', List.take_succ_cons, List.take_succ_cons]
                              rw [← hdltake, List.take_left' hdllen, hdltake]
                            have hr2 := takeWhile_agree (fun l => (ordItem l).isSome)
                              (line :: rest₁)
                              (line :: (rest₁.dropLast ++ (rest₁.getLastD "" ++ c) :: tail2))
                              rest₁.length htakeN (by omega)
                            rw [hr2] at h₂
                            have hhead : ((line :: (rest₁.dropLast ++
                                (rest₁.getLastD "" ++ c) :: tail2)).drop
                                ((line :: rest₁).takeWhile
                                  (fun l => (ordItem l).isSome)).length).head? =
                                ((line :: rest₁).drop ((line :: rest₁).takeWhile
                                  (fun l => (ordItem l).isSome)).length).head? := by
                              rw [head?_drop_eq_get?, head?_drop_eq_get?]
                              exact get?_agree_of_take _ _ rest₁.length _ htakeN.symm (by omega)
                            have hbe2 : listBlankEat ((line :: (rest₁.dropLast ++
                                (rest₁.getLastD "" ++ c) :: tail2)).drop
                                ((line :: rest₁).takeWhile
                                  (fun l => (ordItem l).isSome)).length) =
                                listBlankEat ((line :: rest₁).drop
                                  ((line :: rest₁).takeWhile
                                    (fun l => (ordItem l).isSome)).length) := by
                              rw [listBlankEat_eq_head?, listBlankEat_eq_head?, hhead]
                            rw [hbe2] at h₂
                            simp only [Except.ok.injEq, Prod.mk.injEq] at h₂
                            obtain ⟨ha2, hk2⟩ := h₂
                            exact ⟨ha2.symm.trans ha, by omega⟩
                    · rw [if_neg h9] at h h₂
                      simp only [Except.ok.injEq, Prod.mk.injEq] at h
                      obtain ⟨ha, hk⟩ := h
                      have hpred := takeWhile_pred_last paraCont rest₁ hk hne
                      obtain ⟨hcover, hstop⟩ := hpred
                      have hsat : ∀ x ∈ rest₁.dropLast, paraCont x = true := by
                        intro x hx
                        exact takeWhile_sat _ rest₁ x (by rw [hcover]; exact hx)
                      have happ := takeWhile_append_all paraCont rest₁.dropLast
                        ((rest₁.getLastD "" ++ c) :: tail2) hsat
                      by_cases hpml : paraCont (rest₁.getLastD "" ++ c) = true
                      · -- modified last line continues the paragraph: raw strictly grows
                        exfalso
                        have hr2 : ((rest₁.dropLast ++
                            (rest₁.getLastD "" ++ c) :: tail2).takeWhile paraCont)
                            = (rest₁.takeWhile paraCont) ++
                              ((rest₁.getLastD "" ++ c) :: tail2.takeWhile paraCont) := by
                          rw [happ, hcover]
                          congr 1
                          rw [List.takeWhile_cons, if_pos hpml]
                        rw [hr2] at h₂
                        simp only [Except.ok.injEq, Prod.mk.injEq] at h₂
                        obtain ⟨ha2, hk2⟩ := h₂
                        rw [← ha, ← ha2] at hraw
                        dsimp only at hraw
                        rw [List.map_append] at hraw
                        have hcons2 : jsTrimEnd line ::
                            ((rest₁.takeWhile paraCont).map jsTrimEnd ++
                              ((rest₁.getLastD "" ++ c) :: tail2.takeWhile paraCont).map jsTrimEnd)
                            = (jsTrimEnd line :: (rest₁.takeWhile paraCont).map jsTrimEnd) ++
                              ((rest₁.getLastD "" ++ c) :: tail2.takeWhile paraCont).map jsTrimEnd := by
                          simp
                        rw [hcons2] at hraw
                        have hlt := joinNl_len_lt
                          (jsTrimEnd line :: (rest₁.takeWhile paraCont).map jsTrimEnd)
                          (((rest₁.getLastD "" ++ c) :: tail2.takeWhile paraCont).map jsTrimEnd)
                          (by simp) (by simp)
                        have hlen := congrArg String.length hraw
                        omega
                      · -- paragraph stops at the modified line just as before
                        have hr2 : ((rest₁.dropLast ++
                            (rest₁.getLastD "" ++ c) :: tail2).takeWhile paraCont)
                            = rest₁.takeWhile paraCont := by
                          rw [happ]
                          rw [List.takeWhile_cons, if_neg hpml, List.append_nil]
                          exact hcover.symm
                        rw [hr2] at h₂
                        simp only [Except.ok.injEq, Prod.mk.injEq] at h₂
                        obtain ⟨ha2, hk2⟩ := h₂
                        exact ⟨ha2.symm.trans ha, by omega⟩


theorem dropLast_drop {α : Type} (l : List α) (k : Nat) :
    l.dropLast.drop k = (l.drop k).dropLast := by
  rw [List.dropLast_eq_take, List.dropLast_eq_take, List.drop_take, List.length_drop]
  congr 1
  omega

theorem getLastD_append (y : List String) (hy : y ≠ []) :
    ∀ (x : List String) (d : String), (x ++ y).getLastD d = y.getLastD ""
  | [], d => getLastD_congr y hy d ""
  | a :: x, d => by
    rw [List.cons_append, List.getLastD_cons]
    exact getLastD_append y hy x a

theorem getLastD_drop (l : List String) (k : Nat) (hk : k < l.length) :
    (l.drop k).getLastD "" = l.getLastD "" := by
  have hne : l.drop k ≠ [] := by
    intro hnil
    have := congrArg List.length hnil
    simp only [List.length_drop, List.length_nil] at this
    omega
  conv_rhs => rw [← List.take_append_drop k l]
  rw [getLastD_append (l.drop k) hne]

/-- The committed tokens of a tokenisation pass survive a last-line
modification whenever their raws survive it. -/
theorem tokenizeGo_mod (opts : StreamdownOptions) :
    ∀ (fuel₁ : Nat) (lines₁ : List String) (c : String) (tail2 : List String)
      (fuel₂ i : Nat) (T₁ T₂ : List BlockToken),
      lines₁ ≠ [] →
      (∀ l ∈ lines₁, containsChar l (Char.ofNat 10) = false) →
      tokenizeGo opts fuel₁ lines₁ i = .ok T₁ →
      tokenizeGo opts fuel₂
        (lines₁.dropLast ++ (lines₁.getLastD "" ++ c) :: tail2) i = .ok T₂ →
      T₁.dropLast.map (fun t => t.raw) = T₂.dropLast.map (fun t => t.raw) →
      T₁.dropLast = T₂.dropLast := by
  intro fuel₁
  induction fuel₁ with
  | zero =>
    intro lines₁ c tail2 fuel₂ i T₁ T₂ hne hnl h h₂ hmap
    cases lines₁ with
    | nil => exact absurd rfl hne
    | cons l r => simp [tokenizeGo] at h
  | succ fuel ih =>
    intro lines₁ c tail2 fuel₂ i T₁ T₂ hne hnl h h₂ hmap
    cases lines₁ with
    | nil => exact absurd rfl hne
    | cons line rest₁ =>
      simp only [tokenizeGo] at h
      cases hstep : tokStep opts line rest₁ with
      | error e => rw [hstep] at h; cases e; cases h
      | ok p =>
        obtain ⟨tok, k⟩ := p
        rw [hstep] at h
        dsimp only at h
        cases hrec : tokenizeGo opts fuel (rest₁.drop k) (i + 1 + k) with
        | error e => rw [hrec] at h; cases e; cases h
        | ok ts₁ =>
          rw [hrec] at h
          dsimp only at h
          cases h
          cases rest₁ with
          | nil =>
            have hk0 : k = 0 := by
              have := tokStep_k_le opts line [] tok k hstep
              simpa using this
            subst hk0
            have hts1 : ts₁ = [] := by
              rw [show tokenizeGo opts fuel (([] : List String).drop 0) (i + 1 + 0) =
                (.ok [] : Except Unit (List BlockToken)) from by cases fuel <;> rfl] at hrec
              injection hrec with hrec
              exact hrec.symm
            subst hts1
            simp only [List.dropLast_single, List.map_nil] at hmap
            have hT2 : T₂.dropLast = [] := List.map_eq_nil.mp hmap.symm
            rw [hT2]
            rfl
          | cons r rs =>
            have hl2 : (line :: r :: rs).dropLast ++
                ((line :: r :: rs).getLastD "" ++ c) :: tail2
                = line :: ((r :: rs).dropLast ++
                  ((r :: rs).getLastD "" ++ c) :: tail2) := by
              rw [dropLast_cons_ne line (r :: rs) (by simp),
                getLastD_cons_ne line (r :: rs) (by simp)]
              rfl
            rw [hl2] at h₂
            cases fuel₂ with
            | zero => simp [tokenizeGo] at h₂
            | succ fuel₂' =>
              simp only [tokenizeGo] at h₂
              cases hstep₂ : tokStep opts line
                  ((r :: rs).dropLast ++ ((r :: rs).getLastD "" ++ c) :: tail2) with
              | error e => rw [hstep₂] at h₂; cases e; cases h₂
              | ok p₂ =>
                obtain ⟨tok₂, k₂⟩ := p₂
                rw [hstep₂] at h₂
                dsimp only at h₂
                cases hrec₂ : tokenizeGo opts fuel₂'
                    (((r :: rs).dropLast ++
                      ((r :: rs).getLastD "" ++ c) :: tail2).drop k₂) (i + 1 + k₂) with
                | error e => rw [hrec₂] at h₂; cases e; cases h₂
                | ok ts₂ =>
                  rw [hrec₂] at h₂
                  dsimp only at h₂
                  cases h₂
                  by_cases hklt : k < (r :: rs).length - 1
                  · -- lockstep: the step is reproduced verbatim
                    have htakeag : (r :: rs).take ((r :: rs).length - 1) =
                        ((r :: rs).dropLast ++
                          ((r :: rs).getLastD "" ++ c) :: tail2).take ((r :: rs).length - 1) := by
                      rw [List.take_left' (by rw [List.length_dropLast]),
                        List.dropLast_eq_take]
                    have hagree := tokStep_agree opts line (r :: rs)
                      ((r :: rs).dropLast ++ ((r :: rs).getLastD "" ++ c) :: tail2)
                      ((r :: rs).length - 1) tok k htakeag hstep hklt
                      (by simp only [List.length_cons]; omega)
                    have hpair := hstep₂.symm.trans hagree
                    injection hpair with hpair2
                    injection hpair2 with htok hkk
                    rw [hkk] at hrec₂
                    rw [htok, hkk] at hmap ⊢
                    have hdrop2 : ((r :: rs).dropLast ++
                        ((r :: rs).getLastD "" ++ c) :: tail2).drop k
                        = ((r :: rs).drop k).dropLast ++
                          (((r :: rs).drop k).getLastD "" ++ c) :: tail2 := by
                      rw [List.drop_append_of_le_length
                        (by rw [List.length_dropLast]; omega)]
                      rw [dropLast_drop, getLastD_drop (r :: rs) k (by omega)]
                    rw [hdrop2] at hrec₂
                    have hdne : (r :: rs).drop k ≠ [] := by
                      intro hnil
                      have := congrArg List.length hnil
                      simp only [List.length_drop, List.length_nil] at this
                      omega
                    have hnl' : ∀ l ∈ (r :: rs).drop k, containsChar l (Char.ofNat 10) = false := by
                      intro l hl
                      exact hnl l (List.mem_cons_of_mem line ((List.drop_sublist _ _).mem hl))
                    cases ts₁ with
                    | nil =>
                      cases ts₂ with
                      | nil => rfl
                      | cons y ys =>
                        exfalso
                        simp at hmap
                    | cons x xs =>
                      cases ts₂ with
                      | nil =>
                        exfalso
                        simp at hmap
                      | cons y ys =>
                        show { tok with endOffset := some (i + k) } :: (x :: xs).dropLast =
                          { tok with endOffset := some (i + k) } :: (y :: ys).dropLast
                        have hmap' : (x :: xs).dropLast.map (fun t => t.raw) =
                            (y :: ys).dropLast.map (fun t => t.raw) := by
                          have : ({ tok with endOffset := some (i + k) } ::
                              (x :: xs).dropLast).map (fun t => t.raw) =
                              ({ tok with endOffset := some (i + k) } ::
                              (y :: ys).dropLast).map (fun t => t.raw) := hmap
                          simp only [List.map_cons, List.cons.injEq] at this
                          exact this.2
                        rw [ih ((r :: rs).drop k) c tail2 fuel₂' (i + 1 + k)
                          (x :: xs) (y :: ys) hdne hnl' hrec hrec₂ hmap']
                  · by_cases hkn : k = (r :: rs).length
                    · -- the step consumed the old buffer entirely
                      have hdropnil : (r :: rs).drop k = [] :=
                        List.drop_eq_nil_of_le (by omega)
                      rw [hdropnil] at hrec
                      have hts1 : ts₁ = [] := by
                        rw [show tokenizeGo opts fuel ([] : List String) (i + 1 + k) =
                          (.ok [] : Except Unit (List BlockToken)) from by
                            cases fuel <;> rfl] at hrec
                        injection hrec with hrec
                        exact hrec.symm
                      subst hts1
                      simp only [List.dropLast_single, List.map_nil] at hmap
                      have hT2 : ({ tok₂ with endOffset := some (i + k₂) } :: ts₂).dropLast = [] :=
                        List.map_eq_nil.mp hmap.symm
                      rw [hT2]
                      rfl
                    · -- divergence at the modified last line
                      have hkle := tokStep_k_le opts line (r :: rs) tok k hstep
                      have hkeq : k = (r :: rs).length - 1 := by omega
                      have hdrop1 : (r :: rs).drop k = [(r :: rs).getLastD ""] := by
                        calc (r :: rs).drop k
                            = ((r :: rs).dropLast ++ [(r :: rs).getLastD ""]).drop k := by
                              rw [dropLast_append_getLastD "" (r :: rs) (by simp)]
                          _ = [(r :: rs).getLastD ""] :=
                              List.drop_left' (by rw [List.length_dropLast]; omega)
                      rw [hdrop1] at hrec
                      cases fuel with
                      | zero => simp [tokenizeGo] at hrec
                      | succ fuel' =>
                        simp only [tokenizeGo] at hrec
                        cases hstepb : tokStep opts ((r :: rs).getLastD "") [] with
                        | error e => rw [hstepb] at hrec; cases e; cases hrec
                        | ok pb =>
                          obtain ⟨tb, kb⟩ := pb
                          rw [hstepb] at hrec
                          dsimp only at hrec
                          rw [List.drop_nil] at hrec
                          rw [show tokenizeGo opts fuel' ([] : List String)
                              (i + 1 + k + 1 + kb) = (.ok [] : Except Unit (List BlockToken)) from by
                            cases fuel' <;> rfl] at hrec
                          dsimp only at hrec
                          cases hrec
                          cases ts₂ with
                          | nil =>
                            exfalso
                            simp at hmap
                          | cons y ys =>
                            have hmap' : ({ tok with endOffset := some (i + k) } ::
                                ({ tb with endOffset := some (i + 1 + k + kb) } :: [])).dropLast.map
                                  (fun t => t.raw) =
                                ({ tok₂ with endOffset := some (i + k₂) } :: y :: ys).dropLast.map
                                  (fun t => t.raw) := hmap
                            have hdl1 : ({ tok with endOffset := some (i + k) } ::
                                ({ tb with endOffset := some (i + 1 + k + kb) } :: [])).dropLast =
                                [{ tok with endOffset := some (i + k) }] := rfl
                            have hdl2 : ({ tok₂ with endOffset := some (i + k₂) } :: y :: ys).dropLast =
                                { tok₂ with endOffset := some (i + k₂) } :: (y :: ys).dropLast := rfl
                            rw [hdl1, hdl2] at hmap'
                            simp only [List.map_cons, List.map_nil, List.cons.injEq] at hmap'
                            obtain ⟨hrawtk, hmaptail⟩ := hmap'
                            have hlast := tokStep_last_raw opts line c (r :: rs) tail2 tok tok₂ k₂
                              (by simp) (hnl line (List.mem_cons_self _ _))
                              (by rw [← hkeq]; exact hstep) hstep₂ hrawtk.symm
                            obtain ⟨htokeq, hk₂eq⟩ := hlast
                            have hdltail : (y :: ys).dropLast = [] :=
                              List.map_eq_nil.mp hmaptail.symm
                            show [{ tok with endOffset := some (i + k) }] =
                              { tok₂ with endOffset := some (i + k₂) } :: (y :: ys).dropLast
                            rw [hdltail, htokeq, hk₂eq, hkeq]

/-- Appending to a buffer modifies its last split line in place and appends
whole new lines after it. -/
theorem splitOnCharCs_mod (sep : Char) :
    ∀ (a b : List Char), ∃ c₀ t2, splitOnCharCs sep (a ++ b) =
      (splitOnCharCs sep a).dropLast ++
        ((splitOnCharCs sep a).getLastD [] ++ c₀) :: t2
  | [], b => by
    cases hsb : splitOnCharCs sep b with
    | nil => exact absurd hsb (splitOnCharCs_ne_nil sep b)
    | cons h t =>
      refine ⟨h, t, ?_⟩
      show splitOnCharCs sep b = _
      rw [hsb]
      rfl
  | ch :: a, b => by
    obtain ⟨c₀, t2, ih⟩ := splitOnCharCs_mod sep a b
    by_cases hc : ch = sep
    · refine ⟨c₀, t2, ?_⟩
      rw [show splitOnCharCs sep (ch :: a ++ b) = [] :: splitOnCharCs sep (a ++ b) from by
        simp only [List.cons_append, splitOnCharCs, if_pos hc]
        rfl]
      rw [show splitOnCharCs sep (ch :: a) = [] :: splitOnCharCs sep a from by
        simp only [splitOnCharCs, if_pos hc]]
      rw [ih]
      cases hsa : splitOnCharCs sep a with
      | nil => exact absurd hsa (splitOnCharCs_ne_nil sep a)
      | cons h0 ra =>
        rw [dropLast_cons_ne ([] : List Char) (h0 :: ra) (by simp),
          getLastD_cons_ne ([] : List Char) (h0 :: ra) (by simp)]
        rfl
    · refine ⟨c₀, t2, ?_⟩
      have hstep : ∀ cs, splitOnCharCs sep (ch :: cs) =
          match splitOnCharCs sep cs with
          | [] => [[ch]]
          | l :: ls => (ch :: l) :: ls := by
        intro cs
        simp only [splitOnCharCs, if_neg hc]
      rw [List.cons_append, hstep (a ++ b), hstep a]
      cases hsa : splitOnCharCs sep a with
      | nil => exact absurd hsa (splitOnCharCs_ne_nil sep a)
      | cons h0 ra =>
        rw [hsa] at ih
        cases ra with
        | nil =>
          rw [ih]
          rfl
        | cons h1 ra' =>
          rw [ih]
          rw [show (h0 :: h1 :: ra').dropLast = h0 :: (h1 :: ra').dropLast from rfl,
            getLastD_cons_ne h0 (h1 :: ra') (by simp)]
          rfl

theorem data_append (a b : String) : (a ++ b).data = a.data ++ b.data := by
  cases a
  cases b
  rfl

theorem asString_append (a b : List Char) : (a ++ b).asString = a.asString ++ b.asString := rfl

theorem map_dropLast {α β : Type} (f : α → β) : ∀ l : List α,
    l.dropLast.map f = (l.map f).dropLast
  | [] => rfl
  | [a] => rfl
  | a :: b :: t => by
    have ih := map_dropLast f (b :: t)
    rw [show (a :: b :: t).dropLast = a :: (b :: t).dropLast from rfl, List.map_cons, ih,
      List.map_cons, List.map_cons]
    rfl

theorem map_getLastD {α β : Type} (f : α → β) : ∀ (l : List α) (d : α),
    (l.map f).getLastD (f d) = f (l.getLastD d)
  | [], _ => rfl
  | a :: t, d => by
    rw [List.map_cons, List.getLastD_cons, List.getLastD_cons, map_getLastD f t a]

theorem splitLines_mod (B C : String) :
    ∃ (c₀ : String) (tail2 : List String), splitLines (B ++ C) =
      (splitLines B).dropLast ++ ((splitLines B).getLastD "" ++ c₀) :: tail2 := by
  obtain ⟨c₀, t2, hm⟩ := splitOnCharCs_mod (Char.ofNat 10) B.data C.data
  refine ⟨c₀.asString, t2.map List.asString, ?_⟩
  unfold splitLines
  rw [data_append, hm, List.map_append, List.map_cons]
  rw [map_dropLast, asString_append]
  rw [show ("" : String) = List.asString [] from rfl]
  rw [map_getLastD List.asString _ []]

theorem splitOnCharCs_seg_no_sep (sep : Char) :
    ∀ (cs : List Char) (seg : List Char), seg ∈ splitOnCharCs sep cs → sep ∉ seg
  | [], seg, hm => by
    simp only [splitOnCharCs, List.mem_singleton] at hm
    subst hm
    simp
  | c :: cs, seg, hm => by
    by_cases hc : c = sep
    · rw [show splitOnCharCs sep (c :: cs) = [] :: splitOnCharCs sep cs from by
        simp only [splitOnCharCs, if_pos hc]] at hm
      rcases List.mem_cons.mp hm with h1 | h2
      · subst h1; simp
      · exact splitOnCharCs_seg_no_sep sep cs seg h2
    · rw [show splitOnCharCs sep (c :: cs) =
          match splitOnCharCs sep cs with
          | [] => [[c]]
          | l :: ls => (c :: l) :: ls from by
        simp only [splitOnCharCs, if_neg hc]] at hm
      cases hsc : splitOnCharCs sep cs with
      | nil => exact absurd hsc (splitOnCharCs_ne_nil sep cs)
      | cons l ls =>
        rw [hsc] at hm
        dsimp only at hm
        rcases List.mem_cons.mp hm with h1 | h2
        · subst h1
          intro hmem
          rcases List.mem_cons.mp hmem with h3 | h4
          · exact hc h3.symm
          · exact splitOnCharCs_seg_no_sep sep cs l (by rw [hsc]; exact List.mem_cons_self _ _) h4
        · exact splitOnCharCs_seg_no_sep sep cs seg (by rw [hsc]; exact List.mem_cons_of_mem l h2)

/-- Every split line is newline-free. -/
theorem splitLines_no_nl (s : String) :
    ∀ l ∈ splitLines s, containsChar l (Char.ofNat 10) = false := by
  intro l hl
  unfold splitLines at hl
  rw [List.mem_map] at hl
  obtain ⟨seg, hseg, hback⟩ := hl
  have hns := splitOnCharCs_seg_no_sep (Char.ofNat 10) s.data seg hseg
  subst hback
  by_cases hb : containsChar seg.asString (Char.ofNat 10) = true
  · exact absurd ((containsChar_iff _ _).mp hb) hns
  · cases hcb : containsChar seg.asString (Char.ofNat 10) with
    | false => rfl
    | true => exact absurd hcb hb

theorem renderTokenOv_nil (t : BlockToken) (d : String) : renderTokenOv [] t d = d := rfl

theorem pluginInlineRules_nil : pluginInlineRules [] = [] := rfl

theorem applyPostProcessors_nil (h : String) : applyPostProcessors [] h = h := rfl

theorem str_ne_empty_of_data (s : String) (h : s.data ≠ []) : s ≠ "" := by
  intro hc
  subst hc
  exact h rfl

theorem strne_of_append (a b : String) (h : a ≠ "") : (a ++ b) ≠ "" := by
  apply str_ne_empty_of_data
  rw [data_append]
  intro hc
  rcases List.append_eq_nil.mp hc with ⟨h1, _⟩
  exact h (by cases a; simp at h1; simp [h1])

theorem joinNl_cons_ne (x : String) (xs : List String) (hx : x ≠ "") :
    joinNl (x :: xs) ≠ "" := by
  cases xs with
  | nil => exact hx
  | cons y ys =>
    show (x ++ "\n" ++ interStr "\n" (y :: ys)) ≠ ""
    exact strne_of_append _ _ (strne_of_append _ _ hx)

/-- Every token the tokenizer produces carries one of its ten block
types. -/
theorem tokStep_type (opts : StreamdownOptions) (line : String)
    (rest : List String) (tok : BlockToken) (k : Nat)
    (h : tokStep opts line rest = .ok (tok, k)) :
    tok.type = .newline ∨ tok.type = .math_block ∨ tok.type = .code_block ∨
    tok.type = .heading ∨ tok.type = .hr ∨ tok.type = .callout ∨
    tok.type = .blockquote ∨ tok.type = .table ∨ tok.type = .list ∨
    tok.type = .paragraph := by
  unfold tokStep at h
  dsimp only at h
  split at h
  · cases h
    simp
  · split at h
    · split at h
      · cases h
        simp
      · cases h
        simp
    · split at h
      · cases h
        simp
      · split at h
        · cases h
          simp
        · split at h
          · cases h
            simp
          · split at h
            · split at h
              · cases h
                simp
              · cases h
                simp
            · split at h
              · split at h
                · cases h
                  simp
                · cases h
              · split at h
                · cases h
                  simp
                · split at h
                  · cases h
                    simp
                  · cases h
                    simp

/-- Every token of a tokenisation pass carries one of the ten block
types. -/
theorem tokenizeGo_types (opts : StreamdownOptions) :
    ∀ (fuel : Nat) (lines : List String) (i : Nat) (ts : List BlockToken),
      tokenizeGo opts fuel lines i = .ok ts →
      ∀ t ∈ ts,
        t.type = .newline ∨ t.type = .math_block ∨ t.type = .code_block ∨
        t.type = .heading ∨ t.type = .hr ∨ t.type = .callout ∨
        t.type = .blockquote ∨ t.type = .table ∨ t.type = .list ∨
        t.type = .paragraph := by
  intro fuel
  induction fuel with
  | zero =>
    intro lines i ts h
    cases lines with
    | nil => cases h; intro t ht; simp at ht
    | cons a l => simp [tokenizeGo] at h
  | succ fuel ih =>
    intro lines i ts h
    cases lines with
    | nil => cases h; intro t ht; simp at ht
    | cons line rest =>
      simp only [tokenizeGo] at h
      cases hstep : tokStep opts line rest with
      | error e => rw [hstep] at h; cases e; cases h
      | ok p =>
        obtain ⟨tok, k⟩ := p
        rw [hstep] at h
        dsimp only at h
        cases hrec : tokenizeGo opts fuel (rest.drop k) (i + 1 + k) with
        | error e => rw [hrec] at h; cases e; cases h
        | ok ts₁ =>
          rw [hrec] at h
          dsimp only at h
          cases h
          intro t ht
          rcases List.mem_cons.mp ht with h1 | h2
          · subst h1
            exact tokStep_type opts line rest tok k hstep
          · exact ih (rest.drop k) (i + 1 + k) ts₁ hrec t h2

/-- Without plugins every rendered fragment of a non-newline tokenizer
token is nonempty (each builder emits a literal opening tag). -/
theorem renderSingleToken_ne (collab : Collab) (opts : StreamdownOptions)
    (ir : List (String → String)) (t : BlockToken)
    (hty : t.type = .math_block ∨ t.type = .code_block ∨ t.type = .heading ∨
      t.type = .hr ∨ t.type = .callout ∨ t.type = .blockquote ∨ t.type = .table ∨
      t.type = .list ∨ t.type = .paragraph) :
    renderSingleToken collab opts ir t ≠ "" := by
  unfold renderSingleToken
  rcases hty with h|h|h|h|h|h|h|h|h <;> rw [h] <;> dsimp only
  · unfold renderMathBlock
    repeat apply strne_of_append
    decide
  · unfold renderCodeBlock
    dsimp only
    split
    · split
      · repeat apply strne_of_append
        decide
      · decide
    · repeat apply strne_of_append
      decide
  · unfold renderHeading
    repeat apply strne_of_append
    decide
  · decide
  · unfold renderCallout
    repeat apply strne_of_append
    decide
  · unfold renderBlockquote
    repeat apply strne_of_append
    decide
  · unfold renderTable
    repeat apply strne_of_append
    decide
  · unfold renderList
    dsimp only
    apply joinNl_cons_ne
    repeat apply strne_of_append
    decide
  · unfold renderParagraph
    repeat apply strne_of_append
    decide

theorem pendingOf_aux (n : Nat) :
    ∀ (ts : List BlockToken) (s : Nat),
      (∀ t ∈ ts.dropLast, t.isComplete = some true) → s + ts.length = n →
      ((ts.enumFrom s).filter
        (fun p => !(decide (p.2.isComplete = some true) && decide (p.1 + 1 < n)))).map (·.2) =
        ts.drop (ts.length - 1) := by
  intro ts
  induction ts with
  | nil => intro s h hn; rfl
  | cons t ts ih =>
    intro s h hn
    cases ts with
    | nil =>
      simp only [List.length_cons, List.length_nil] at hn
      have hd : (decide (s + 1 < n)) = false := decide_eq_false (by omega)
      simp [List.enumFrom, List.filter_cons, hd]
    | cons u us =>
      simp only [List.length_cons] at hn
      have hct : t.isComplete = some true := by
        apply h
        rw [List.dropLast_cons_of_ne_nil (by simp)]
        exact List.mem_cons_self t _
      have hrest : ∀ x ∈ (u :: us).dropLast, x.isComplete = some true := by
        intro x hx
        apply h
        rw [List.dropLast_cons_of_ne_nil (by simp)]
        exact List.mem_cons_of_mem t hx
      have hih := ih (s + 1) hrest (by simp only [List.length_cons]; omega)
      have hd1 : decide (t.isComplete = some true) = true := decide_eq_true hct
      have hd2 : decide (s + 1 < n) = true := decide_eq_true (by omega)
      have hcond : (!(decide (t.isComplete = some true) && decide (s + 1 < n))) = false := by
        rw [hd1, hd2]
        rfl
      show (List.filter (fun p => !(decide (p.2.isComplete = some true) && decide (p.1 + 1 < n)))
          ((s, t) :: (u :: us).enumFrom (s + 1))).map (fun x => x.2) =
        (t :: u :: us).drop ((t :: u :: us).length - 1)
      rw [List.filter_cons, if_neg (by rw [hcond]; simp), hih]
      simp only [List.length_cons]
      rfl

/-- With the completeness invariant, the pending part is exactly the final
token (or nothing for an empty pass). -/
theorem pendingOf_eq_lastDrop (ts : List BlockToken)
    (h : ∀ t ∈ ts.dropLast, t.isComplete = some true) :
    pendingOf ts = ts.drop (ts.length - 1) := by
  unfold pendingOf
  exact pendingOf_aux ts.length ts 0 h (by omega)

theorem zip_raw_eq : ∀ (xs ys : List BlockToken),
    xs.length = ys.length →
    ((xs.zip ys).any (fun p => p.1.raw ≠ p.2.raw)) = false →
    xs.map (fun t => t.raw) = ys.map (fun t => t.raw)
  | [], [], _, _ => rfl
  | [], y :: ys, hl, _ => by simp at hl
  | x :: xs, [], hl, _ => by simp at hl
  | x :: xs, y :: ys, hl, ha => by
    simp only [List.zip_cons_cons, List.any_cons, Bool.or_eq_false_iff] at ha
    obtain ⟨h1, h2⟩ := ha
    simp only [List.length_cons] at hl
    have hr : x.raw = y.raw := by
      by_contra hc
      rw [decide_eq_true hc] at h1
      cases h1
    rw [List.map_cons, List.map_cons, hr,
      zip_raw_eq xs ys (by omega) h2]

/-- Cache validity: if the committed raws survive an append, the committed
tokens themselves survive it. -/
theorem tokenizeE_mod (opts : StreamdownOptions) (B C : String)
    (ts₁ ts₂ : List BlockToken)
    (h1 : tokenizeE B opts = .ok ts₁)
    (h2 : tokenizeE (B ++ C) opts = .ok ts₂)
    (hraw : ts₁.dropLast.map (fun t => t.raw) = ts₂.dropLast.map (fun t => t.raw)) :
    ts₁.dropLast = ts₂.dropLast := by
  unfold tokenizeE at h1 h2
  obtain ⟨c₀, tail2, hm⟩ := splitLines_mod B C
  rw [hm] at h2
  have hne : splitLines B ≠ [] := by
    unfold splitLines
    intro hc
    exact splitOnCharCs_ne_nil (Char.ofNat 10) B.data (List.map_eq_nil.mp hc)
  exact tokenizeGo_mod opts (splitLines B).length (splitLines B) c₀ tail2 _ 0 ts₁ ts₂ hne
    (splitLines_no_nl B) h1 h2 hraw

/-- A fixed token used only as a `getLastD` default in proofs. -/
def dfltTok : BlockToken := { type := TokenType.newline, raw := "" }

theorem joinNl_one (x : String) : joinNl [x] = x := rfl

theorem strAppend_assoc (a b c : String) : (a ++ b) ++ c = a ++ (b ++ c) := by
  cases a with | mk la =>
  cases b with | mk lb =>
  cases c with | mk lc =>
  show String.mk ((la ++ lb) ++ lc) = String.mk (la ++ (lb ++ lc))
  rw [List.append_assoc]

/-- Without plugins, rendering a full pass splits exactly as the
incremental combiner joins the committed and pending parts. -/
theorem renderTokensStr_split (collab : Collab) (opts : StreamdownOptions)
    (ts : List BlockToken)
    (htypes : ∀ t ∈ ts, t.type = .newline ∨ t.type = .math_block ∨ t.type = .code_block ∨
      t.type = .heading ∨ t.type = .hr ∨ t.type = .callout ∨ t.type = .blockquote ∨
      t.type = .table ∨ t.type = .list ∨ t.type = .paragraph) :
    renderTokensStr collab opts [] [] ts =
      (if renderTokensStr collab opts [] [] (ts.drop (ts.length - 1)) ≠ "" then
        (if renderTokensStr collab opts [] [] ts.dropLast ≠ "" then
          renderTokensStr collab opts [] [] ts.dropLast ++ "\n" ++
            renderTokensStr collab opts [] [] (ts.drop (ts.length - 1))
         else renderTokensStr collab opts [] [] (ts.drop (ts.length - 1)))
       else renderTokensStr collab opts [] [] ts.dropLast) := by
  by_cases hne : ts = []
  · subst hne
    rfl
  · have hsplit : ts.dropLast ++ [ts.getLastD dfltTok] = ts :=
      dropLast_append_getLastD dfltTok ts hne
    have hdrop : ts.drop (ts.length - 1) = [ts.getLastD dfltTok] := by
      calc ts.drop (ts.length - 1)
          = (ts.dropLast ++ [ts.getLastD dfltTok]).drop (ts.length - 1) := by rw [hsplit]
        _ = [ts.getLastD dfltTok] := List.drop_left' (by rw [List.length_dropLast])
    have hlastmem : ts.getLastD dfltTok ∈ ts := by
      have hmm : ts.getLastD dfltTok ∈ ts.dropLast ++ [ts.getLastD dfltTok] :=
        List.mem_append_right _ (List.mem_cons_self _ _)
      rw [hsplit] at hmm
      exact hmm
    rw [hdrop]
    conv_lhs => rw [← hsplit]
    unfold renderTokensStr
    simp only [renderTokenOv_nil]
    rw [List.filter_append, List.map_append]
    by_cases hl : (ts.getLastD dfltTok).type = TokenType.newline
    · have hF2 : ([ts.getLastD dfltTok].filter (fun t => t.type ≠ TokenType.newline)) = [] := by
        rw [List.filter_cons, if_neg (fun hc => (of_decide_eq_true hc) hl)]
        rfl
      rw [hF2, List.map_nil, List.append_nil]
      rw [if_neg (by simp [joinNl, interStr])]
    · have hF2 : ([ts.getLastD dfltTok].filter (fun t => t.type ≠ TokenType.newline)) =
          [ts.getLastD dfltTok] := by
        rw [List.filter_cons, if_pos (decide_eq_true hl)]
        rfl
      rw [hF2, List.map_cons, List.map_nil]
      have hfragne : renderSingleToken collab opts [] (ts.getLastD dfltTok) ≠ "" := by
        apply renderSingleToken_ne
        rcases htypes _ hlastmem with h | h10
        · exact absurd h hl
        · exact h10
      cases hF1shape : (ts.dropLast.filter (fun t => t.type ≠ TokenType.newline)).map
          (fun t => renderSingleToken collab opts [] t) with
      | nil =>
        rw [List.nil_append, joinNl_one]
        rw [if_pos hfragne]
        rw [if_neg (by simp [joinNl, interStr])]
      | cons f0 F1 =>
        have hf0 : f0 ≠ "" := by
          have hmem0 : f0 ∈ (ts.dropLast.filter (fun t => t.type ≠ TokenType.newline)).map
              (fun t => renderSingleToken collab opts [] t) := by
            rw [hF1shape]
            exact List.mem_cons_self _ _
          rw [List.mem_map] at hmem0
          obtain ⟨t, htmem, heq⟩ := hmem0
          rw [← heq]
          rw [List.mem_filter] at htmem
          obtain ⟨htmem1, htcond⟩ := htmem
          have htts : t ∈ ts := by
            rw [← hsplit]
            exact List.mem_append_left _ htmem1
          apply renderSingleToken_ne
          rcases htypes _ htts with h | h10
          · exfalso
            rw [h] at htcond
            simp at htcond
          · exact h10
        rw [joinNl_append_cons (f0 :: F1) _ [] (by simp), joinNl_one]
        rw [if_pos hfragne]
        rw [if_pos (joinNl_cons_ne f0 F1 hf0)]

/-- Without plugins, an incremental render against a valid checkpoint cache
returns exactly the one-shot render of the buffer (with the cursor suffix)
and re-validates the cache. -/
theorem renderIncrementalE_spec (collab : Collab) (opts : StreamdownOptions)
    (hpl : opts.plugins = []) (st : SessionState) (B₀ C : String) (ts₀ : List BlockToken)
    (hbuf : st.buffer = B₀ ++ C)
    (h0 : tokenizeE B₀ opts = .ok ts₀)
    (hct : st.completedTokens = committedOf ts₀)
    (hch : st.completedHtml = renderTokensStr collab opts [] [] (committedOf ts₀)) :
    renderIncrementalE collab opts st =
      (renderMerged collab opts st.buffer).map (fun h =>
        ({ st with
            completedTokens := committedOf ((tokenizeE st.buffer opts).toOption.getD []),
            completedHtml := renderTokensStr collab opts [] []
              (committedOf ((tokenizeE st.buffer opts).toOption.getD [])) },
         if opts.streaming && opts.cursor ≠ "" then
            h ++ "<span class=\"sd-cursor\">" ++ opts.cursor ++ "</span>"
          else h)) := by
  have hcomp₀ : ∀ t ∈ ts₀.dropLast, t.isComplete = some true := by
    apply tokenizeGo_complete opts (splitLines B₀).length (splitLines B₀) 0 ts₀
    exact h0
  unfold renderIncrementalE renderMerged
  dsimp only
  rw [hpl, pluginInlineRules_nil]
  cases htok : tokenizeE st.buffer opts with
  | error e =>
    cases e
    rfl
  | ok ts₁ =>
    have hcomp₁ : ∀ t ∈ ts₁.dropLast, t.isComplete = some true := by
      apply tokenizeGo_complete opts (splitLines st.buffer).length (splitLines st.buffer) 0 ts₁
      exact htok
    have htypes₁ : ∀ t ∈ ts₁,
        t.type = .newline ∨ t.type = .math_block ∨ t.type = .code_block ∨
        t.type = .heading ∨ t.type = .hr ∨ t.type = .callout ∨
        t.type = .blockquote ∨ t.type = .table ∨ t.type = .list ∨
        t.type = .paragraph := by
      apply tokenizeGo_types opts (splitLines st.buffer).length (splitLines st.buffer) 0 ts₁
      exact htok
    have hcm₁ : committedOf ts₁ = ts₁.dropLast := committedOf_eq_dropLast ts₁ hcomp₁
    have hcm₀ : committedOf ts₀ = ts₀.dropLast := committedOf_eq_dropLast ts₀ hcomp₀
    have hpend : pendingOf ts₁ = ts₁.drop (ts₁.length - 1) := pendingOf_eq_lastDrop ts₁ hcomp₁
    dsimp only
    rw [hcm₁, hpend, hct, hcm₀]
    rw [hch, hcm₀]
    dsimp only [Except.toOption, Option.getD, Except.map]
    rw [hcm₁]
    by_cases hb : (decide (ts₁.dropLast.length ≠ ts₀.dropLast.length) ||
        ((ts₁.dropLast.zip ts₀.dropLast).any (fun p => p.1.raw ≠ p.2.raw))) = true
    · rw [if_pos hb, if_pos hb]
      rw [← renderTokensStr_split collab opts ts₁ htypes₁]
    · have hdleq : ts₀.dropLast = ts₁.dropLast := by
        simp only [Bool.or_eq_true, not_or] at hb
        obtain ⟨hb1, hb2⟩ := hb
        have hlen : ts₁.dropLast.length = ts₀.dropLast.length := by
          by_contra hc
          exact hb1 (decide_eq_true hc)
        have hany : ((ts₁.dropLast.zip ts₀.dropLast).any
            (fun p => p.1.raw ≠ p.2.raw)) = false := by
          cases hx : ((ts₁.dropLast.zip ts₀.dropLast).any (fun p => p.1.raw ≠ p.2.raw)) with
          | false => rfl
          | true => exact absurd hx hb2
        have hmapeq := zip_raw_eq ts₁.dropLast ts₀.dropLast hlen hany
        apply tokenizeE_mod opts B₀ C ts₀ ts₁ h0
        · rw [← hbuf]
          exact htok
        · exact hmapeq.symm
      rw [if_neg hb, if_neg hb, hdleq]
      rw [← renderTokensStr_split collab opts ts₁ htypes₁]

/-- Session states reachable from a fresh renderer through pushes. -/
inductive Reach (collab : Collab) (opts : StreamdownOptions) : SessionState → Prop where
  | init : Reach collab opts initSession
  | push : ∀ (st : SessionState) (chunk : String), Reach collab opts st →
      Reach collab opts (pushE collab opts st chunk).1

def initTok : BlockToken :=
  { type := TokenType.newline, raw := "\n", isComplete := some true, endOffset := some 0 }

theorem strAppend_empty (s : String) : s ++ "" = s := by
  cases s with | mk l =>
  show String.mk (l ++ []) = String.mk l
  rw [List.append_nil]

/-- Every reachable session state of a plugin-free session carries a valid
checkpoint cache: the committed token list and HTML are those of a prefix
of the buffer that tokenized successfully. -/
theorem reach_inv (collab : Collab) (opts : StreamdownOptions)
    (hpl : opts.plugins = []) (st : SessionState) (h : Reach collab opts st) :
    ∃ B₀ C ts₀, st.buffer = B₀ ++ C ∧ tokenizeE B₀ opts = .ok ts₀ ∧
      st.completedTokens = committedOf ts₀ ∧
      st.completedHtml = renderTokensStr collab opts [] [] (committedOf ts₀) := by
  induction h with
  | init =>
    exact ⟨"", "", [initTok], rfl, rfl, rfl, rfl⟩
  | push st chunk hr ih =>
    obtain ⟨B₀, C, ts₀, hbuf, h0, hct, hch⟩ := ih
    have hbuf1 : ({ st with buffer := st.buffer ++ chunk } : SessionState).buffer
        = B₀ ++ (C ++ chunk) := by
      show st.buffer ++ chunk = B₀ ++ (C ++ chunk)
      rw [hbuf, strAppend_assoc]
    have hspec := renderIncrementalE_spec collab opts hpl
      { st with buffer := st.buffer ++ chunk } B₀ (C ++ chunk) ts₀ hbuf1 h0 hct hch
    unfold pushE
    dsimp only
    rw [hspec]
    dsimp only
    cases hm : renderMerged collab opts (st.buffer ++ chunk) with
    | error e =>
      cases e
      exact ⟨B₀, C ++ chunk, ts₀, hbuf1, h0, hct, hch⟩
    | ok h =>
      have htokex : ∃ ts₁,
          tokenizeE ({ st with buffer := st.buffer ++ chunk } : SessionState).buffer opts
            = .ok ts₁ := by
        unfold renderMerged at hm
        cases ht : tokenizeE (st.buffer ++ chunk) opts with
        | error e =>
          cases e
          rw [ht] at hm
          exact absurd hm (by simp)
        | ok ts => exact ⟨ts, rfl⟩
      obtain ⟨ts₁, ht1⟩ := htokex
      dsimp only [Except.map]
      rw [ht1]
      refine ⟨st.buffer ++ chunk, "", ts₁, ?_, ht1, rfl, rfl⟩
      show st.buffer ++ chunk = (st.buffer ++ chunk) ++ ""
      rw [strAppend_empty]

/-- C2: for a session whose options register no plugins, the HTML string
returned by each push equals the non-incremental render of the accumulated
buffer with the session's options followed by the cursor span (when
streaming and a cursor are configured); a tokenizer error surfaces as the
push's error. -/
theorem C2_amended (collab : Collab) (opts : StreamdownOptions)
    (hpl : opts.plugins = []) (st : SessionState)
    (hreach : Reach collab opts st) (chunk : String) :
    (pushE collab opts st chunk).2 =
      (renderMerged collab opts (st.buffer ++ chunk)).map (fun h =>
        if opts.streaming && opts.cursor ≠ "" then
          h ++ "<span class=\"sd-cursor\">" ++ opts.cursor ++ "</span>"
        else h) := by
  obtain ⟨B₀, C, ts₀, hbuf, h0, hct, hch⟩ := reach_inv collab opts hpl st hreach
  have hbuf1 : ({ st with buffer := st.buffer ++ chunk } : SessionState).buffer
      = B₀ ++ (C ++ chunk) := by
    show st.buffer ++ chunk = B₀ ++ (C ++ chunk)
    rw [hbuf, strAppend_assoc]
  have hspec := renderIncrementalE_spec collab opts hpl
    { st with buffer := st.buffer ++ chunk } B₀ (C ++ chunk) ts₀ hbuf1 h0 hct hch
  unfold pushE
  dsimp only
  rw [hspec]
  dsimp only
  cases hm : renderMerged collab opts (st.buffer ++ chunk) with
  | error e =>
    cases e
    rfl
  | ok h => rfl

/-- Witness: the amended C2 at the default options, a fresh session and the
chunk "# Hi". -/
theorem C2_amended_witness :
    (pushE trivialCollab DEFAULT_OPTIONS initSession "# Hi").2 =
      (renderMerged trivialCollab DEFAULT_OPTIONS (initSession.buffer ++ "# Hi")).map
        (fun h =>
          if DEFAULT_OPTIONS.streaming && DEFAULT_OPTIONS.cursor ≠ "" then
            h ++ "<span class=\"sd-cursor\">" ++ DEFAULT_OPTIONS.cursor ++ "</span>"
          else h) :=
  C2_amended trivialCollab DEFAULT_OPTIONS rfl initSession Reach.init "# Hi"

end Litedown
